import Mathlib

/-!
# RustLexer: a shallow embedding of `rustlexer.cpp` and its verification

The embedding follows `src/rustlexer.cpp` function by function.

* A source text is the list of its storage units (C++ `char`), each one a
  `Char`; units with code 128 and above stand for the non-ASCII bytes, which
  every classification predicate of the lexer rejects.
* The cursor is the record `Lexer` (`source`, `position`, `line`, `column`).
  `position` is a `size_t` and is a `Nat` here; `line` and `column` are C++
  `int`s and are unbounded `Int`s here (no input shorter than `2^31` units can
  overflow them).
* A member function that mutates the cursor and returns a value becomes a
  function returning the value together with the new cursor.
* A `while` loop becomes `whileLoop`, which runs the loop body under a fuel
  bound and returns `none` when the bound is reached with the loop condition
  still true. Every loop of the lexer is given the number of storage units
  that remain at its entry as fuel; the theorems below show that this is
  always enough, so `none` is never returned.
* The `<cctype>` predicates are those of the "C" locale.
-/

namespace RustLexer

/-! ## Data model (`rustlexer.h`) -/

/-- Token categories, `enum class TokenType`. -/
inductive TokenType where
  | KEYWORD
  | IDENTIFIER
  | INTEGER_LITERAL
  | FLOAT_LITERAL
  | STRING_LITERAL
  | CHAR_LITERAL
  | OPERATOR
  | DELIMITER
  | COMMENT
  | MACRO_CALL
  | UNKNOWN
  deriving DecidableEq, Repr

/-- A token, `struct Token`. -/
structure Token where
  lexeme : List Char
  type : TokenType
  line : Int
  column : Int
  deriving DecidableEq, Repr

/-- The cursor of `class RustLexer`: the source and the three mutable fields. -/
structure Lexer where
  source : List Char
  position : Nat
  line : Int
  column : Int
  deriving DecidableEq, Repr

/-- The constructor `RustLexer::RustLexer(source)`: offset 0, line 1, column 0. -/
def Lexer.init (source : List Char) : Lexer :=
  { source := source, position := 0, line := 1, column := 0 }

/-! ## Static tables -/

/-- The keyword set `RustLexer::KEYWORDS`. -/
def KEYWORDS : List (List Char) :=
  ["as", "break", "const", "continue", "crate", "else", "enum", "extern",
   "false", "fn", "for", "if", "impl", "in", "let", "loop", "match", "mod",
   "move", "mut", "pub", "ref", "return", "self", "Self", "static", "struct",
   "super", "trait", "true", "type", "unsafe", "use", "where", "while", "async",
   "await", "dyn", "abstract", "become", "box", "do", "final", "macro", "override",
   "priv", "typeof", "unsized", "virtual", "yield", "try"].map String.toList

/-- The operator table `RustLexer::OPERATORS` (every entry maps to `OPERATOR`). -/
def OPERATORS : List (List Char × TokenType) :=
  ["+", "-", "*", "/", "%", "=", "==", "!=", ">", "<", ">=", "<=",
   "&", "|", "^", "!", "~", "&&", "||", "+=", "-=", "*=", "/=", "%=",
   "&=", "|=", "^=", "<<", ">>", "<<=", ">>=", "..", "..=", "->", "=>"].map
    (fun s => (String.toList s, TokenType.OPERATOR))

/-- The delimiter table `RustLexer::DELIMITERS` (every entry maps to `DELIMITER`). -/
def DELIMITERS : List (Char × TokenType) :=
  ['(', ')', '\x7b', '\x7d', '[', ']', ';', ':', ',', '.'].map
    (fun c => (c, TokenType.DELIMITER))

/-- The test `OPERATORS.find(op) != OPERATORS.end()`. -/
def isOperatorKey (op : List Char) : Bool :=
  OPERATORS.any (fun e => e.1 == op)

/-- The test `DELIMITERS.find(c) != DELIMITERS.end()`. -/
def isDelimiterKey (c : Char) : Bool :=
  DELIMITERS.any (fun e => e.1 == c)

/-! ## `<cctype>` in the "C" locale -/

/-- The predicate `isascii`: the code is in `0..127`. -/
def isascii (c : Char) : Bool := decide (c.toNat < 128)

/-- The predicate `std::isspace`: space, `\t`, `\n`, `\v`, `\f`, `\r`. -/
def isspace (c : Char) : Bool :=
  decide (c.toNat = 32) || (decide (9 ≤ c.toNat) && decide (c.toNat ≤ 13))

/-- The predicate `std::isdigit`: `0`..`9`. -/
def isdigit (c : Char) : Bool := decide (48 ≤ c.toNat) && decide (c.toNat ≤ 57)

/-- The predicate `std::isalpha`: `A`..`Z`, `a`..`z`. -/
def isalpha (c : Char) : Bool :=
  (decide (65 ≤ c.toNat) && decide (c.toNat ≤ 90)) ||
    (decide (97 ≤ c.toNat) && decide (c.toNat ≤ 122))

/-- The predicate `std::isalnum`: a letter or a digit. -/
def isalnum (c : Char) : Bool := isalpha c || isdigit c

/-- The predicate `std::isxdigit`: `0`..`9`, `A`..`F`, `a`..`f`. -/
def isxdigit (c : Char) : Bool :=
  isdigit c || (decide (65 ≤ c.toNat) && decide (c.toNat ≤ 70)) ||
    (decide (97 ≤ c.toNat) && decide (c.toNat ≤ 102))

/-! ## Character classes of the lexer (`rustlexer.cpp`, lines 404-432) -/

/-- The predicate `RustLexer::isDigit`. -/
def isDigit (c : Char) : Bool := isascii c && isdigit c

/-- The predicate `RustLexer::isAlpha`. -/
def isAlpha (c : Char) : Bool := isascii c && isalpha c

/-- The predicate `RustLexer::isAlphaNumeric`. -/
def isAlphaNumeric (c : Char) : Bool := isascii c && isalnum c

/-- The predicate `RustLexer::isHexDigit`. -/
def isHexDigit (c : Char) : Bool := isascii c && isxdigit c

/-- The predicate `RustLexer::isOctalDigit`: `c >= '0' && c <= '7'`. -/
def isOctalDigit (c : Char) : Bool := decide (48 ≤ c.toNat) && decide (c.toNat ≤ 55)

/-- The predicate `RustLexer::isBinaryDigit`: `c == '0' || c == '1'`. -/
def isBinaryDigit (c : Char) : Bool := c == '0' || c == '1'

/-! ## Cursor primitives (lines 67-102) -/

/-- The call `std::string::substr(pos, n)` for `pos ≤ size`: at most `n` units from `pos`. -/
def substr (s : List Char) (pos n : Nat) : List Char := (s.drop pos).take n

/-- The member function `RustLexer::peek(offset)`: the unit at `position + offset`,
or NUL when out of bounds. -/
def peek (L : Lexer) (offset : Nat) : Char :=
  if L.position + offset ≥ L.source.length then '\x00'
  else L.source.getD (L.position + offset) '\x00'

/-- The predicate `RustLexer::isAtEnd`. -/
def isAtEnd (L : Lexer) : Bool := decide (L.position ≥ L.source.length)

/-- The member function `RustLexer::advance`: returns the current unit and steps
the cursor, also when the cursor is already at the end. -/
def advance (L : Lexer) : Char × Lexer :=
  let current := peek L 0
  let L1 : Lexer := { L with position := L.position + 1, column := L.column + 1 }
  if current = '\n' then (current, { L1 with line := L1.line + 1, column := 0 })
  else (current, L1)

/-- The cursor after `advance()`, its result discarded. -/
def adv (L : Lexer) : Lexer := (advance L).2

/-- The member function `RustLexer::match(expected)`. -/
def match_ (L : Lexer) (expected : Char) : Bool × Lexer :=
  if isAtEnd L || peek L 0 != expected then (false, L)
  else (true, adv L)

/-- The condition `match(a) || match(b)`: `match(b)` runs only when `match(a)`
failed. -/
def matchEither (L : Lexer) (a b : Char) : Bool × Lexer :=
  let r := match_ L a
  if r.1 then r else match_ r.2 b

/-- Number of storage units from the cursor to the end of the source. -/
def remaining (L : Lexer) : Nat := L.source.length - L.position

/-- A `while (cond) body` loop under a fuel bound; `none` when the bound is
reached while the condition still holds. -/
def whileLoop {σ : Type} (cond : σ → Bool) (body : σ → σ) : Nat → σ → Option σ
  | 0, s => if cond s then none else some s
  | n + 1, s => if cond s then whileLoop cond body n (body s) else some s

/-! ## Scanners -/

/-- Loop condition of the identifier scanner (line 155). -/
def identCond (s : Lexer) : Bool := isAlphaNumeric (peek s 0) || peek s 0 == '_'

/-- The cursor loop `while (cond) advance();` with the remaining units as fuel. -/
def advanceWhile (cond : Lexer → Bool) (L : Lexer) : Option Lexer :=
  whileLoop cond adv (remaining L) L

/-- The member function `RustLexer::identifier` (lines 147-174). -/
def identifier (L : Lexer) : Option (Token × Lexer) :=
  let start := L.position
  let L1 := adv L
  (advanceWhile identCond L1).bind fun L2 =>
    let text := substr L2.source start (L2.position - start)
    if text ∈ KEYWORDS then
      some ({ lexeme := text, type := .KEYWORD, line := L2.line, column := L2.column }, L2)
    else if peek L2 0 == '!' && text != ['r'] && text != ['b'] then
      let L3 := adv L2
      some ({ lexeme := text, type := .MACRO_CALL, line := L3.line, column := L3.column }, L3)
    else
      some ({ lexeme := text, type := .IDENTIFIER, line := L2.line, column := L2.column }, L2)

/-- Loop condition `isDigit(peek()) || peek() == '_'` (lines 210, 218, 228, 245). -/
def digitCond (s : Lexer) : Bool := isDigit (peek s 0) || peek s 0 == '_'

/-- Loop condition of the hexadecimal digits (line 188). -/
def hexCond (s : Lexer) : Bool := isHexDigit (peek s 0) || peek s 0 == '_'

/-- Loop condition of the octal digits (line 194). -/
def octCond (s : Lexer) : Bool := isOctalDigit (peek s 0) || peek s 0 == '_'

/-- Loop condition of the binary digits (line 200). -/
def binCond (s : Lexer) : Bool := isBinaryDigit (peek s 0) || peek s 0 == '_'

/-- Loop condition of the type suffix (line 253). -/
def suffixCond (s : Lexer) : Bool := isAlphaNumeric (peek s 0)

/-- First part of `RustLexer::number` (lines 183-232): radix prefix or decimal
digits with an optional fraction. Returns `isFloat` and the cursor. -/
def numberMantissa (L : Lexer) : Option (Bool × Lexer) :=
  if peek L 0 == '0' then
    let L1 := adv L
    let mx := matchEither L1 'x' 'X'
    if mx.1 then (advanceWhile hexCond mx.2).map fun s => (false, s)
    else
      let mo := matchEither mx.2 'o' 'O'
      if mo.1 then (advanceWhile octCond mo.2).map fun s => (false, s)
      else
        let mb := matchEither mo.2 'b' 'B'
        if mb.1 then (advanceWhile binCond mb.2).map fun s => (false, s)
        else if peek mb.2 0 == '.' then
          (advanceWhile digitCond (adv mb.2)).map fun s => (true, s)
        else some (false, mb.2)
  else
    (advanceWhile digitCond L).bind fun L1 =>
      if peek L1 0 == '.' && isDigit (peek L1 1) then
        (advanceWhile digitCond (adv L1)).map fun s => (true, s)
      else some (false, L1)

/-- Second part of `RustLexer::number` (lines 235-248): the exponent. -/
def numberExponent (st : Bool × Lexer) : Option (Bool × Lexer) :=
  let L := st.2
  if (peek L 0 == 'e' || peek L 0 == 'E') &&
      (isDigit (peek L 1) ||
        ((peek L 1 == '+' || peek L 1 == '-') && isDigit (peek L 2))) then
    let L1 := adv L
    let ms := matchEither L1 '+' '-'
    (advanceWhile digitCond ms.2).map fun s => (true, s)
  else some st

/-- Third part of `RustLexer::number` (lines 251-262): the type suffix. -/
def numberSuffix (st : Bool × Lexer) : Option (Bool × Lexer) :=
  let L := st.2
  if isAlpha (peek L 0) then
    let typeStart := L.position
    (advanceWhile suffixCond L).map fun L1 =>
      let typeSuffix := substr L1.source typeStart (L1.position - typeStart)
      if !typeSuffix.isEmpty && typeSuffix.headD '\x00' == 'f' then (true, L1)
      else (st.1, L1)
  else some st

/-- The member function `RustLexer::number` (lines 176-270). -/
def number (L : Lexer) : Option (Token × Lexer) :=
  let start := L.position
  ((numberMantissa L).bind numberExponent).bind fun st1 =>
    (numberSuffix st1).map fun st =>
      let L1 := st.2
      ({ lexeme := substr L1.source start (L1.position - start),
         type := if st.1 then .FLOAT_LITERAL else .INTEGER_LITERAL,
         line := L1.line, column := L1.column }, L1)

/-- Loop condition of the string scanner (line 279). -/
def stringCond (s : Lexer) : Bool := !isAtEnd s && peek s 0 != '\x22'

/-- Loop body of the string scanner (lines 280-283). -/
def stringBody (s : Lexer) : Lexer :=
  adv (if peek s 0 == '\x5c' && peek s 1 == '\x22' then adv s else s)

/-- The member function `RustLexer::string` (lines 272-294). -/
def string (L : Lexer) : Option (Token × Lexer) :=
  let start := L.position
  let L1 := adv L
  (whileLoop stringCond stringBody (remaining L1) L1).bind fun L2 =>
    if isAtEnd L2 then
      some ({ lexeme := substr L2.source start (L2.position - start), type := .UNKNOWN,
              line := L2.line, column := L2.column }, L2)
    else
      let L3 := adv L2
      some ({ lexeme := substr L3.source start (L3.position - start),
              type := .STRING_LITERAL, line := L3.line, column := L3.column }, L3)

/-- Loop condition of the recovery skip of the character scanner (line 319). -/
def charCond (s : Lexer) : Bool := !isAtEnd s && peek s 0 != '\x27'

/-- The member function `RustLexer::character` (lines 296-329). -/
def character (L : Lexer) : Option (Token × Lexer) :=
  let start := L.position
  let L1 := adv L
  let L2 := if peek L1 0 == '\x5c' then adv (adv L1) else adv L1
  (if peek L2 0 != '\x27' then advanceWhile charCond L2 else some L2).bind fun L3 =>
    let L4 := if !isAtEnd L3 then adv L3 else L3
    some ({ lexeme := substr L4.source start (L4.position - start), type := .CHAR_LITERAL,
            line := L4.line, column := L4.column }, L4)

/-- Loop condition of a line comment (line 339). -/
def lineCommentCond (s : Lexer) : Bool := !isAtEnd s && peek s 0 != '\n'

/-- Loop condition of a block comment (line 345); the state is the cursor and
`nesting`. -/
def blockCommentCond (s : Lexer × Int) : Bool := !isAtEnd s.1 && decide (s.2 > 0)

/-- Loop body of a block comment (lines 346-354). -/
def blockCommentBody (s : Lexer × Int) : Lexer × Int :=
  if peek s.1 0 == '/' && peek s.1 1 == '*' then (adv (adv s.1), s.2 + 1)
  else if peek s.1 0 == '*' && peek s.1 1 == '/' then (adv (adv s.1), s.2 - 1)
  else (adv s.1, s.2)

/-- The member function `RustLexer::comment` (lines 331-359). -/
def comment (L : Lexer) : Option (Token × Lexer) :=
  let start := L.position
  let L1 := adv L
  let m1 := match_ L1 '/'
  let done : Option Lexer :=
    if m1.1 then advanceWhile lineCommentCond m1.2
    else
      let m2 := match_ m1.2 '*'
      if m2.1 then
        (whileLoop blockCommentCond blockCommentBody (remaining m2.2) (m2.2, 1)).map
          fun s => s.1
      else some m2.2
  done.map fun L2 =>
    ({ lexeme := substr L2.source start (L2.position - start), type := .COMMENT,
       line := L2.line, column := L2.column }, L2)

/-- The greedy read of `operatorOrDelimiter` (lines 375-384): at most `n` more
iterations of the `for` loop; the state is the cursor and `op`. -/
def opGreedy : Nat → Lexer × List Char → Lexer × List Char
  | 0, s => s
  | n + 1, s =>
    if isAtEnd s.1 then s
    else
      let r := advance s.1
      let s1 : Lexer × List Char := (r.2, s.2 ++ [r.1])
      if isAtEnd s1.1 || (isascii (peek s1.1 0) && isspace (peek s1.1 0))
          || isAlphaNumeric (peek s1.1 0) then s1
      else opGreedy n s1

/-- Loop condition of the shrink loop (lines 387-396): `op` is not empty and the
loop has not returned; the state is the cursor and `op`. -/
def opShrinkCond (s : Lexer × List Char) : Bool := !s.2.isEmpty && !isOperatorKey s.2

/-- Loop body of the shrink loop (lines 393-395) on the path that does not
return. -/
def opShrinkBody (s : Lexer × List Char) : Lexer × List Char :=
  ({ s.1 with position := s.1.position - 1, column := s.1.column - 1 }, s.2.dropLast)

/-- The member function `RustLexer::operatorOrDelimiter` (lines 361-402). -/
def operatorOrDelimiter (L : Lexer) : Option (Token × Lexer) :=
  let c := peek L 0
  if isDelimiterKey c then
    let L1 := adv L
    some ({ lexeme := [c], type := .DELIMITER, line := L1.line, column := L1.column }, L1)
  else
    let start := L.position
    let g := opGreedy 3 (L, [])
    (whileLoop opShrinkCond opShrinkBody g.2.length g).bind fun s =>
      let L1 := s.1
      let op := s.2
      if !op.isEmpty then
        some ({ lexeme := op, type := .OPERATOR, line := L1.line, column := L1.column }, L1)
      else
        let L2 : Lexer :=
          { L1 with position := start + 1, column := L1.column - (op.length : Int) + 1 }
        some ({ lexeme := [L2.source.getD start '\x00'], type := .UNKNOWN,
                line := L2.line, column := L2.column }, L2)

/-- Loop condition of the whitespace skip (line 107). -/
def spaceCond (s : Lexer) : Bool :=
  peek s 0 != '\x00' && isascii (peek s 0) && isspace (peek s 0)

/-- The member function `RustLexer::scanToken` (lines 104-145). -/
def scanToken (L : Lexer) : Option (Token × Lexer) :=
  (advanceWhile spaceCond L).bind fun L1 =>
    if isAtEnd L1 then
      some ({ lexeme := [], type := .UNKNOWN, line := L1.line, column := L1.column }, L1)
    else
      let c := peek L1 0
      if isAlpha c || c == '_' then identifier L1
      else if isDigit c then number L1
      else if c == '\x22' then string L1
      else if c == '\x27' then character L1
      else if c == '/' && (peek L1 1 == '/' || peek L1 1 == '*') then comment L1
      else operatorOrDelimiter L1

/-- The loop of `RustLexer::tokenize` (lines 49-62) under a fuel bound: `none`
when the bound is reached before the end of the input. -/
def tokenizeLoop : Nat → Lexer → Option (List Token)
  | 0, L => if isAtEnd L then some [] else none
  | n + 1, L =>
    if isAtEnd L then some []
    else
      let startColumn := L.column
      (scanToken L).bind fun r =>
        let token : Token := { r.1 with column := startColumn, line := r.2.line }
        (tokenizeLoop n r.2).map fun tokens => token :: tokens

/-- The call `RustLexer(source).tokenize()`: the fuel is the length of the source. -/
def tokenize (source : List Char) : Option (List Token) :=
  tokenizeLoop source.length (Lexer.init source)

/-- The (kind, lexeme) pairs of a token sequence. -/
def kinds (ts : List Token) : List (TokenType × List Char) :=
  ts.map fun t => (t.type, t.lexeme)

/-! ## Vocabulary of the proofs -/

/-- The unread part of the source. -/
def rest (L : Lexer) : List Char := L.source.drop L.position

/-- The cursor after `n` calls of `advance()`. -/
def advN : Nat → Lexer → Lexer
  | 0, L => L
  | n + 1, L => advN n (adv L)

/-- Two cursors that see the same unread text at the same distance from the end. -/
structure Sim (L L' : Lexer) : Prop where
  rest_eq : rest L = rest L'
  over_eq : L.position + L'.source.length = L'.position + L.source.length

/-- From the cursors `L`, `L'` the cursors `M`, `M'` are reached by consuming the
same number of units of the same sources. -/
structure Step (L L' M M' : Lexer) : Prop where
  src : M.source = L.source
  src' : M'.source = L'.source
  le : L.position ≤ M.position
  off : M.position + L'.position = M'.position + L.position

/-- The source text a token stands for: its lexeme, followed by the `!` that a
macro call consumes without recording it. -/
def consumed (t : Token) : List Char :=
  if t.type = TokenType.MACRO_CALL then t.lexeme ++ ['!'] else t.lexeme

/-- Outcome of one scanner run from `L` and of the same run from `L'`: the same
kind and lexeme, the same number of units consumed (at least one), and the
lexeme is the text consumed. -/
structure ScanRel (L L' : Lexer) (r r' : Token × Lexer) : Prop where
  step : Step L L' r.2 r'.2
  lt : L.position < r.2.position
  type_eq : r'.1.type = r.1.type
  lexeme_eq : r'.1.lexeme = r.1.lexeme
  text_eq : consumed r.1 = (rest L).take (r.2.position - L.position)

/-- The loop condition `cond` tests the current unit with `p` and fails at the end
of the input. -/
def CharCond (cond : Lexer → Bool) (p : Char → Bool) : Prop :=
  ∀ s, cond s = (!isAtEnd s && p (peek s 0))

/-- Invariant of the two loops of `operatorOrDelimiter`, started at `L` and `L'`:
the same `op` on both sides, which is the text between the start and the cursor. -/
structure OpInv (L L' : Lexer) (s s' : Lexer × List Char) : Prop where
  op_eq : s'.2 = s.2
  src : s.1.source = L.source
  src' : s'.1.source = L'.source
  pos : s.1.position = L.position + s.2.length
  pos' : s'.1.position = L'.position + s.2.length
  text : s.2 = (rest L).take s.2.length

/-- The ASCII whitespace characters: space, `\t`, `\n`, `\v`, `\f`, `\r`. -/
def asciiWhitespace : List Char := [' ', '\t', '\n', '\x0b', '\x0c', '\r']

/-- The text `w_0 ++ t_0' ++ w_1 ++ t_1' ++ ...` made of the gaps `ws` and of the
source text of the tokens `ts`. -/
def reassemble : List (List Char) → List Token → List Char
  | w :: ws, t :: ts => w ++ consumed t ++ reassemble ws ts
  | _, _ => []

/-- Outcome of `scanToken` from `L` and from `L'`, two cursors that see the same
text. -/
structure TokRel (L L' : Lexer) (r r' : Token × Lexer) (w : List Char) : Prop where
  step : Step L L' r.2 r'.2
  type_eq : r'.1.type = r.1.type
  lexeme_eq : r'.1.lexeme = r.1.lexeme
  progress : isAtEnd L = false → L.position < r.2.position
  cover : rest L = w ++ consumed r.1 ++ rest r.2
  gap : ∀ c ∈ w, c ∈ asciiWhitespace
  keyword : r.1.lexeme ∈ KEYWORDS → r.1.type = TokenType.KEYWORD

/-- Outcome of the `tokenize` loop from `L` and from `L'`. -/
structure LoopRel (L : Lexer) (ts ts' : List Token) (ws : List (List Char)) : Prop where
  kinds_eq : kinds ts' = kinds ts
  count : ts.length ≤ remaining L
  gaps : ws.length = ts.length
  gap : ∀ w ∈ ws, ∀ c ∈ w, c ∈ asciiWhitespace
  cover : rest L = reassemble ws ts
  keyword : ∀ t ∈ ts, t.lexeme ∈ KEYWORDS → t.type = TokenType.KEYWORD

/-- The hexadecimal digits and `_`. -/
def hexDigitChars : List Char := "0123456789abcdefABCDEF_".toList

/-- The octal digits and `_`. -/
def octDigitChars : List Char := "01234567_".toList

/-- The binary digits and `_`. -/
def binDigitChars : List Char := "01_".toList

/-- The ASCII decimal digits. -/
def digitChars : List Char := "0123456789".toList

/-- The ASCII letters. -/
def letterChars : List Char :=
  "abcdefghijklmnopqrstuvwxyzABCDEFGHIJKLMNOPQRSTUVWXYZ".toList

/-- The cursor before call number `i` (from 0) of `scanToken` in the loop of
`tokenize` started at `L`; `none` when the loop makes fewer calls. -/
def cursorBefore : Nat → Lexer → Option Lexer
  | 0, L => if isAtEnd L then none else some L
  | i + 1, L => if isAtEnd L then none else (scanToken L).bind fun r => cursorBefore i r.2

/-- The index after the content of a character literal: the opening quote plus one
unit, or plus the two units of an escape when the unit after the quote is a
backslash. -/
def contentEnd (input : List Char) : Nat := if input[1]? = some '\x5c' then 3 else 2

/-- Index `i` holds an unescaped closing quote of the input: a double quote, at
index 1 or later, whose preceding unit is not a backslash. -/
def IsClosingQuote (input : List Char) (i : Nat) : Prop :=
  1 ≤ i ∧ input[i]? = some '\x22' ∧ input[i - 1]? ≠ some '\x5c'

instance instDecidableIsClosingQuote (input : List Char) (i : Nat) :
    Decidable (IsClosingQuote input i) := by
  unfold IsClosingQuote; infer_instance

/-- The early-exit test of the greedy read (lines 380-381): the end of the input,
or a next unit that is whitespace or alphanumeric. -/
def opStop (M : Lexer) : Bool :=
  isAtEnd M || (isascii (peek M 0) && isspace (peek M 0)) || isAlphaNumeric (peek M 0)

/-- The characters an operator of the table starts with, `.` apart. -/
def opStartChars : List Char := "+-*/%=!><&|^~".toList

/-- The ten delimiters. -/
def delimiterChars : List Char := "()\x7b\x7d[];:,.".toList

/-- The number of newline characters of a text. -/
def newlines (l : List Char) : Nat := l.count '\n'

/-- The length of the last line of a text: the units after its last newline (all of
them when it has no newline). -/
def lastLineLength (l : List Char) : Nat := (l.reverse.takeWhile (fun c => c != '\n')).length

/-- The offset where the last line of a text starts: just after its last newline, 0
when it has no newline. -/
def lineStart (l : List Char) : Nat := l.length - lastLineLength l

/-- The cursor is consistent with the text it has consumed, `source[0..position)`:
the line is 1 plus the number of newlines consumed, and the column is the
distance of the offset from the start of the line the cursor is on. -/
structure CursorOK (L : Lexer) : Prop where
  line_eq : L.line = 1 + (newlines (L.source.take L.position) : Int)
  column_eq : L.column = ((L.position - lineStart (L.source.take L.position) : Nat) : Int)

/-- Consistency of a cursor is decidable: it is two equations between integers. -/
instance instDecidableCursorOK (L : Lexer) : Decidable (CursorOK L) :=
  decidable_of_iff
    (L.line = 1 + (newlines (L.source.take L.position) : Int) ∧
      L.column = ((L.position - lineStart (L.source.take L.position) : Nat) : Int))
    ⟨fun h => ⟨h.1, h.2⟩, fun h => ⟨h.line_eq, h.column_eq⟩⟩

/-- The cursor `M` is reached from `L` by some number of calls of `advance()`. -/
def Reach (L M : Lexer) : Prop := ∃ n, M = advN n L

/-! ## Theorems -/

theorem peek_eq (L : Lexer) (k : Nat) : peek L k = (rest L).getD k '\x00' := by
  unfold peek rest
  split
  · rename_i h
    rw [List.getD_eq_default]
    simp only [List.length_drop]; omega
  · rename_i h
    simp [List.getD_eq_getElem?_getD, List.getElem?_drop]

theorem isAtEnd_eq (L : Lexer) : isAtEnd L = (rest L).isEmpty := by
  unfold isAtEnd rest
  rw [Bool.eq_iff_iff]
  simp [List.isEmpty_iff, List.drop_eq_nil_iff]

@[simp] theorem adv_source (L : Lexer) : (adv L).source = L.source := by
  unfold adv advance; dsimp only; split <;> rfl

@[simp] theorem adv_position (L : Lexer) : (adv L).position = L.position + 1 := by
  unfold adv advance; dsimp only; split <;> rfl

theorem rest_adv (L : Lexer) : rest (adv L) = (rest L).tail := by
  unfold rest
  rw [adv_source, adv_position, List.tail_drop]

@[simp] theorem advN_source (n : Nat) (L : Lexer) : (advN n L).source = L.source := by
  induction n generalizing L with
  | zero => rfl
  | succ n ih => simp [advN, ih]

@[simp] theorem advN_position (n : Nat) (L : Lexer) :
    (advN n L).position = L.position + n := by
  induction n generalizing L with
  | zero => rfl
  | succ n ih => simp [advN, ih]; omega

theorem rest_advN (n : Nat) (L : Lexer) : rest (advN n L) = (rest L).drop n := by
  unfold rest
  rw [advN_source, advN_position, List.drop_drop]

theorem remaining_eq (L : Lexer) : remaining L = (rest L).length := by
  unfold remaining rest; simp

theorem drop_length_takeWhile (p : Char → Bool) (l : List Char) :
    l.drop (l.takeWhile p).length = l.dropWhile p := by
  induction l with
  | nil => rfl
  | cons c cs ih =>
    cases hp : p c <;> simp [List.takeWhile, List.dropWhile, hp, ih]

/-! ### Loops -/

theorem whileLoop_of_not_cond {σ : Type} {cond : σ → Bool} {body : σ → σ} (n : Nat)
    {s : σ} (h : cond s = false) : whileLoop cond body n s = some s := by
  cases n <;> simp [whileLoop, h]

theorem whileLoop_step {σ : Type} {cond : σ → Bool} {body : σ → σ} (n : Nat)
    {s : σ} (h : cond s = true) :
    whileLoop cond body (n + 1) s = whileLoop cond body n (body s) := by
  simp [whileLoop, h]

/-- A loop whose body decreases a measure bounded by the fuel returns, in a state
that satisfies every invariant of the body and falsifies the condition. -/
theorem whileLoop_total {σ : Type} (cond : σ → Bool) (body : σ → σ) (μ : σ → Nat)
    (P : σ → Prop) (hdec : ∀ s, P s → cond s = true → μ (body s) < μ s)
    (hinv : ∀ s, P s → cond s = true → P (body s)) :
    ∀ (n : Nat) (s : σ), P s → μ s ≤ n →
      ∃ t, whileLoop cond body n s = some t ∧ P t ∧ cond t = false := by
  intro n
  induction n with
  | zero =>
    intro s hP hμ
    cases hc : cond s with
    | false => exact ⟨s, by simp [whileLoop, hc], hP, hc⟩
    | true => have := hdec s hP hc; omega
  | succ n ih =>
    intro s hP hμ
    cases hc : cond s with
    | false => exact ⟨s, by simp [whileLoop, hc], hP, hc⟩
    | true =>
      have hd := hdec s hP hc
      obtain ⟨t, ht, hPt, hct⟩ := ih (body s) (hinv s hP hc) (by omega)
      exact ⟨t, by simp [whileLoop, hc, ht], hPt, hct⟩

/-- Two runs of a loop from related states, with the same fuel, end in related
states (or both run out of fuel). -/
theorem whileLoop_rel {σ τ : Type} (cond : σ → Bool) (body : σ → σ) (cond' : τ → Bool)
    (body' : τ → τ) (R : σ → τ → Prop) (hcond : ∀ s s', R s s' → cond s = cond' s')
    (hbody : ∀ s s', R s s' → cond s = true → R (body s) (body' s')) :
    ∀ (n : Nat) (s : σ) (s' : τ), R s s' →
      (whileLoop cond body n s = none ∧ whileLoop cond' body' n s' = none) ∨
      ∃ t t', whileLoop cond body n s = some t ∧ whileLoop cond' body' n s' = some t' ∧
        R t t' := by
  intro n
  induction n with
  | zero =>
    intro s s' h
    have hc := hcond s s' h
    cases hcs : cond s with
    | false => right; exact ⟨s, s', by simp [whileLoop, hcs], by simp [whileLoop, ← hc, hcs], h⟩
    | true => left; exact ⟨by simp [whileLoop, hcs], by simp [whileLoop, ← hc, hcs]⟩
  | succ n ih =>
    intro s s' h
    have hc := hcond s s' h
    cases hcs : cond s with
    | false => right; exact ⟨s, s', by simp [whileLoop, hcs], by simp [whileLoop, ← hc, hcs], h⟩
    | true =>
      have := ih (body s) (body' s') (hbody s s' h hcs)
      simpa [whileLoop, hcs, ← hc] using this

theorem charCond_of_peek {cond : Lexer → Bool} {p : Char → Bool}
    (h : ∀ s, cond s = p (peek s 0)) (h0 : p '\x00' = false) : CharCond cond p := by
  intro s
  rw [h s]
  cases he : isAtEnd s with
  | false => simp
  | true =>
    rw [isAtEnd_eq, List.isEmpty_iff] at he
    simp [peek_eq, he, h0]

theorem advanceWhile_eq {cond : Lexer → Bool} {p : Char → Bool} (hc : CharCond cond p)
    (L : Lexer) :
    advanceWhile cond L = some (advN ((rest L).takeWhile p).length L) := by
  unfold advanceWhile
  have key : ∀ (n : Nat) (L : Lexer), remaining L ≤ n →
      whileLoop cond adv n L = some (advN ((rest L).takeWhile p).length L) := by
    intro n
    induction n with
    | zero =>
      intro L hn
      rw [remaining_eq] at hn
      have hr : rest L = [] := List.length_eq_zero.mp (by omega)
      have : cond L = false := by rw [hc L, isAtEnd_eq, hr]; rfl
      rw [whileLoop_of_not_cond _ this, hr]; rfl
    | succ n ih =>
      intro L hn
      rw [remaining_eq] at hn
      cases hr : rest L with
      | nil =>
        have : cond L = false := by rw [hc L, isAtEnd_eq, hr]; rfl
        rw [whileLoop_of_not_cond _ this]; rfl
      | cons c cs =>
        have hcl : cond L = p c := by rw [hc L, isAtEnd_eq, peek_eq, hr]; simp
        cases hp : p c with
        | false =>
          rw [whileLoop_of_not_cond _ (hcl.trans hp)]
          simp [List.takeWhile, hp, advN]
        | true =>
          rw [whileLoop_step _ (hcl.trans hp), ih (adv L)]
          · simp [rest_adv, hr, List.takeWhile, hp, advN]
          · rw [remaining_eq, rest_adv, hr]; rw [hr] at hn; simp at hn ⊢; omega
  exact key _ L (le_refl _)

/-! ### Cursors that see the same text -/

theorem Sim.refl (L : Lexer) : Sim L L := ⟨rfl, rfl⟩

theorem Sim.symm {L L' : Lexer} (h : Sim L L') : Sim L' L := ⟨h.rest_eq.symm, h.over_eq.symm⟩

theorem Sim.peek {L L' : Lexer} (h : Sim L L') (k : Nat) : peek L' k = peek L k := by
  rw [peek_eq, peek_eq, h.rest_eq]

theorem Sim.isAtEnd {L L' : Lexer} (h : Sim L L') : isAtEnd L' = isAtEnd L := by
  rw [isAtEnd_eq, isAtEnd_eq, h.rest_eq]

theorem Sim.remaining {L L' : Lexer} (h : Sim L L') : remaining L' = remaining L := by
  rw [remaining_eq, remaining_eq, h.rest_eq]

theorem Step.same (L L' : Lexer) : Step L L' L L' := ⟨rfl, rfl, le_refl _, by omega⟩

theorem Step.trans {L L' M M' N N' : Lexer} (h₁ : Step L L' M M') (h₂ : Step M M' N N') :
    Step L L' N N' :=
  ⟨h₂.src.trans h₁.src, h₂.src'.trans h₁.src', le_trans h₁.le h₂.le, by
    have := h₁.off; have := h₂.off; omega⟩

theorem Step.le' {L L' M M' : Lexer} (h : Step L L' M M') : L'.position ≤ M'.position := by
  have := h.off; have := h.le; omega

theorem Step.one (L L' : Lexer) : Step L L' (adv L) (adv L') :=
  ⟨adv_source L, adv_source L', by simp, by simp; omega⟩

theorem Step.many (n : Nat) (L L' : Lexer) : Step L L' (advN n L) (advN n L') :=
  ⟨advN_source n L, advN_source n L', by simp, by simp; omega⟩

theorem rest_of_step {L M : Lexer} (hs : M.source = L.source) (hle : L.position ≤ M.position) :
    rest M = (rest L).drop (M.position - L.position) := by
  unfold rest
  rw [hs, List.drop_drop]
  congr 1; omega

theorem Sim.step {L L' M M' : Lexer} (h : Sim L L') (hs : Step L L' M M') : Sim M M' := by
  constructor
  · rw [rest_of_step hs.src hs.le, rest_of_step hs.src' hs.le', h.rest_eq]
    congr 1
    have := hs.off; have := hs.le; omega
  · rw [hs.src, hs.src']
    have := hs.off; have := h.over_eq; omega

theorem Sim.adv {L L' : Lexer} (h : Sim L L') : Sim (adv L) (adv L') :=
  h.step (Step.one L L')

/-- The substring from the start of a scan to its end is the same text on both
sides. -/
theorem Sim.substr {L L' M M' : Lexer} (h : Sim L L') (hs : Step L L' M M') :
    RustLexer.substr M'.source L'.position (M'.position - L'.position) =
      RustLexer.substr M.source L.position (M.position - L.position) := by
  unfold RustLexer.substr
  rw [hs.src, hs.src']
  have e1 : List.drop L'.position L'.source = List.drop L.position L.source := h.rest_eq.symm
  rw [e1]
  congr 1
  have := hs.off; have := hs.le; omega

theorem substr_eq_take (L M : Lexer) (hs : M.source = L.source) :
    substr M.source L.position (M.position - L.position) =
      (rest L).take (M.position - L.position) := by
  unfold substr rest; rw [hs]

theorem Sim.match_ {L L' : Lexer} (h : Sim L L') (c : Char) :
    (match_ L' c).1 = (match_ L c).1 ∧ Step L L' (match_ L c).2 (match_ L' c).2 := by
  unfold RustLexer.match_
  rw [h.isAtEnd, h.peek]
  split
  · exact ⟨rfl, Step.same L L'⟩
  · exact ⟨rfl, Step.one L L'⟩

theorem Sim.matchEither {L L' : Lexer} (h : Sim L L') (a b : Char) :
    (matchEither L' a b).1 = (matchEither L a b).1 ∧
      Step L L' (matchEither L a b).2 (matchEither L' a b).2 := by
  unfold RustLexer.matchEither
  obtain ⟨h1, h2⟩ := h.match_ a
  dsimp only
  rw [h1]
  split
  · exact ⟨h1, h2⟩
  · obtain ⟨h3, h4⟩ := (h.step h2).match_ b
    exact ⟨h3, h2.trans h4⟩

theorem Sim.advanceWhile {L L' : Lexer} (h : Sim L L') {cond : Lexer → Bool}
    {p : Char → Bool} (hc : CharCond cond p) :
    ∃ M M', advanceWhile cond L = some M ∧ advanceWhile cond L' = some M' ∧
      Step L L' M M' ∧ cond M = false := by
  refine ⟨advN ((rest L).takeWhile p).length L, advN ((rest L).takeWhile p).length L',
    advanceWhile_eq hc L, ?_, ?_, ?_⟩
  · rw [advanceWhile_eq hc L', h.rest_eq]
  · exact Step.many _ L L'
  · rw [hc, isAtEnd_eq, peek_eq, rest_advN]
    cases hd : List.drop ((rest L).takeWhile p).length (rest L) with
    | nil => simp
    | cons c cs =>
      have e := drop_length_takeWhile p (rest L)
      rw [e] at hd
      have := List.head_dropWhile_not p (rest L) (by rw [hd]; simp)
      simp [hd] at this
      simp [this]

/-! ### The cursor loops of the scanners -/

theorem identCond_char : CharCond identCond (fun c => isAlphaNumeric c || c == '_') :=
  charCond_of_peek (fun _ => rfl) (by decide)

theorem digitCond_char : CharCond digitCond (fun c => isDigit c || c == '_') :=
  charCond_of_peek (fun _ => rfl) (by decide)

theorem hexCond_char : CharCond hexCond (fun c => isHexDigit c || c == '_') :=
  charCond_of_peek (fun _ => rfl) (by decide)

theorem octCond_char : CharCond octCond (fun c => isOctalDigit c || c == '_') :=
  charCond_of_peek (fun _ => rfl) (by decide)

theorem binCond_char : CharCond binCond (fun c => isBinaryDigit c || c == '_') :=
  charCond_of_peek (fun _ => rfl) (by decide)

theorem suffixCond_char : CharCond suffixCond isAlphaNumeric :=
  charCond_of_peek (fun _ => rfl) (by decide)

theorem spaceCond_char :
    CharCond spaceCond (fun c => c != '\x00' && isascii c && isspace c) :=
  charCond_of_peek (fun _ => rfl) (by decide)

theorem lineCommentCond_char : CharCond lineCommentCond (fun c => c != '\n') :=
  fun _ => rfl

theorem charCond_char : CharCond charCond (fun c => c != '\x27') :=
  fun _ => rfl

/-- One more unit: the text up to the cursor `M`, followed by the unit under it. -/
theorem take_succ_of_peek {L M : Lexer} (hs : M.source = L.source)
    (hle : L.position ≤ M.position) (hne : isAtEnd M = false) :
    (rest L).take (M.position - L.position + 1) =
      (rest L).take (M.position - L.position) ++ [peek M 0] := by
  have hr := rest_of_step hs hle
  rw [isAtEnd_eq, hr] at hne
  rw [peek_eq, hr, List.take_succ]
  congr 1
  cases hd : (rest L).drop (M.position - L.position) with
  | nil => simp [hd] at hne
  | cons c cs =>
    have : (rest L)[M.position - L.position]? = some c := by
      have := congrArg (fun x => x[0]?) hd
      simpa [List.getElem?_drop] using this
    simp [this]

theorem identifier_spec {L L' : Lexer} (h : Sim L L') :
    ∃ r r', identifier L = some r ∧ identifier L' = some r' ∧ ScanRel L L' r r' ∧
      (r.1.lexeme ∈ KEYWORDS → r.1.type = TokenType.KEYWORD) := by
  obtain ⟨M, M', hM, hM', hstep, -⟩ := h.adv.advanceWhile identCond_char
  have hs := (Step.one L L').trans hstep
  have hlt : L.position < M.position := by have := hstep.le; simp at this; omega
  have htxt := h.substr hs
  have hpk := (h.step hs).peek 0
  have htk := substr_eq_take L M hs.src
  simp only [identifier, hM, hM', Option.some_bind, htxt, hpk]
  by_cases hk : substr M.source L.position (M.position - L.position) ∈ KEYWORDS
  · simp only [hk, if_true]
    exact ⟨_, _, rfl, rfl, ⟨hs, hlt, rfl, rfl, by simp [consumed, htk]⟩, fun _ => rfl⟩
  · simp only [hk, if_false]
    split
    · rename_i hm
      simp only [Bool.and_eq_true, beq_iff_eq] at hm
      have hne : isAtEnd M = false := by
        cases he : isAtEnd M with
        | false => rfl
        | true =>
          rw [isAtEnd_eq, List.isEmpty_iff] at he
          have := hm.1.1
          rw [peek_eq, he] at this
          exact absurd this (by decide)
      refine ⟨_, _, rfl, rfl, ⟨hs.trans (Step.one M M'), ?_, rfl, rfl, ?_⟩, fun hx => absurd hx hk⟩
      · simp; omega
      · have e : (adv M).position - L.position = M.position - L.position + 1 := by
          simp; omega
        simp only [consumed, if_true, e, take_succ_of_peek hs.src hs.le hne, htk, hm.1.1]
    · exact ⟨_, _, rfl, rfl, ⟨hs, hlt, rfl, rfl, by simp [consumed, htk]⟩,
        fun hx => absurd hx hk⟩

theorem peek_congr {L M : Lexer} (hs : M.source = L.source) (hp : M.position = L.position)
    (k : Nat) : peek M k = peek L k := by
  unfold peek; rw [hs, hp]

theorem numberMantissa_spec {L L' : Lexer} (h : Sim L L') (hd : isDigit (peek L 0) = true) :
    ∃ b M M', numberMantissa L = some (b, M) ∧ numberMantissa L' = some (b, M') ∧
      Step L L' M M' ∧ L.position < M.position := by
  unfold numberMantissa
  rw [h.peek 0]
  split
  · -- a leading `0`
    have h1 := h.adv
    have s1 := Step.one L L'
    obtain ⟨ex, sx⟩ := h1.matchEither 'x' 'X'
    have hx := h1.step sx
    dsimp only
    rw [ex]
    split
    · obtain ⟨M, M', hM, hM', sM, -⟩ := hx.advanceWhile hexCond_char
      refine ⟨false, M, M', by simp [hM], by simp [hM'], (s1.trans sx).trans sM, ?_⟩
      have := sx.le; have := sM.le; simp at *; omega
    · obtain ⟨eo, so⟩ := hx.matchEither 'o' 'O'
      have ho := hx.step so
      rw [eo]
      split
      · obtain ⟨M, M', hM, hM', sM, -⟩ := ho.advanceWhile octCond_char
        refine ⟨false, M, M', by simp [hM], by simp [hM'], ((s1.trans sx).trans so).trans sM, ?_⟩
        have := sx.le; have := so.le; have := sM.le; simp at *; omega
      · obtain ⟨eb, sb⟩ := ho.matchEither 'b' 'B'
        have hb := ho.step sb
        rw [eb]
        split
        · obtain ⟨M, M', hM, hM', sM, -⟩ := hb.advanceWhile binCond_char
          refine ⟨false, M, M', by simp [hM], by simp [hM'],
            (((s1.trans sx).trans so).trans sb).trans sM, ?_⟩
          have := sx.le; have := so.le; have := sb.le; have := sM.le; simp at *; omega
        · rw [hb.peek 0]
          split
          · obtain ⟨M, M', hM, hM', sM, -⟩ := hb.adv.advanceWhile digitCond_char
            refine ⟨true, M, M', by simp [hM], by simp [hM'],
              ((((s1.trans sx).trans so).trans sb).trans (Step.one _ _)).trans sM, ?_⟩
            have := sx.le; have := so.le; have := sb.le; have := sM.le; simp at *; omega
          · refine ⟨false, _, _, rfl, rfl, ((s1.trans sx).trans so).trans sb, ?_⟩
            have := sx.le; have := so.le; have := sb.le; simp at *; omega
  · -- decimal digits
    obtain ⟨M, M', hM, hM', sM, hc⟩ := h.advanceWhile digitCond_char
    have hlt : L.position < M.position := by
      rcases Nat.lt_or_ge L.position M.position with hlt | hge
      · exact hlt
      · have hp : M.position = L.position := le_antisymm hge sM.le
        have := peek_congr sM.src hp 0
        simp [digitCond, this, hd] at hc
    have hM1 := h.step sM
    simp only [hM, hM', Option.some_bind, hM1.peek]
    split
    · obtain ⟨N, N', hN, hN', sN, -⟩ := hM1.adv.advanceWhile digitCond_char
      refine ⟨true, N, N', by simp [hN], by simp [hN'], (sM.trans (Step.one _ _)).trans sN, ?_⟩
      have := sN.le; simp at *; omega
    · exact ⟨false, M, M', rfl, rfl, sM, hlt⟩

theorem numberExponent_spec {M M' : Lexer} (h : Sim M M') (b : Bool) :
    ∃ b2 N N', numberExponent (b, M) = some (b2, N) ∧ numberExponent (b, M') = some (b2, N') ∧
      Step M M' N N' ∧ (b = true → b2 = true) ∧ (digitCond M = false → digitCond N = false) := by
  unfold numberExponent
  simp only [h.peek]
  split
  · obtain ⟨-, ss⟩ := h.adv.matchEither '+' '-'
    obtain ⟨N, N', hN, hN', sN, hc⟩ := (h.adv.step ss).advanceWhile digitCond_char
    exact ⟨true, N, N', by simp [hN], by simp [hN'], ((Step.one _ _).trans ss).trans sN,
      fun _ => rfl, fun _ => hc⟩
  · exact ⟨b, M, M', rfl, rfl, Step.same _ _, id, id⟩

theorem isAlphaNumeric_of_not {c : Char} (ha : isAlpha c = false) (hd : isDigit c = false) :
    isAlphaNumeric c = false := by
  simp only [isAlpha, isDigit, isAlphaNumeric, isalnum] at *
  cases h1 : isascii c <;> cases h2 : isalpha c <;> cases h3 : isdigit c <;> simp_all

theorem numberSuffix_spec {M M' : Lexer} (h : Sim M M') (b : Bool) :
    ∃ b2 N N', numberSuffix (b, M) = some (b2, N) ∧ numberSuffix (b, M') = some (b2, N') ∧
      Step M M' N N' ∧ (b = true → b2 = true) ∧
      (digitCond M = false → isAlphaNumeric (peek N 0) = false) := by
  unfold numberSuffix
  simp only [h.peek]
  split
  · obtain ⟨N, N', hN, hN', sN, hc⟩ := h.advanceWhile suffixCond_char
    simp only [hN, hN', Option.map_some', h.substr sN]
    split
    · exact ⟨true, N, N', rfl, rfl, sN, fun _ => rfl, fun _ => hc⟩
    · exact ⟨b, N, N', rfl, rfl, sN, id, fun _ => hc⟩
  · rename_i ha
    refine ⟨b, M, M', rfl, rfl, Step.same _ _, id, fun hd => ?_⟩
    simp only [digitCond, Bool.or_eq_false_iff] at hd
    exact isAlphaNumeric_of_not (by simpa using ha) hd.1

theorem number_spec {L L' : Lexer} (h : Sim L L') (hd : isDigit (peek L 0) = true) :
    ∃ r r', number L = some r ∧ number L' = some r' ∧ ScanRel L L' r r' ∧
      r.1.type ≠ TokenType.MACRO_CALL := by
  obtain ⟨b1, M1, M1', e1, e1', s1, hlt⟩ := numberMantissa_spec h hd
  obtain ⟨b2, M2, M2', e2, e2', s2, -, -⟩ := numberExponent_spec (h.step s1) b1
  obtain ⟨b3, M3, M3', e3, e3', s3, -, -⟩ := numberSuffix_spec ((h.step s1).step s2) b2
  have hs := (s1.trans s2).trans s3
  have hty : (if b3 = true then TokenType.FLOAT_LITERAL else TokenType.INTEGER_LITERAL) ≠
      TokenType.MACRO_CALL := by split <;> simp
  have hn : number L = some
      ({ lexeme := substr M3.source L.position (M3.position - L.position),
         type := if b3 = true then TokenType.FLOAT_LITERAL else TokenType.INTEGER_LITERAL,
         line := M3.line, column := M3.column }, M3) := by
    simp only [number, e1, e2, e3, Option.some_bind, Option.map_some']
  have hn' : number L' = some
      ({ lexeme := substr M3'.source L'.position (M3'.position - L'.position),
         type := if b3 = true then TokenType.FLOAT_LITERAL else TokenType.INTEGER_LITERAL,
         line := M3'.line, column := M3'.column }, M3') := by
    simp only [number, e1', e2', e3', Option.some_bind, Option.map_some']
  refine ⟨_, _, hn, hn', ⟨hs, ?_, rfl, h.substr hs, ?_⟩, hty⟩
  · have := s2.le; have := s3.le; simp only; omega
  · simp only [consumed, hty, if_false]
    exact substr_eq_take L M3 hs.src

/-- A loop over the cursor (with extra loop state related by `E`) whose body
consumes at least one unit and whose condition fails at the end of the input:
it returns within the remaining units as fuel, and two runs from cursors that
see the same text consume the same number of units. -/
theorem loop_spec {σ : Type} (proj : σ → Lexer) (E : σ → σ → Prop) (cond : σ → Bool)
    (body : σ → σ) (hE : ∀ s, E s s)
    (hcond : ∀ s s', E s s' → Sim (proj s) (proj s') → cond s' = cond s)
    (hend : ∀ s, cond s = true → isAtEnd (proj s) = false)
    (hbody : ∀ s s', E s s' → Sim (proj s) (proj s') → cond s = true →
      E (body s) (body s') ∧ Step (proj s) (proj s') (proj (body s)) (proj (body s')) ∧
        (proj s).position < (proj (body s)).position)
    (s0 s0' : σ) (h0 : E s0 s0') (h : Sim (proj s0) (proj s0')) :
    ∃ t t', whileLoop cond body (remaining (proj s0)) s0 = some t ∧
      whileLoop cond body (remaining (proj s0')) s0' = some t' ∧ E t t' ∧
      Step (proj s0) (proj s0') (proj t) (proj t') ∧ cond t = false := by
  obtain ⟨t, ht, -, hct⟩ := whileLoop_total cond body (fun s => remaining (proj s))
    (fun _ => True)
    (fun s _ hc => by
      obtain ⟨-, hs, hlt⟩ := hbody s s (hE s) (Sim.refl _) hc
      have he := hend s hc
      simp only [isAtEnd, ge_iff_le, decide_eq_false_iff_not, not_le] at he
      simp only [remaining, hs.src]
      omega)
    (fun _ _ _ => trivial) (remaining (proj s0)) s0 trivial (le_refl _)
  have hrel := whileLoop_rel cond body cond body
    (fun s s' => E s s' ∧ Step (proj s0) (proj s0') (proj s) (proj s'))
    (fun s s' hR => (hcond s s' hR.1 (h.step hR.2)).symm)
    (fun s s' hR hc => by
      obtain ⟨hE', hs, -⟩ := hbody s s' hR.1 (h.step hR.2) hc
      exact ⟨hE', hR.2.trans hs⟩)
    (remaining (proj s0)) s0 s0' ⟨h0, Step.same _ _⟩
  rw [h.remaining]
  rcases hrel with ⟨hn, -⟩ | ⟨u, u', hu, hu', hR⟩
  · rw [ht] at hn; cases hn
  · rw [ht] at hu; cases hu
    exact ⟨t, u', ht, hu', hR.1, hR.2, hct⟩

theorem consumed_of_ne {t : Token} (h : t.type ≠ TokenType.MACRO_CALL) :
    consumed t = t.lexeme := by
  simp [consumed, h]

theorem string_spec {L L' : Lexer} (h : Sim L L') :
    ∃ r r', string L = some r ∧ string L' = some r' ∧ ScanRel L L' r r' ∧
      r.1.type ≠ TokenType.MACRO_CALL := by
  obtain ⟨M, M', hM, hM', -, sM, -⟩ := loop_spec (fun s : Lexer => s) (fun _ _ => True)
    stringCond stringBody (fun _ => trivial)
    (fun s s' _ (hs : Sim s s') => by simp only [stringCond, hs.isAtEnd, hs.peek])
    (fun s hc => by
      simp only [stringCond, Bool.and_eq_true, Bool.not_eq_true'] at hc; exact hc.1)
    (fun s s' _ (hs : Sim s s') _ => by
      refine ⟨trivial, ?_, ?_⟩
      · simp only [stringBody, hs.peek]
        split
        · exact (Step.one _ _).trans (Step.one _ _)
        · exact Step.one _ _
      · simp only [stringBody]
        split <;> simp only [adv_position] <;> omega)
    (adv L) (adv L') trivial h.adv
  have sM : Step (adv L) (adv L') M M' := sM
  have hs := (Step.one L L').trans sM
  have hlt : L.position < M.position := by have := sM.le; simp at this; omega
  simp only [string, hM, hM', Option.some_bind, (h.step hs).isAtEnd]
  split
  · refine ⟨_, _, rfl, rfl, ⟨hs, hlt, rfl, h.substr hs, ?_⟩, by simp⟩
    rw [consumed_of_ne (by simp)]; exact substr_eq_take L M hs.src
  · have hs2 := hs.trans (Step.one M M')
    refine ⟨_, _, rfl, rfl, ⟨hs2, ?_, rfl, h.substr hs2, ?_⟩, by simp⟩
    · simp only [adv_position]; omega
    · rw [consumed_of_ne (by simp)]; exact substr_eq_take L (adv M) hs2.src

theorem character_spec {L L' : Lexer} (h : Sim L L') :
    ∃ r r', character L = some r ∧ character L' = some r' ∧ ScanRel L L' r r' ∧
      r.1.type ≠ TokenType.MACRO_CALL := by
  -- the content: one unit, or a backslash and one unit
  obtain ⟨M2, M2', e2, e2', s2, lt2⟩ : ∃ M2 M2',
      (if peek (adv L) 0 == '\x5c' then adv (adv (adv L)) else adv (adv L)) = M2 ∧
      (if peek (adv L') 0 == '\x5c' then adv (adv (adv L')) else adv (adv L')) = M2' ∧
      Step L L' M2 M2' ∧ L.position < M2.position := by
    rw [h.adv.peek 0]
    split
    · exact ⟨_, _, rfl, rfl, ((Step.one _ _).trans (Step.one _ _)).trans (Step.one _ _),
        by simp; omega⟩
    · exact ⟨_, _, rfl, rfl, (Step.one _ _).trans (Step.one _ _), by simp; omega⟩
  have h2 := h.step s2
  -- the recovery skip
  obtain ⟨M3, M3', e3, e3', s3⟩ : ∃ M3 M3',
      (if peek M2 0 != '\x27' then advanceWhile charCond M2 else some M2) = some M3 ∧
      (if peek M2' 0 != '\x27' then advanceWhile charCond M2' else some M2') = some M3' ∧
      Step M2 M2' M3 M3' := by
    rw [h2.peek 0]
    split
    · obtain ⟨M3, M3', e3, e3', s3, -⟩ := h2.advanceWhile charCond_char
      exact ⟨M3, M3', e3, e3', s3⟩
    · exact ⟨_, _, rfl, rfl, Step.same _ _⟩
  have h3 := h2.step s3
  obtain ⟨M4, M4', e4, e4', s4⟩ : ∃ M4 M4',
      (if !isAtEnd M3 then adv M3 else M3) = M4 ∧ (if !isAtEnd M3' then adv M3' else M3') = M4' ∧
      Step M3 M3' M4 M4' := by
    rw [h3.isAtEnd]
    split
    · exact ⟨_, _, rfl, rfl, Step.one _ _⟩
    · exact ⟨_, _, rfl, rfl, Step.same _ _⟩
  have hs := (s2.trans s3).trans s4
  simp only [character, e2, e2', e3, e3', e4, e4', Option.some_bind]
  refine ⟨_, _, rfl, rfl, ⟨hs, ?_, rfl, h.substr hs, ?_⟩, by simp⟩
  · have := s3.le; have := s4.le; simp only; omega
  · rw [consumed_of_ne (by simp)]; exact substr_eq_take L M4 hs.src

theorem comment_spec {L L' : Lexer} (h : Sim L L') :
    ∃ r r', comment L = some r ∧ comment L' = some r' ∧ ScanRel L L' r r' ∧
      r.1.type ≠ TokenType.MACRO_CALL := by
  have s1 := Step.one L L'
  obtain ⟨em1, sm1⟩ := h.adv.match_ '/'
  have hm1 := h.adv.step sm1
  obtain ⟨em2, sm2⟩ := hm1.match_ '*'
  have hm2 := hm1.step sm2
  obtain ⟨M, M', eM, eM', sM⟩ : ∃ M M',
      (if (match_ (adv L) '/').1 = true then advanceWhile lineCommentCond (match_ (adv L) '/').2
        else if (match_ (match_ (adv L) '/').2 '*').1 = true then
          (whileLoop blockCommentCond blockCommentBody
            (remaining (match_ (match_ (adv L) '/').2 '*').2)
            ((match_ (match_ (adv L) '/').2 '*').2, 1)).map fun s => s.1
        else some (match_ (match_ (adv L) '/').2 '*').2) = some M ∧
      (if (match_ (adv L') '/').1 = true then
          advanceWhile lineCommentCond (match_ (adv L') '/').2
        else if (match_ (match_ (adv L') '/').2 '*').1 = true then
          (whileLoop blockCommentCond blockCommentBody
            (remaining (match_ (match_ (adv L') '/').2 '*').2)
            ((match_ (match_ (adv L') '/').2 '*').2, 1)).map fun s => s.1
        else some (match_ (match_ (adv L') '/').2 '*').2) = some M' ∧
      Step (adv L) (adv L') M M' := by
    rw [em1, em2]
    split
    · obtain ⟨M, M', eM, eM', sM, -⟩ := hm1.advanceWhile lineCommentCond_char
      exact ⟨M, M', eM, eM', sm1.trans sM⟩
    · split
      · obtain ⟨t, t', ht, ht', -, st, -⟩ := loop_spec (fun s : Lexer × Int => s.1)
          (fun s s' => s.2 = s'.2) blockCommentCond blockCommentBody (fun _ => rfl)
          (fun s s' (hn : s.2 = s'.2) (hs : Sim s.1 s'.1) => by
            simp only [blockCommentCond, hs.isAtEnd, hn])
          (fun s hc => by
            simp only [blockCommentCond, Bool.and_eq_true, Bool.not_eq_true'] at hc; exact hc.1)
          (fun s s' (hn : s.2 = s'.2) (hs : Sim s.1 s'.1) _ => by
            simp only [blockCommentBody, hs.peek, hn]
            split
            · exact ⟨rfl, (Step.one _ _).trans (Step.one _ _), by
                simp only [adv_position]; omega⟩
            · split
              · exact ⟨rfl, (Step.one _ _).trans (Step.one _ _), by
                  simp only [adv_position]; omega⟩
              · exact ⟨rfl, Step.one _ _, by simp only [adv_position]; omega⟩)
          ((match_ (match_ (adv L) '/').2 '*').2, 1) ((match_ (match_ (adv L') '/').2 '*').2, 1)
          rfl hm2
        exact ⟨t.1, t'.1, by simp only [ht, Option.map_some'], by simp only [ht', Option.map_some'],
          (sm1.trans sm2).trans st⟩
      · exact ⟨_, _, rfl, rfl, sm1.trans sm2⟩
  have hs := s1.trans sM
  have hlt : L.position < M.position := by
    have := sM.le; simp only [adv_position] at this; omega
  simp only [comment, eM, eM', Option.map_some']
  refine ⟨_, _, rfl, rfl, ⟨hs, hlt, rfl, h.substr hs, ?_⟩, by simp⟩
  rw [consumed_of_ne (by simp)]; exact substr_eq_take L M hs.src

@[simp] theorem advance_fst (L : Lexer) : (advance L).1 = peek L 0 := by
  unfold advance; dsimp only; split <;> rfl

theorem advance_snd (L : Lexer) : (advance L).2 = adv L := rfl

theorem OpInv.toStep {L L' : Lexer} {s s' : Lexer × List Char} (hi : OpInv L L' s s') :
    Step L L' s.1 s'.1 :=
  ⟨hi.src, hi.src', by have := hi.pos; omega, by have := hi.pos; have := hi.pos'; omega⟩

theorem opGreedy_spec {L L' : Lexer} (h : Sim L L') (n : Nat) :
    ∀ s s', OpInv L L' s s' → OpInv L L' (opGreedy n s) (opGreedy n s') ∧
      s.2.length ≤ (opGreedy n s).2.length ∧
      (isAtEnd s.1 = false → 0 < n → s.2.length < (opGreedy n s).2.length) := by
  induction n with
  | zero => intro s s' hi; exact ⟨hi, le_refl _, fun _ hn => absurd hn (lt_irrefl _)⟩
  | succ n ih =>
    intro s s' hi
    have hsim := h.step hi.toStep
    simp only [opGreedy, hsim.isAtEnd, advance_fst, advance_snd, hsim.peek, hsim.adv.isAtEnd,
      hsim.adv.peek, hi.op_eq]
    cases he : isAtEnd s.1 with
    | true => simp only [if_true]; exact ⟨hi, le_refl _, fun hx => by simp at hx⟩
    | false =>
      simp only [Bool.false_eq_true, if_false]
      have hi1 : OpInv L L' (adv s.1, s.2 ++ [peek s.1 0]) (adv s'.1, s.2 ++ [peek s.1 0]) := by
        refine ⟨rfl, by simp [hi.src], by simp [hi.src'], ?_, ?_, ?_⟩
        · simp [hi.pos]; omega
        · simp [hi.pos']; omega
        · have := take_succ_of_peek hi.src hi.toStep.le he
          have e : s.1.position - L.position = s.2.length := by have := hi.pos; omega
          rw [e] at this
          simp only [List.length_append, List.length_singleton, this]
          rw [← hi.text]
      split
      · exact ⟨hi1, by simp, fun _ _ => by simp⟩
      · obtain ⟨h1, h2, -⟩ := ih _ _ hi1
        refine ⟨h1, ?_, fun _ _ => ?_⟩ <;> simp at h2 <;> omega

theorem take_one_rest {L : Lexer} (hne : isAtEnd L = false) : (rest L).take 1 = [peek L 0] := by
  have := @take_succ_of_peek L L rfl (le_refl _) hne
  simpa using this

theorem peek_zero_of_not_atEnd {L : Lexer} (hne : isAtEnd L = false) :
    L.source.getD L.position '\x00' = peek L 0 := by
  simp only [isAtEnd, ge_iff_le, decide_eq_false_iff_not, not_le] at hne
  simp only [peek, Nat.add_zero, ge_iff_le]
  rw [if_neg (by omega)]

theorem operatorOrDelimiter_spec {L L' : Lexer} (h : Sim L L') (hne : isAtEnd L = false) :
    ∃ r r', operatorOrDelimiter L = some r ∧ operatorOrDelimiter L' = some r' ∧
      ScanRel L L' r r' ∧ r.1.type ≠ TokenType.MACRO_CALL := by
  have hne' : isAtEnd L' = false := by rw [h.isAtEnd]; exact hne
  unfold operatorOrDelimiter
  simp only [h.peek]
  split
  · refine ⟨_, _, rfl, rfl, ⟨Step.one L L', by simp, rfl, rfl, ?_⟩, by simp⟩
    rw [consumed_of_ne (by simp)]
    simp [take_one_rest hne]
  · -- the greedy read
    have hi0 : OpInv L L' (L, []) (L', []) := ⟨rfl, rfl, rfl, rfl, rfl, rfl⟩
    obtain ⟨hg, -, hglt⟩ := opGreedy_spec h 3 _ _ hi0
    -- the shrink loop
    obtain ⟨t, ht, -, hct⟩ := whileLoop_total opShrinkCond opShrinkBody (fun s => s.2.length)
      (fun _ => True)
      (fun s _ hc => by
        simp only [opShrinkCond, Bool.and_eq_true, Bool.not_eq_true', List.isEmpty_eq_false] at hc
        have : 0 < s.2.length := List.length_pos.mpr (by simpa using hc.1)
        simp only [opShrinkBody, List.length_dropLast]; omega)
      (fun _ _ _ => trivial) (opGreedy 3 (L, [])).2.length (opGreedy 3 (L, [])) trivial (le_refl _)
    have hrel := whileLoop_rel opShrinkCond opShrinkBody opShrinkCond opShrinkBody (OpInv L L')
      (fun s s' hi => by simp only [opShrinkCond, hi.op_eq])
      (fun s s' hi hc => by
        simp only [opShrinkCond, Bool.and_eq_true, Bool.not_eq_true'] at hc
        have hpos : 0 < s.2.length := List.length_pos.mpr (by simpa using hc.1)
        refine ⟨by simp [opShrinkBody, hi.op_eq], hi.src, hi.src', ?_, ?_, ?_⟩
        · simp only [opShrinkBody, List.length_dropLast, hi.pos]; omega
        · simp only [opShrinkBody, List.length_dropLast, hi.pos']; omega
        · simp only [opShrinkBody, List.length_dropLast]
          calc s.2.dropLast = s.2.take (s.2.length - 1) := List.dropLast_eq_take _
            _ = ((rest L).take s.2.length).take (s.2.length - 1) := by rw [← hi.text]
            _ = (rest L).take (s.2.length - 1) := by
              rw [List.take_take]; congr 1; omega)
      (opGreedy 3 (L, [])).2.length (opGreedy 3 (L, [])) (opGreedy 3 (L', [])) hg
    rcases hrel with ⟨hn, -⟩ | ⟨u, u', hu, hu', hi⟩
    · rw [ht] at hn; cases hn
    rw [ht] at hu; cases hu
    rw [hg.op_eq]
    simp only [ht, hu', Option.some_bind, hi.op_eq]
    cases hop : t.2.isEmpty with
    | false =>
      have hpos : 0 < t.2.length := List.length_pos.mpr (by simpa using hop)
      simp only [Bool.not_false, if_true]
      refine ⟨_, _, rfl, rfl, ⟨hi.toStep, ?_, rfl, rfl, ?_⟩, by simp⟩
      · simp only [hi.pos]; omega
      · rw [consumed_of_ne (by simp)]
        have e : t.1.position - L.position = t.2.length := by have := hi.pos; omega
        simp only [e]; exact hi.text
    | true =>
      have hnil : t.2 = [] := List.isEmpty_iff.mp hop
      have hp : t.1.position = L.position := by simpa [hnil] using hi.pos
      have hp' : u'.1.position = L'.position := by simpa [hnil] using hi.pos'
      simp only [Bool.not_true, Bool.false_eq_true, if_false, hi.src, hi.src',
        peek_zero_of_not_atEnd hne, peek_zero_of_not_atEnd hne', h.peek]
      refine ⟨_, _, rfl, rfl, ⟨⟨rfl, rfl, by simp, by simp; omega⟩, by simp, rfl, rfl, ?_⟩,
        by simp⟩
      rw [consumed_of_ne (by simp)]
      simp [take_one_rest hne]

theorem mem_asciiWhitespace_of_isspace {c : Char} (h : isspace c = true) :
    c ∈ asciiWhitespace := by
  simp only [isspace, Bool.or_eq_true, Bool.and_eq_true, decide_eq_true_eq] at h
  have hc : c = Char.ofNat c.toNat := (Char.ofNat_toNat c).symm
  have : c.toNat = 32 ∨ c.toNat = 9 ∨ c.toNat = 10 ∨ c.toNat = 11 ∨ c.toNat = 12 ∨
      c.toNat = 13 := by omega
  rcases this with e | e | e | e | e | e <;> rw [hc, e] <;> decide

theorem keywords_head : ∀ k ∈ KEYWORDS, isAlpha (k.headD '\x00') = true := by decide

theorem advanceWhile_split {cond : Lexer → Bool} {p : Char → Bool} (hc : CharCond cond p)
    {L M : Lexer} (h : advanceWhile cond L = some M) :
    ∃ w, rest L = w ++ rest M ∧ ∀ c ∈ w, p c = true := by
  rw [advanceWhile_eq hc L] at h
  cases h
  refine ⟨(rest L).takeWhile p, ?_, fun c hc => List.mem_takeWhile_imp hc⟩
  rw [rest_advN, drop_length_takeWhile, List.takeWhile_append_dropWhile]

theorem TokRel.of_scanRel {L L' M M' : Lexer} {r r' : Token × Lexer} {w : List Char}
    (sM : Step L L' M M') (hw : rest L = w ++ rest M) (hg : ∀ c ∈ w, c ∈ asciiWhitespace)
    (hr : ScanRel M M' r r')
    (hk : r.1.lexeme ∈ KEYWORDS → r.1.type = TokenType.KEYWORD) : TokRel L L' r r' w := by
  refine ⟨sM.trans hr.step, hr.type_eq, hr.lexeme_eq, fun _ => ?_, ?_, hg, hk⟩
  · have := sM.le; have := hr.lt; omega
  · rw [hw, List.append_assoc]
    congr 1
    rw [hr.text_eq, rest_of_step hr.step.src hr.step.le, List.take_append_drop]

/-- A lexeme that starts with a unit that is neither a letter is no keyword. -/
theorem not_keyword_of_head {M : Lexer} {r : Token × Lexer}
    (ha : isAlpha (peek M 0) = false) (hlt : M.position < r.2.position)
    (ht : consumed r.1 = (rest M).take (r.2.position - M.position))
    (hm : r.1.type ≠ TokenType.MACRO_CALL) :
    r.1.lexeme ∈ KEYWORDS → r.1.type = TokenType.KEYWORD := by
  intro hk
  exfalso
  have h1 := keywords_head _ hk
  rw [consumed_of_ne hm] at ht
  have h2 : r.1.lexeme.headD '\x00' = peek M 0 := by
    rw [ht, peek_eq]
    obtain ⟨k, hk⟩ : ∃ k, r.2.position - M.position = k + 1 :=
      ⟨r.2.position - M.position - 1, by omega⟩
    rw [hk]
    cases rest M <;> simp
  rw [h2, ha] at h1
  exact absurd h1 (by decide)

theorem scanToken_spec {L L' : Lexer} (h : Sim L L') :
    ∃ r r' w, scanToken L = some r ∧ scanToken L' = some r' ∧ TokRel L L' r r' w := by
  obtain ⟨M, M', eM, eM', sM, -⟩ := h.advanceWhile spaceCond_char
  obtain ⟨w, hw, hwp⟩ := advanceWhile_split spaceCond_char eM
  have hg : ∀ c ∈ w, c ∈ asciiWhitespace := fun c hc => by
    have := hwp c hc
    simp only [Bool.and_eq_true] at this
    exact mem_asciiWhitespace_of_isspace this.2
  have hM := h.step sM
  simp only [scanToken, eM, eM', Option.some_bind, hM.isAtEnd, hM.peek]
  cases he : isAtEnd M with
  | true =>
    simp only [if_true]
    refine ⟨_, _, w, rfl, rfl, ⟨sM, rfl, rfl, fun hL => ?_, ?_, hg, fun hk => ?_⟩⟩
    · simp only [isAtEnd, ge_iff_le, decide_eq_true_eq, decide_eq_false_iff_not, not_le] at he hL
      have := sM.src
      simp only; rw [this] at he; omega
    · rw [isAtEnd_eq, List.isEmpty_iff] at he
      simp [hw, he, consumed]
    · have hnk : ([] : List Char) ∉ KEYWORDS := by decide
      exact absurd hk hnk
  | false =>
    simp only [Bool.false_eq_true, if_false]
    split
    · obtain ⟨r, r', er, er', hr, hk⟩ := identifier_spec hM
      exact ⟨r, r', w, er, er', TokRel.of_scanRel sM hw hg hr hk⟩
    · rename_i hna
      have ha : isAlpha (peek M 0) = false := by
        cases hx : isAlpha (peek M 0) with
        | false => rfl
        | true => simp [hx] at hna
      split
      · rename_i hd
        obtain ⟨r, r', er, er', hr, hm⟩ := number_spec hM hd
        exact ⟨r, r', w, er, er', TokRel.of_scanRel sM hw hg hr
          (not_keyword_of_head ha hr.lt hr.text_eq hm)⟩
      · split
        · obtain ⟨r, r', er, er', hr, hm⟩ := string_spec hM
          exact ⟨r, r', w, er, er', TokRel.of_scanRel sM hw hg hr
            (not_keyword_of_head ha hr.lt hr.text_eq hm)⟩
        · split
          · obtain ⟨r, r', er, er', hr, hm⟩ := character_spec hM
            exact ⟨r, r', w, er, er', TokRel.of_scanRel sM hw hg hr
              (not_keyword_of_head ha hr.lt hr.text_eq hm)⟩
          · split
            · obtain ⟨r, r', er, er', hr, hm⟩ := comment_spec hM
              exact ⟨r, r', w, er, er', TokRel.of_scanRel sM hw hg hr
                (not_keyword_of_head ha hr.lt hr.text_eq hm)⟩
            · obtain ⟨r, r', er, er', hr, hm⟩ := operatorOrDelimiter_spec hM he
              exact ⟨r, r', w, er, er', TokRel.of_scanRel sM hw hg hr
                (not_keyword_of_head ha hr.lt hr.text_eq hm)⟩

theorem tokenizeLoop_spec (n : Nat) : ∀ (n' : Nat) (L L' : Lexer), Sim L L' →
    remaining L ≤ n → remaining L ≤ n' →
    ∃ ts ts' ws, tokenizeLoop n L = some ts ∧ tokenizeLoop n' L' = some ts' ∧
      LoopRel L ts ts' ws := by
  induction n with
  | zero =>
    intro n' L L' h hn _
    have he : isAtEnd L = true := by
      simp only [remaining] at hn
      simp only [isAtEnd, ge_iff_le, decide_eq_true_eq]; omega
    have hr : rest L = [] := by rw [isAtEnd_eq, List.isEmpty_iff] at he; exact he
    refine ⟨[], [], [], by simp [tokenizeLoop, he], ?_,
      ⟨rfl, by simp, rfl, by simp, by simp [hr, reassemble], by simp⟩⟩
    cases n' <;> simp [tokenizeLoop, h.isAtEnd, he]
  | succ n ih =>
    intro n' L L' h hn hn'
    cases he : isAtEnd L with
    | true =>
      have hr : rest L = [] := by rw [isAtEnd_eq, List.isEmpty_iff] at he; exact he
      refine ⟨[], [], [], by simp [tokenizeLoop, he], ?_,
      ⟨rfl, by simp, rfl, by simp, by simp [hr, reassemble], by simp⟩⟩
      cases n' <;> simp [tokenizeLoop, h.isAtEnd, he]
    | false =>
      have hpos : L.position < L.source.length := by
        simpa [isAtEnd] using he
      obtain ⟨m', rfl⟩ : ∃ m', n' = m' + 1 := ⟨n' - 1, by simp only [remaining] at hn'; omega⟩
      obtain ⟨r, r', w, er, er', hr⟩ := scanToken_spec h
      have hlt := hr.progress he
      have hrem : remaining r.2 < remaining L := by
        simp only [remaining, hr.step.src]; omega
      obtain ⟨ts, ts', ws, ets, ets', hts⟩ := ih m' r.2 r'.2 (h.step hr.step) (by omega) (by omega)
      refine ⟨{ r.1 with column := L.column, line := r.2.line } :: ts,
        { r'.1 with column := L'.column, line := r'.2.line } :: ts', w :: ws,
        by simp only [tokenizeLoop, he, Bool.false_eq_true, if_false, er, Option.some_bind, ets,
          Option.map_some'],
        by simp only [tokenizeLoop, h.isAtEnd, he, Bool.false_eq_true, if_false, er',
          Option.some_bind, ets', Option.map_some'], ?_⟩
      refine ⟨?_, ?_, by simp [hts.gaps], ?_, ?_, ?_⟩
      · have := hts.kinds_eq
        simp only [kinds, List.map_cons, hr.type_eq, hr.lexeme_eq] at this ⊢
        rw [this]
      · have := hts.count; simp only [List.length_cons]; omega
      · intro x hx
        rcases List.mem_cons.mp hx with rfl | hx
        · exact hr.gap
        · exact hts.gap x hx
      · simp only [reassemble]
        rw [← hts.cover, hr.cover]
        rfl
      · intro t ht
        rcases List.mem_cons.mp ht with rfl | ht
        · exact hr.keyword
        · exact hts.keyword t ht

@[simp] theorem rest_init (s : List Char) : rest (Lexer.init s) = s := rfl

@[simp] theorem init_source (s : List Char) : (Lexer.init s).source = s := rfl

@[simp] theorem init_position (s : List Char) : (Lexer.init s).position = 0 := rfl

theorem advanceWhile_of_not_cond {cond : Lexer → Bool} {L : Lexer} (h : cond L = false) :
    advanceWhile cond L = some L :=
  whileLoop_of_not_cond _ h

theorem tokenizeLoop_atEnd (n : Nat) {L : Lexer} (h : isAtEnd L = true) :
    tokenizeLoop n L = some [] := by
  cases n <;> simp [tokenizeLoop, h]

/-- An input that the first `scanToken` call consumes whole is one token. -/
theorem tokenize_single {s : List Char} {t : Token} {M : Lexer} (hs : s ≠ [])
    (h : scanToken (Lexer.init s) = some (t, M)) (hM : isAtEnd M = true) :
    (tokenize s).map kinds = some [(t.type, t.lexeme)] := by
  obtain ⟨n, hn⟩ : ∃ n, s.length = n + 1 :=
    ⟨s.length - 1, by have := List.length_pos.mpr hs; omega⟩
  have he : isAtEnd (Lexer.init s) = false := by
    rw [isAtEnd_eq, rest_init]; cases s <;> simp at hs ⊢
  simp [tokenize, hn, tokenizeLoop, he, h, tokenizeLoop_atEnd n hM, kinds]

theorem takeWhile_of_all {p : Char → Bool} {l : List Char} (h : ∀ c ∈ l, p c = true) :
    l.takeWhile p = l :=
  List.takeWhile_eq_self_iff.mpr h

theorem hexDigitChars_ok : ∀ c ∈ hexDigitChars, (isHexDigit c || c == '_') = true := by decide

theorem octDigitChars_ok : ∀ c ∈ octDigitChars, (isOctalDigit c || c == '_') = true := by decide

theorem binDigitChars_ok : ∀ c ∈ binDigitChars, (isBinaryDigit c || c == '_') = true := by decide

theorem not_space_of_isDigit {c : Char} (h : isDigit c = true) :
    (c != '\x00' && isascii c && isspace c) = false := by
  simp only [isDigit, isascii, isdigit, isspace, Bool.and_eq_true, decide_eq_true_eq] at h
  simp only [isascii, isspace, Bool.and_eq_false_iff, Bool.or_eq_false_iff,
    decide_eq_false_iff_not]
  right; constructor <;> omega

theorem not_space_of_isAlpha {c : Char} (h : isAlpha c = true) :
    (c != '\x00' && isascii c && isspace c) = false := by
  simp only [isAlpha, isascii, isalpha, Bool.and_eq_true, Bool.or_eq_true,
    decide_eq_true_eq] at h
  simp only [isascii, isspace, Bool.and_eq_false_iff, Bool.or_eq_false_iff,
    decide_eq_false_iff_not]
  right; constructor <;> omega

theorem not_isAlpha_of_isDigit {c : Char} (h : isDigit c = true) : isAlpha c = false := by
  simp only [isDigit, isascii, isdigit, Bool.and_eq_true, decide_eq_true_eq] at h
  simp only [isAlpha, isascii, isalpha, Bool.and_eq_false_iff, Bool.or_eq_false_iff,
    decide_eq_false_iff_not]
  right; constructor <;> omega

theorem ne_of_isDigit {c : Char} (d : Char) (h : isDigit c = true) (hd : isDigit d = false) :
    c ≠ d := by
  rintro rfl; rw [h] at hd; cases hd

theorem ne_of_isAlpha {c : Char} (d : Char) (h : isAlpha c = true) (hd : isAlpha d = false) :
    c ≠ d := by
  rintro rfl; rw [h] at hd; cases hd

theorem spaceCond_of_rest {L : Lexer} {c : Char} {cs : List Char} (hr : rest L = c :: cs)
    (hc : (c != '\x00' && isascii c && isspace c) = false) : spaceCond L = false := by
  rw [spaceCond_char L, peek_eq, hr]; simp [hc]

theorem scanToken_number {L : Lexer} {c : Char} {cs : List Char} (hr : rest L = c :: cs)
    (hd : isDigit c = true) : scanToken L = number L := by
  have e0 : advanceWhile spaceCond L = some L :=
    advanceWhile_of_not_cond (spaceCond_of_rest hr (not_space_of_isDigit hd))
  simp only [scanToken, e0, Option.some_bind]
  simp [isAtEnd_eq, peek_eq, hr, hd, not_isAlpha_of_isDigit hd,
    ne_of_isDigit '_' hd (by decide)]

theorem scanToken_identifier {L : Lexer} {c : Char} {cs : List Char} (hr : rest L = c :: cs)
    (hc : (isAlpha c || c == '_') = true) : scanToken L = identifier L := by
  have e0 : advanceWhile spaceCond L = some L :=
    advanceWhile_of_not_cond (spaceCond_of_rest hr (by
      simp only [Bool.or_eq_true, beq_iff_eq] at hc
      rcases hc with hc | rfl
      · exact not_space_of_isAlpha hc
      · decide))
  simp only [scanToken, e0, Option.some_bind]
  simp only [isAtEnd_eq, peek_eq, hr, List.isEmpty_cons, Bool.false_eq_true, if_false,
    List.getD_cons_zero, hc, if_true]

theorem scanToken_string {L : Lexer} {cs : List Char} (hr : rest L = '\x22' :: cs) :
    scanToken L = string L := by
  have e0 : advanceWhile spaceCond L = some L :=
    advanceWhile_of_not_cond (spaceCond_of_rest hr (by decide))
  simp only [scanToken, e0, Option.some_bind]
  simp only [isAtEnd_eq, peek_eq, hr, List.isEmpty_cons, Bool.false_eq_true, if_false,
    List.getD_cons_zero]
  rfl

theorem scanToken_comment {L : Lexer} {cs : List Char} (hr : rest L = '/' :: '*' :: cs) :
    scanToken L = comment L := by
  have e0 : advanceWhile spaceCond L = some L :=
    advanceWhile_of_not_cond (spaceCond_of_rest hr (by decide))
  simp only [scanToken, e0, Option.some_bind]
  simp only [isAtEnd_eq, peek_eq, hr, List.isEmpty_cons, Bool.false_eq_true, if_false,
    List.getD_cons_zero, List.getD_cons_succ]
  rfl

/-- When the first part of `number` stops at the end of the input, the token is
the text from the start to the end. -/
theorem number_of_mantissa_atEnd {L M : Lexer} {b : Bool}
    (hm : numberMantissa L = some (b, M)) (he : rest M = []) :
    number L = some
      ({ lexeme := substr M.source L.position (M.position - L.position),
         type := if b = true then TokenType.FLOAT_LITERAL else TokenType.INTEGER_LITERAL,
         line := M.line, column := M.column }, M) := by
  have e2 : numberExponent (b, M) = some (b, M) := by
    simp [numberExponent, peek_eq, he]
  have hz : isAlpha '\x00' = false := by decide
  have e3 : numberSuffix (b, M) = some (b, M) := by
    simp [numberSuffix, peek_eq, he, hz]
  simp only [number, hm, e2, e3, Option.some_bind, Option.map_some']

theorem scan_radix (p : Char) (h : List Char)
    (hp : (p ∈ ['x', 'X'] ∧ ∀ c ∈ h, c ∈ hexDigitChars) ∨
      (p ∈ ['o', 'O'] ∧ ∀ c ∈ h, c ∈ octDigitChars) ∨
      (p ∈ ['b', 'B'] ∧ ∀ c ∈ h, c ∈ binDigitChars)) :
    ∃ t M, scanToken (Lexer.init ('0' :: p :: h)) = some (t, M) ∧ isAtEnd M = true ∧
      t.type = TokenType.INTEGER_LITERAL ∧ t.lexeme = '0' :: p :: h := by
  have hm : ∃ M, numberMantissa (Lexer.init ('0' :: p :: h)) = some (false, M) ∧
      M.source = '0' :: p :: h ∧ M.position = h.length + 2 := by
    rcases hp with ⟨hp, hh⟩ | ⟨hp, hh⟩ | ⟨hp, hh⟩
    · have hh' := takeWhile_of_all (fun c hc => hexDigitChars_ok c (hh c hc))
      simp only [List.mem_cons, List.mem_singleton, List.not_mem_nil, or_false] at hp
      rcases hp with rfl | rfl <;>
        simp [numberMantissa, matchEither, match_, peek_eq, isAtEnd_eq, rest_adv,
          advanceWhile_eq hexCond_char, hh'] <;> omega
    · have hh' := takeWhile_of_all (fun c hc => octDigitChars_ok c (hh c hc))
      simp only [List.mem_cons, List.mem_singleton, List.not_mem_nil, or_false] at hp
      rcases hp with rfl | rfl <;>
        simp [numberMantissa, matchEither, match_, peek_eq, isAtEnd_eq, rest_adv,
          advanceWhile_eq octCond_char, hh'] <;> omega
    · have hh' := takeWhile_of_all (fun c hc => binDigitChars_ok c (hh c hc))
      simp only [List.mem_cons, List.mem_singleton, List.not_mem_nil, or_false] at hp
      rcases hp with rfl | rfl <;>
        simp [numberMantissa, matchEither, match_, peek_eq, isAtEnd_eq, rest_adv,
          advanceWhile_eq binCond_char, hh'] <;> omega
  obtain ⟨M, hM, hsrc, hpos⟩ := hm
  have hrest : rest M = [] := by
    unfold rest; rw [hsrc, hpos]; simp
  have hn := number_of_mantissa_atEnd hM hrest
  rw [← scanToken_number (rest_init _) (by decide)] at hn
  refine ⟨_, M, hn, ?_, rfl, ?_⟩
  · rw [isAtEnd_eq, hrest]; rfl
  · simp [substr, hsrc, hpos]

/-- C7. Radix-prefixed integers: `0x`/`0X` followed by hexadecimal digits and `_`,
`0o`/`0O` followed by the digits 0-7 and `_`, `0b`/`0B` followed by 0, 1 and
`_` are one `INTEGER_LITERAL` token whose lexeme is the whole input. -/
theorem radix_integer (p : Char) (h : List Char)
    (hp : (p ∈ ['x', 'X'] ∧ ∀ c ∈ h, c ∈ hexDigitChars) ∨
      (p ∈ ['o', 'O'] ∧ ∀ c ∈ h, c ∈ octDigitChars) ∨
      (p ∈ ['b', 'B'] ∧ ∀ c ∈ h, c ∈ binDigitChars)) :
    (tokenize ('0' :: p :: h)).map kinds =
      some [(TokenType.INTEGER_LITERAL, '0' :: p :: h)] := by
  obtain ⟨t, M, hs, hM, hty, hlx⟩ := scan_radix p h hp
  rw [tokenize_single (by simp) hs hM, hty, hlx]

theorem radix_integer_witness :
    (tokenize "0x1A_2B".toList).map kinds =
      some [(TokenType.INTEGER_LITERAL, "0x1A_2B".toList)] :=
  radix_integer 'x' "1A_2B".toList (Or.inl (by decide))

theorem digitChars_ok : ∀ c ∈ digitChars, isDigit c = true := by decide

theorem letterChars_ok : ∀ c ∈ letterChars, isAlpha c = true := by decide

theorem isAlphaNumeric_of_isAlpha {c : Char} (h : isAlpha c = true) :
    isAlphaNumeric c = true := by
  simp only [isAlpha, isAlphaNumeric, isalnum, Bool.and_eq_true, Bool.or_eq_true] at *
  exact ⟨h.1, Or.inl h.2⟩

theorem isAlphaNumeric_of_isDigit {c : Char} (h : isDigit c = true) :
    isAlphaNumeric c = true := by
  simp only [isDigit, isAlphaNumeric, isalnum, Bool.and_eq_true, Bool.or_eq_true] at *
  exact ⟨h.1, Or.inr h.2⟩

theorem takeWhile_append_stop {p : Char → Bool} {xs ys : List Char}
    (hx : ∀ c ∈ xs, p c = true) (hy : ∀ c, ys.head? = some c → p c = false) :
    (xs ++ ys).takeWhile p = xs := by
  induction xs with
  | nil =>
    cases ys with
    | nil => rfl
    | cons y ys => simp [List.takeWhile, hy y rfl]
  | cons x xs ih =>
    rw [List.cons_append, List.takeWhile_cons, if_pos (hx x (List.mem_cons_self _ _)),
      ih (fun c hc => hx c (List.mem_cons_of_mem _ hc))]

theorem float_scan (a b s : List Char) (ha : a ≠ []) (had : ∀ c ∈ a, c ∈ digitChars)
    (ha0 : a.head? ≠ some '0') (hb : b ≠ []) (hbd : ∀ c ∈ b, c ∈ digitChars)
    (hs : ∀ c ∈ s, c ∈ letterChars ∨ c ∈ digitChars)
    (hs0 : ∀ c, s.head? = some c → c ∈ letterChars) :
    ∃ t M, scanToken (Lexer.init (a ++ '.' :: (b ++ s))) = some (t, M) ∧ isAtEnd M = true ∧
      t.type = TokenType.FLOAT_LITERAL ∧ t.lexeme = a ++ '.' :: (b ++ s) := by
  obtain ⟨a0, a', rfl⟩ := List.exists_cons_of_ne_nil ha
  obtain ⟨b0, b', rfl⟩ := List.exists_cons_of_ne_nil hb
  have ha0d : isDigit a0 = true := digitChars_ok a0 (had a0 (List.mem_cons_self _ _))
  have hb0d : isDigit b0 = true := digitChars_ok b0 (hbd b0 (List.mem_cons_self _ _))
  have hne0 : a0 ≠ '0' := fun h => ha0 (by simp [h])
  set src := (a0 :: a') ++ '.' :: ((b0 :: b') ++ s) with hsrc
  set L := Lexer.init src with hL
  have hrL : rest L = (a0 :: a') ++ '.' :: ((b0 :: b') ++ s) := rfl
  -- the integer part
  have t1 : (rest L).takeWhile (fun c => isDigit c || c == '_') = a0 :: a' := by
    rw [hrL]
    exact takeWhile_append_stop (fun c hc => by simp [digitChars_ok c (had c hc)])
      (fun c hc => by simp only [List.head?_cons, Option.some.injEq] at hc; subst hc; decide)
  have e1 := advanceWhile_eq digitCond_char L
  rw [t1] at e1
  generalize advN (a0 :: a').length L = M1 at e1
  have hr1 : rest M1 = '.' :: ((b0 :: b') ++ s) := by
    have := advanceWhile_eq digitCond_char L
    rw [t1, e1] at this; cases this
    rw [rest_advN, hrL]; simp
  -- the fraction
  have hr2 : rest (adv M1) = (b0 :: b') ++ s := by
    rw [rest_adv, hr1]; rfl
  have t2 : (rest (adv M1)).takeWhile (fun c => isDigit c || c == '_') = b0 :: b' := by
    rw [hr2]
    exact takeWhile_append_stop (fun c hc => by simp [digitChars_ok c (hbd c hc)])
      (fun c hc => by
        have hl := letterChars_ok c (hs0 c hc)
        have hne : c ≠ '_' := ne_of_isAlpha '_' hl (by decide)
        cases hd : isDigit c with
        | false => simpa using hne
        | true => rw [not_isAlpha_of_isDigit hd] at hl; cases hl)
  have e2 := advanceWhile_eq digitCond_char (adv M1)
  rw [t2] at e2
  have hr3 : rest (advN (b0 :: b').length (adv M1)) = s := by
    rw [rest_advN, hr2]; simp
  have hsrc2 : (advN (b0 :: b').length (adv M1)).source = src := by
    have := advanceWhile_eq digitCond_char L
    rw [t1, e1] at this; cases this
    simp [hL]
  generalize advN (b0 :: b').length (adv M1) = M2 at e2 hr3 hsrc2
  have hm : numberMantissa L = some (true, M2) := by
    have hp0 : (peek L 0 == '0') = false := by
      rw [peek_eq, hrL]; simpa using hne0
    have hp1 : peek M1 0 = '.' := by rw [peek_eq, hr1]; rfl
    have hp2 : peek M1 1 = b0 := by rw [peek_eq, hr1]; rfl
    simp only [numberMantissa, hp0, Bool.false_eq_true, if_false, e1, Option.some_bind, hp1, hp2,
      hb0d, beq_self_eq_true, Bool.and_self, if_true, e2, Option.map_some']
  have hdc : digitCond M2 = false := by
    have := (Sim.refl (adv M1)).advanceWhile digitCond_char
    obtain ⟨N, -, hN, -, -, hc⟩ := this
    rw [e2] at hN; cases hN; exact hc
  -- exponent and suffix
  obtain ⟨b2, N2, N2', e3, -, s3, hb2, hd2⟩ := numberExponent_spec (Sim.refl M2) true
  obtain ⟨b3, N3, N3', e4, -, s4, hb3, hd3⟩ := numberSuffix_spec ((Sim.refl M2).step s3) b2
  have hb2' := hb2 rfl
  have hb3' := hb3 hb2'
  have hpk := hd3 (hd2 hdc)
  have hst := s3.trans s4
  have hrN : rest N3 = [] := by
    have hr := rest_of_step hst.src hst.le
    rw [hr3] at hr
    cases hx : rest N3 with
    | nil => rfl
    | cons c cs =>
      exfalso
      have hmem : c ∈ s := by
        have : c ∈ List.drop (N3.position - M2.position) s := by rw [← hr, hx]; simp
        exact List.mem_of_mem_drop this
      have hal : isAlphaNumeric c = true := by
        rcases hs c hmem with h | h
        · exact isAlphaNumeric_of_isAlpha (letterChars_ok c h)
        · exact isAlphaNumeric_of_isDigit (digitChars_ok c h)
      rw [peek_eq, hx] at hpk
      simp only [List.getD_cons_zero] at hpk
      rw [hal] at hpk; cases hpk
  have hsrcN : N3.source = src := by rw [hst.src]; exact hsrc2
  have hn : number L = some
      ({ lexeme := substr N3.source L.position (N3.position - L.position),
         type := TokenType.FLOAT_LITERAL, line := N3.line, column := N3.column }, N3) := by
    simp only [number, hm, e3, e4, Option.some_bind, Option.map_some', hb3', if_true]
  rw [← scanToken_number hrL ha0d] at hn
  refine ⟨_, N3, hn, by rw [isAtEnd_eq, hrN]; rfl, rfl, ?_⟩
  have hlen : src.length ≤ N3.position := by
    have : List.drop N3.position N3.source = [] := hrN
    rw [hsrcN] at this
    exact List.drop_eq_nil_iff.mp this
  simp only [substr, hsrcN, hL, init_position, Nat.sub_zero, List.drop_zero]
  exact List.take_of_length_le hlen

/-- C8. Float literals with a suffix: digits not starting with 0, a dot, digits, and
an optional run of ASCII letters and digits that starts with a letter, are one
`FLOAT_LITERAL` token whose lexeme is the whole input. -/
theorem float_with_suffix (a b s : List Char) (ha : a ≠ []) (had : ∀ c ∈ a, c ∈ digitChars)
    (ha0 : a.head? ≠ some '0') (hb : b ≠ []) (hbd : ∀ c ∈ b, c ∈ digitChars)
    (hs : ∀ c ∈ s, c ∈ letterChars ∨ c ∈ digitChars)
    (hs0 : ∀ c, s.head? = some c → c ∈ letterChars) :
    (tokenize (a ++ '.' :: (b ++ s))).map kinds =
      some [(TokenType.FLOAT_LITERAL, a ++ '.' :: (b ++ s))] := by
  obtain ⟨t, M, hsc, hM, hty, hlx⟩ := float_scan a b s ha had ha0 hb hbd hs hs0
  rw [tokenize_single (by simp) hsc hM, hty, hlx]

theorem float_with_suffix_witness :
    (tokenize "3.14f32".toList).map kinds =
      some [(TokenType.FLOAT_LITERAL, "3.14f32".toList)] :=
  float_with_suffix "3".toList "14".toList "f32".toList (by decide) (by decide) (by decide)
    (by decide) (by decide) (by decide) (by decide)

theorem whileLoop_mono {σ : Type} (cond : σ → Bool) (body : σ → σ) :
    ∀ (n m : Nat) (s t : σ), whileLoop cond body n s = some t → n ≤ m →
      whileLoop cond body m s = some t := by
  intro n
  induction n with
  | zero =>
    intro m s t h _
    cases hc : cond s with
    | false => rw [whileLoop_of_not_cond _ hc] at h ⊢; exact h
    | true => simp [whileLoop, hc] at h
  | succ n ih =>
    intro m s t h hm
    cases hc : cond s with
    | false => rw [whileLoop_of_not_cond _ hc] at h ⊢; exact h
    | true =>
      obtain ⟨m', rfl⟩ : ∃ m', m = m' + 1 := ⟨m - 1, by omega⟩
      rw [whileLoop_step _ hc] at h ⊢
      exact ih m' _ _ h (by omega)

/-- The loop of the string scanner over a text without a double quote: every
iteration consumes one unit, up to the end of the input. -/
theorem stringLoop_no_quote : ∀ (s : List Char) (M : Lexer), rest M = s → '\x22' ∉ s →
    whileLoop stringCond stringBody s.length M = some (advN s.length M) := by
  intro s
  induction s with
  | nil =>
    intro M hr _
    exact whileLoop_of_not_cond _ (by simp [stringCond, isAtEnd_eq, hr])
  | cons c s ih =>
    intro M hr hq
    have hc : c ≠ '\x22' := fun h => hq (by simp [h])
    have hs : '\x22' ∉ s := fun h => hq (List.mem_cons_of_mem _ h)
    have hcond : stringCond M = true := by
      simp [stringCond, isAtEnd_eq, peek_eq, hr, hc]
    have hp1 : (peek M 1 == '\x22') = false := by
      rw [peek_eq, hr]
      cases s with
      | nil => rfl
      | cons d s' =>
        have : d ≠ '\x22' := fun h => hs (by simp [h])
        simpa using this
    have hbody : stringBody M = adv M := by
      simp [stringBody, hp1]
    rw [List.length_cons, whileLoop_step _ hcond, hbody, ih (adv M) (by rw [rest_adv, hr]; rfl) hs]
    rfl

theorem string_scan (s : List Char) (hq : '\x22' ∉ s) :
    ∃ t M, scanToken (Lexer.init ('\x22' :: s)) = some (t, M) ∧ isAtEnd M = true ∧
      t.type = TokenType.UNKNOWN ∧ t.lexeme = '\x22' :: s := by
  have hr1 : rest (adv (Lexer.init ('\x22' :: s))) = s := by rw [rest_adv, rest_init]; rfl
  have hl := stringLoop_no_quote s _ hr1 hq
  have hfuel : remaining (adv (Lexer.init ('\x22' :: s))) = s.length := by
    rw [remaining_eq, hr1]
  have hend : isAtEnd (advN s.length (adv (Lexer.init ('\x22' :: s)))) = true := by
    rw [isAtEnd_eq, rest_advN, hr1]; simp
  have hst : string (Lexer.init ('\x22' :: s)) = some
      ({ lexeme := substr (advN s.length (adv (Lexer.init ('\x22' :: s)))).source
           (Lexer.init ('\x22' :: s)).position
           ((advN s.length (adv (Lexer.init ('\x22' :: s)))).position -
             (Lexer.init ('\x22' :: s)).position),
         type := TokenType.UNKNOWN,
         line := (advN s.length (adv (Lexer.init ('\x22' :: s)))).line,
         column := (advN s.length (adv (Lexer.init ('\x22' :: s)))).column },
        advN s.length (adv (Lexer.init ('\x22' :: s)))) := by
    simp only [string, hfuel, hl, Option.some_bind, hend, if_true]
  rw [← scanToken_string (rest_init _)] at hst
  refine ⟨_, _, hst, hend, rfl, ?_⟩
  simp [substr]
  omega

/-- C10. Unterminated string: a double quote followed by any text without a double
quote is one `UNKNOWN` token whose lexeme is the whole input. -/
theorem unterminated_string (s : List Char) (hq : '\x22' ∉ s) :
    (tokenize ('\x22' :: s)).map kinds = some [(TokenType.UNKNOWN, '\x22' :: s)] := by
  obtain ⟨t, M, hsc, hM, hty, hlx⟩ := string_scan s hq
  rw [tokenize_single (by simp) hsc hM, hty, hlx]

theorem unterminated_string_witness :
    (tokenize "\x22unterminated".toList).map kinds =
      some [(TokenType.UNKNOWN, "\x22unterminated".toList)] :=
  unterminated_string "unterminated".toList (by decide)

/-! ### Nested block comments -/

/-- The block-comment loop over a text without `/` and `*`: every iteration
consumes one unit and leaves `nesting` unchanged. -/
theorem blockLoop_skip : ∀ (x tl : List Char) (M : Lexer) (nest : Int) (f : Nat),
    rest M = x ++ tl → '/' ∉ x → '*' ∉ x → 0 < nest →
    whileLoop blockCommentCond blockCommentBody (x.length + f) (M, nest) =
      whileLoop blockCommentCond blockCommentBody f (advN x.length M, nest) := by
  intro x
  induction x with
  | nil => intro tl M nest f _ _ _ _; simp [advN]
  | cons c x ih =>
    intro tl M nest f hr h1 h2 hn
    have hc1 : c ≠ '/' := fun h => h1 (by simp [h])
    have hc2 : c ≠ '*' := fun h => h2 (by simp [h])
    have hcond : blockCommentCond (M, nest) = true := by
      simp [blockCommentCond, isAtEnd_eq, hr, hn]
    have hbody : blockCommentBody (M, nest) = (adv M, nest) := by
      simp [blockCommentBody, peek_eq, hr, hc1, hc2]
    have e : (c :: x).length + f = (x.length + f) + 1 := by simp; omega
    rw [e, whileLoop_step _ hcond, hbody,
      ih tl (adv M) nest f (by rw [rest_adv, hr]; rfl) (fun h => h1 (List.mem_cons_of_mem _ h))
        (fun h => h2 (List.mem_cons_of_mem _ h)) hn]
    rfl

theorem blockLoop_open (tl : List Char) (M : Lexer) (nest : Int) (f : Nat)
    (hr : rest M = '/' :: '*' :: tl) (hn : 0 < nest) :
    whileLoop blockCommentCond blockCommentBody (f + 1) (M, nest) =
      whileLoop blockCommentCond blockCommentBody f (adv (adv M), nest + 1) := by
  have hcond : blockCommentCond (M, nest) = true := by
    simp [blockCommentCond, isAtEnd_eq, hr, hn]
  have hbody : blockCommentBody (M, nest) = (adv (adv M), nest + 1) := by
    simp [blockCommentBody, peek_eq, hr]
  rw [whileLoop_step _ hcond, hbody]

theorem blockLoop_close (tl : List Char) (M : Lexer) (nest : Int) (f : Nat)
    (hr : rest M = '*' :: '/' :: tl) (hn : 0 < nest) :
    whileLoop blockCommentCond blockCommentBody (f + 1) (M, nest) =
      whileLoop blockCommentCond blockCommentBody f (adv (adv M), nest - 1) := by
  have hcond : blockCommentCond (M, nest) = true := by
    simp [blockCommentCond, isAtEnd_eq, hr, hn]
  have hbody : blockCommentBody (M, nest) = (adv (adv M), nest - 1) := by
    simp [blockCommentBody, peek_eq, hr]
  rw [whileLoop_step _ hcond, hbody]

theorem comment_scan (a b c : List Char) (ha : '/' ∉ a ∧ '*' ∉ a) (hb : '/' ∉ b ∧ '*' ∉ b)
    (hc : '/' ∉ c ∧ '*' ∉ c) :
    ∃ t M, scanToken (Lexer.init ("/*".toList ++ a ++ "/*".toList ++ b ++ "*/".toList ++ c ++
        "*/".toList)) = some (t, M) ∧ isAtEnd M = true ∧ t.type = TokenType.COMMENT ∧
      t.lexeme = "/*".toList ++ a ++ "/*".toList ++ b ++ "*/".toList ++ c ++ "*/".toList := by
  have hsrc : "/*".toList ++ a ++ "/*".toList ++ b ++ "*/".toList ++ c ++ "*/".toList =
      '/' :: '*' :: (a ++ '/' :: '*' :: (b ++ '*' :: '/' :: (c ++ ['*', '/']))) := by
    simp
  rw [hsrc]
  generalize hL :
    Lexer.init ('/' :: '*' :: (a ++ '/' :: '*' :: (b ++ '*' :: '/' :: (c ++ ['*', '/'])))) = L
  have hrL :
      rest L = '/' :: '*' :: (a ++ '/' :: '*' :: (b ++ '*' :: '/' :: (c ++ ['*', '/']))) := by
    rw [← hL]; rfl
  -- the opening `/*`
  have hm1 : match_ (adv L) '/' = (false, adv L) := by
    simp [match_, isAtEnd_eq, peek_eq, rest_adv, hrL]
  have hm2 : match_ (adv L) '*' = (true, adv (adv L)) := by
    simp [match_, isAtEnd_eq, peek_eq, rest_adv, hrL]
  generalize hM0 : adv (adv L) = M0 at hm2
  have hr0 : rest M0 = a ++ '/' :: '*' :: (b ++ '*' :: '/' :: (c ++ ['*', '/'])) := by
    rw [← hM0, rest_adv, rest_adv, hrL]; rfl
  -- the loop
  have hrun : ∃ ME, whileLoop blockCommentCond blockCommentBody
      (a.length + ((b.length + ((c.length + (0 + 1)) + 1)) + 1)) (M0, 1) = some (ME, 0) ∧
      ME.source = M0.source ∧
      ME.position = M0.position + (a.length + 2 + b.length + 2 + c.length + 2) := by
    rw [blockLoop_skip a _ M0 1 _ hr0 ha.1 ha.2 (by decide)]
    have hr1 : rest (advN a.length M0) = '/' :: '*' :: (b ++ '*' :: '/' :: (c ++ ['*', '/'])) := by
      rw [rest_advN, hr0]; simp
    rw [blockLoop_open _ _ 1 _ hr1 (by decide)]
    have hr2 : rest (adv (adv (advN a.length M0))) = b ++ '*' :: '/' :: (c ++ ['*', '/']) := by
      rw [rest_adv, rest_adv, hr1]; rfl
    rw [blockLoop_skip b _ _ _ _ hr2 hb.1 hb.2 (by decide)]
    have hr3 : rest (advN b.length (adv (adv (advN a.length M0)))) =
        '*' :: '/' :: (c ++ ['*', '/']) := by
      rw [rest_advN, hr2]; simp
    rw [blockLoop_close _ _ _ _ hr3 (by decide)]
    have hr4 : rest (adv (adv (advN b.length (adv (adv (advN a.length M0)))))) =
        c ++ ['*', '/'] := by
      rw [rest_adv, rest_adv, hr3]; rfl
    rw [blockLoop_skip c _ _ _ _ hr4 hc.1 hc.2 (by decide)]
    have hr5 : rest (advN c.length (adv (adv (advN b.length (adv (adv (advN a.length M0))))))) =
        ['*', '/'] := by
      rw [rest_advN, hr4]; simp
    rw [blockLoop_close _ _ _ _ hr5 (by decide)]
    exact ⟨_, whileLoop_of_not_cond _ (by simp [blockCommentCond]), by simp, by simp; omega⟩
  obtain ⟨ME, hrun, hsE, hpE⟩ := hrun
  have hsrcE : ME.source = L.source := by rw [hsE, ← hM0]; simp
  have hposE : ME.position = L.position + L.source.length := by
    rw [hpE, ← hM0, ← hL]; simp [Lexer.init]; omega
  have hloop := whileLoop_mono _ _ _ (remaining M0) _ _ hrun (by
    rw [remaining_eq, hr0]; simp; omega)
  have hcm : comment L = some
      ({ lexeme := substr ME.source L.position (ME.position - L.position),
         type := TokenType.COMMENT, line := ME.line, column := ME.column }, ME) := by
    simp only [comment, hm1, Bool.false_eq_true, if_false, hm2, if_true, hloop, Option.map_some']
  rw [← scanToken_comment hrL] at hcm
  refine ⟨_, ME, hcm, ?_, rfl, ?_⟩
  · simp only [isAtEnd, hsrcE, hposE, ge_iff_le, decide_eq_true_eq]; omega
  · simp only [substr, hsrcE, hposE]
    rw [← hL]; simp [Lexer.init]

/-- C9. Nested block comments: `/*` a `/*` b `*/` c `*/`, where a, b and c contain
neither `/` nor `*`, is one `COMMENT` token whose lexeme is the whole input; the
inner `*/` does not end the comment. -/
theorem nested_block_comment (a b c : List Char) (ha : '/' ∉ a ∧ '*' ∉ a)
    (hb : '/' ∉ b ∧ '*' ∉ b) (hc : '/' ∉ c ∧ '*' ∉ c) :
    (tokenize ("/*".toList ++ a ++ "/*".toList ++ b ++ "*/".toList ++ c ++ "*/".toList)).map
        kinds =
      some [(TokenType.COMMENT,
        "/*".toList ++ a ++ "/*".toList ++ b ++ "*/".toList ++ c ++ "*/".toList)] := by
  obtain ⟨t, M, hsc, hM, hty, hlx⟩ := comment_scan a b c ha hb hc
  rw [tokenize_single (by simp) hsc hM, hty, hlx]

theorem nested_block_comment_witness :
    (tokenize "/* a /* b */ c */".toList).map kinds =
      some [(TokenType.COMMENT, "/* a /* b */ c */".toList)] :=
  nested_block_comment " a ".toList " b ".toList " c ".toList (by decide) (by decide)
    (by decide)

/-! ### Macro calls -/

theorem macro_scan (c : Char) (cs r : List Char) (hc : c ∈ letterChars ∨ c = '_')
    (hcs : ∀ d ∈ cs, d ∈ letterChars ∨ d ∈ digitChars ∨ d = '_')
    (hk : c :: cs ∉ KEYWORDS) (hr : c :: cs ≠ ['r']) (hb : c :: cs ≠ ['b']) :
    ∃ t M, scanToken (Lexer.init (c :: cs ++ '!' :: r)) = some (t, M) ∧
      t.type = TokenType.MACRO_CALL ∧ t.lexeme = c :: cs ∧ Sim M (Lexer.init r) ∧
      remaining M = r.length := by
  generalize hL : Lexer.init (c :: cs ++ '!' :: r) = L
  have hrL : rest L = c :: (cs ++ '!' :: r) := by rw [← hL]; rfl
  have hc' : (isAlpha c || c == '_') = true := by
    rcases hc with h | rfl
    · simp [letterChars_ok c h]
    · decide
  have hr1 : rest (adv L) = cs ++ '!' :: r := by rw [rest_adv, hrL]; rfl
  have t1 : (rest (adv L)).takeWhile (fun c => isAlphaNumeric c || c == '_') = cs := by
    rw [hr1]
    exact takeWhile_append_stop (fun d hd => by
        rcases hcs d hd with h | h | rfl
        · simp [isAlphaNumeric_of_isAlpha (letterChars_ok d h)]
        · simp [isAlphaNumeric_of_isDigit (digitChars_ok d h)]
        · decide)
      (fun d hd => by simp only [List.head?_cons, Option.some.injEq] at hd; subst hd; decide)
  have e1 := advanceWhile_eq identCond_char (adv L)
  rw [t1] at e1
  have hr2 : rest (advN cs.length (adv L)) = '!' :: r := by rw [rest_advN, hr1]; simp
  have hsrc2 : (advN cs.length (adv L)).source = c :: cs ++ '!' :: r := by rw [← hL]; simp
  have hpos2 : (advN cs.length (adv L)).position = cs.length + 1 := by
    rw [← hL]; simp; omega
  generalize advN cs.length (adv L) = M at e1 hr2 hsrc2 hpos2
  have hp : peek M 0 = '!' := by rw [peek_eq, hr2]; rfl
  have hpL : L.position = 0 := by rw [← hL]; rfl
  have htxt : substr M.source L.position (M.position - L.position) = c :: cs := by
    simp [substr, hsrc2, hpos2, hpL]
  have hid : identifier L = some
      ({ lexeme := c :: cs, type := TokenType.MACRO_CALL, line := (adv M).line,
         column := (adv M).column }, adv M) := by
    simp only [identifier, e1, Option.some_bind, htxt, hk, if_false, hp]
    simp [hr, hb]
  rw [← scanToken_identifier hrL hc'] at hid
  refine ⟨_, _, hid, rfl, rfl, ⟨?_, ?_⟩, ?_⟩
  · rw [rest_adv, hr2]; rfl
  · simp [hsrc2, hpos2]; omega
  · rw [remaining_eq, rest_adv, hr2]; rfl

theorem tokenizeLoop_mono (n : Nat) : ∀ (m : Nat) (L : Lexer) (ts : List Token),
    tokenizeLoop n L = some ts → n ≤ m → tokenizeLoop m L = some ts := by
  induction n with
  | zero =>
    intro m L ts h _
    cases he : isAtEnd L with
    | true => rw [tokenizeLoop_atEnd _ he] at h ⊢; exact h
    | false => simp [tokenizeLoop, he] at h
  | succ n ih =>
    intro m L ts h hm
    cases he : isAtEnd L with
    | true => rw [tokenizeLoop_atEnd _ he] at h ⊢; exact h
    | false =>
      obtain ⟨m', rfl⟩ : ∃ m', m = m' + 1 := ⟨m - 1, by omega⟩
      simp only [tokenizeLoop, he, Bool.false_eq_true, if_false] at h ⊢
      cases hs : scanToken L with
      | none => simp [hs] at h
      | some r =>
        simp only [hs, Option.some_bind] at h ⊢
        cases ht : tokenizeLoop n r.2 with
        | none => simp [ht] at h
        | some ts' =>
          rw [ih m' r.2 ts' ht (by omega)]
          rw [ht] at h
          exact h

/-- C6. Macro call: an identifier-shaped `w` that is no keyword and neither `r`
nor `b`, followed by `!` and any text `r`, gives a `MACRO_CALL` token with the
lexeme `w` (without the `!`), followed by the tokens of `r`. -/
theorem macro_call (c : Char) (cs r : List Char) (hc : c ∈ letterChars ∨ c = '_')
    (hcs : ∀ d ∈ cs, d ∈ letterChars ∨ d ∈ digitChars ∨ d = '_')
    (hk : c :: cs ∉ KEYWORDS) (hr : c :: cs ≠ ['r']) (hb : c :: cs ≠ ['b']) :
    ∃ ts tr, tokenize (c :: cs ++ '!' :: r) = some ts ∧ tokenize r = some tr ∧
      kinds ts = (TokenType.MACRO_CALL, c :: cs) :: kinds tr := by
  obtain ⟨t, M, hsc, hty, hlx, hsim, hrem⟩ := macro_scan c cs r hc hcs hk hr hb
  obtain ⟨ts, tr, ws, hts, htr, hrel⟩ := tokenizeLoop_spec (cs.length + 1 + r.length) r.length M
    (Lexer.init r) hsim (by omega) (by omega)
  have hlen : (c :: cs ++ '!' :: r).length = (cs.length + 1 + r.length) + 1 := by
    simp; omega
  have he : isAtEnd (Lexer.init (c :: cs ++ '!' :: r)) = false := by
    rw [isAtEnd_eq, rest_init]; rfl
  refine ⟨{ t with column := 0, line := M.line } :: ts, tr, ?_, htr, ?_⟩
  · rw [tokenize, hlen]
    simp only [tokenizeLoop, he, Bool.false_eq_true, if_false, hsc,
      Option.some_bind, hts, Option.map_some']
    rfl
  · simp only [kinds, List.map_cons, hty, hlx]
    have := hrel.kinds_eq
    simp only [kinds] at this
    rw [this]

theorem macro_call_witness :
    (tokenize "println!(\x22hi\x22)".toList).map kinds =
      some [(TokenType.MACRO_CALL, "println".toList), (TokenType.DELIMITER, "(".toList),
        (TokenType.STRING_LITERAL, "\x22hi\x22".toList), (TokenType.DELIMITER, ")".toList)] := by
  obtain ⟨ts, tr, h1, h2, h3⟩ := macro_call 'p' "rintln".toList "(\x22hi\x22)".toList
    (by decide) (by decide) (by decide) (by decide) (by decide)
  have h1' : tokenize "println!(\x22hi\x22)".toList = some ts := h1
  have h4 : (tokenize "(\x22hi\x22)".toList).map kinds =
      some [(TokenType.DELIMITER, "(".toList),
        (TokenType.STRING_LITERAL, "\x22hi\x22".toList), (TokenType.DELIMITER, ")".toList)] := by
    decide
  rw [h2, Option.map_some', Option.some.injEq] at h4
  rw [h1', Option.map_some', h3, h4]
  rfl

/-! ### Claims about every input -/

/-- C1. Coverage: the input is the concatenation, in order, of a whitespace gap
and the source text of each token (its lexeme, plus the `!` a macro call
consumes); no unit is dropped, duplicated or reordered. -/
theorem tokenize_coverage (s : List Char) :
    ∃ ts ws, tokenize s = some ts ∧ ws.length = ts.length ∧
      (∀ w ∈ ws, ∀ c ∈ w, c ∈ asciiWhitespace) ∧ s = reassemble ws ts := by
  obtain ⟨ts, ts', ws, hts, -, hrel⟩ := tokenizeLoop_spec s.length s.length (Lexer.init s)
    (Lexer.init s) (Sim.refl _) (by simp [remaining]) (by simp [remaining])
  exact ⟨ts, ws, hts, hrel.gaps, hrel.gap, hrel.cover⟩

/-- C2. Keyword exclusivity: every token whose lexeme is a member of `KEYWORDS` has
kind `KEYWORD`. -/
theorem keyword_exclusivity (s : List Char) :
    ∃ ts, tokenize s = some ts ∧
      ∀ t ∈ ts, t.lexeme ∈ KEYWORDS → t.type = TokenType.KEYWORD := by
  obtain ⟨ts, ts', ws, hts, -, hrel⟩ := tokenizeLoop_spec s.length s.length (Lexer.init s)
    (Lexer.init s) (Sim.refl _) (by simp [remaining]) (by simp [remaining])
  exact ⟨ts, hts, hrel.keyword⟩

/-- C3. Termination: a `scanToken` call made before the end of the input returns
and strictly increases the offset; `tokenize` returns, with at most as many
tokens as the input has units; more fuel does not change its result; the empty
input gives no token. -/
theorem tokenize_terminates :
    (∀ L : Lexer, isAtEnd L = false →
      ∃ t M, scanToken L = some (t, M) ∧ L.position < M.position) ∧
    (∀ s : List Char, ∃ ts, tokenize s = some ts ∧ ts.length ≤ s.length) ∧
    (∀ (s : List Char) (n : Nat), s.length ≤ n →
      tokenizeLoop n (Lexer.init s) = tokenize s) ∧
    tokenize [] = some [] := by
  refine ⟨fun L he => ?_, fun s => ?_, fun s n hn => ?_, rfl⟩
  · obtain ⟨r, r', w, hr, -, hrel⟩ := scanToken_spec (Sim.refl L)
    exact ⟨r.1, r.2, hr, hrel.progress he⟩
  · obtain ⟨ts, ts', ws, hts, -, hrel⟩ := tokenizeLoop_spec s.length s.length (Lexer.init s)
      (Lexer.init s) (Sim.refl _) (by simp [remaining]) (by simp [remaining])
    exact ⟨ts, hts, by simpa [remaining] using hrel.count⟩
  · obtain ⟨ts, -, ws, hts, -, -⟩ := tokenizeLoop_spec s.length s.length (Lexer.init s)
      (Lexer.init s) (Sim.refl _) (by simp [remaining]) (by simp [remaining])
    rw [tokenize, hts]
    exact tokenizeLoop_mono _ _ _ _ hts hn

theorem tokenize_terminates_witness :
    ∃ t M, scanToken (Lexer.init "a b".toList) = some (t, M) ∧
      (Lexer.init "a b".toList).position < M.position :=
  tokenize_terminates.1 (Lexer.init "a b".toList) (by decide)

/-- C4. The input `let x = 5;` gives the five tokens `KEYWORD let`, `IDENTIFIER x`,
`OPERATOR =`, `INTEGER_LITERAL 5`, `DELIMITER ;`. -/
theorem tokenize_let :
    (tokenize "let x = 5;".toList).map kinds =
      some [(TokenType.KEYWORD, "let".toList), (TokenType.IDENTIFIER, "x".toList),
        (TokenType.OPERATOR, "=".toList), (TokenType.INTEGER_LITERAL, "5".toList),
        (TokenType.DELIMITER, ";".toList)] := by
  decide

/-- C5 (the code departs from it). The input `a..=b` gives five tokens: the dots are
two `DELIMITER` tokens and `=` is an operator of its own, although `..=` is an
entry of the operator table. -/
theorem tokenize_range_inclusive :
    (tokenize "a..=b".toList).map kinds =
      some [(TokenType.IDENTIFIER, "a".toList), (TokenType.DELIMITER, ".".toList),
        (TokenType.DELIMITER, ".".toList), (TokenType.OPERATOR, "=".toList),
        (TokenType.IDENTIFIER, "b".toList)] ∧
    isOperatorKey "..=".toList = true ∧ isOperatorKey "..".toList = true := by
  decide


/-! ## Further claims -/

/-- The first call of `scanToken` made by the loop of `tokenize` gives the first
token; the loop goes on from the cursor that call leaves. -/
theorem tokenizeLoop_cons (n : Nat) {L M : Lexer} {t : Token} (he : isAtEnd L = false)
    (h : scanToken L = some (t, M)) (hn : remaining L ≤ n + 1) :
    ∃ ts, tokenizeLoop (n + 1) L = some ({ t with column := L.column, line := M.line } :: ts) ∧
      tokenizeLoop n M = some ts := by
  obtain ⟨r, r', w, hr, -, hrel⟩ := scanToken_spec (Sim.refl L)
  rw [h] at hr; cases hr
  have hlt := hrel.progress he
  have hrem : remaining M ≤ n := by
    have := hrel.step.src
    simp only [remaining] at hn ⊢
    simp only at this hlt
    rw [this]; omega
  obtain ⟨ts, ts', ws, hts, -, -⟩ := tokenizeLoop_spec n n M M (Sim.refl M) hrem hrem
  exact ⟨ts, by simp only [tokenizeLoop, he, Bool.false_eq_true, if_false, h, Option.some_bind,
    hts, Option.map_some'], hts⟩

theorem tokenize_cons {s : List Char} {M : Lexer} {t : Token} (hs : s ≠ [])
    (h : scanToken (Lexer.init s) = some (t, M)) :
    ∃ ts, tokenize s = some ({ t with column := 0, line := M.line } :: ts) ∧
      tokenizeLoop (s.length - 1) M = some ts := by
  have he : isAtEnd (Lexer.init s) = false := by
    rw [isAtEnd_eq, rest_init]; cases s <;> simp at hs ⊢
  have hlen : s.length = (s.length - 1) + 1 := by
    have := List.length_pos.mpr hs; omega
  obtain ⟨ts, h1, h2⟩ := tokenizeLoop_cons (s.length - 1) he h (by simp [remaining]; omega)
  refine ⟨ts, ?_, h2⟩
  rw [tokenize, hlen]
  exact h1

/-! ### Numbers that start with `0`, and the dot after a number -/

theorem scan_zero_digit (d : Char) (r : List Char) (hd : d ∈ digitChars) :
    ∃ t M, scanToken (Lexer.init ('0' :: d :: r)) = some (t, M) ∧
      t.type = TokenType.INTEGER_LITERAL ∧ t.lexeme = ['0'] := by
  have hdd : isDigit d = true := digitChars_ok d hd
  generalize hL : Lexer.init ('0' :: d :: r) = L
  have hrL : rest L = '0' :: d :: r := by rw [← hL]; rfl
  have hr1 : rest (adv L) = d :: r := by rw [rest_adv, hrL]; rfl
  have hm : numberMantissa L = some (false, adv L) := by
    simp [numberMantissa, matchEither, match_, peek_eq, isAtEnd_eq, hrL, hr1,
      ne_of_isDigit 'x' hdd (by decide), ne_of_isDigit 'X' hdd (by decide),
      ne_of_isDigit 'o' hdd (by decide), ne_of_isDigit 'O' hdd (by decide),
      ne_of_isDigit 'b' hdd (by decide), ne_of_isDigit 'B' hdd (by decide),
      ne_of_isDigit '.' hdd (by decide)]
  have he : numberExponent (false, adv L) = some (false, adv L) := by
    simp [numberExponent, peek_eq, hr1, ne_of_isDigit 'e' hdd (by decide),
      ne_of_isDigit 'E' hdd (by decide)]
  have hs : numberSuffix (false, adv L) = some (false, adv L) := by
    simp [numberSuffix, peek_eq, hr1, not_isAlpha_of_isDigit hdd]
  have hn : number L = some
      ({ lexeme := substr (adv L).source L.position ((adv L).position - L.position),
         type := TokenType.INTEGER_LITERAL, line := (adv L).line, column := (adv L).column },
        adv L) := by
    simp only [number, hm, he, hs, Option.some_bind, Option.map_some', Bool.false_eq_true,
      if_false]
  rw [← scanToken_number hrL (by decide)] at hn
  refine ⟨_, _, hn, rfl, ?_⟩
  rw [← hL]; simp [substr, Lexer.init]

/-- C20. Leading zero followed by digits: when the input is `0` followed by a
decimal digit, the first token is the `INTEGER_LITERAL` with lexeme exactly `0`;
the digits after the zero are not part of it. -/
theorem leading_zero_digit (d : Char) (r : List Char) (hd : d ∈ digitChars) :
    ∃ t ts, tokenize ('0' :: d :: r) = some (t :: ts) ∧
      t.type = TokenType.INTEGER_LITERAL ∧ t.lexeme = ['0'] := by
  obtain ⟨t, M, hsc, hty, hlx⟩ := scan_zero_digit d r hd
  obtain ⟨ts, hts, -⟩ := tokenize_cons (by simp) hsc
  exact ⟨_, ts, hts, hty, hlx⟩

theorem leading_zero_digit_witness :
    ∃ t ts, tokenize "007".toList = some (t :: ts) ∧
      t.type = TokenType.INTEGER_LITERAL ∧ t.lexeme = ['0'] :=
  leading_zero_digit '0' ['7'] (by decide)

/-- The input `007` gives the three `INTEGER_LITERAL` tokens `0`, `0`, `7`. -/
theorem tokenize_007 :
    (tokenize "007".toList).map kinds =
      some [(TokenType.INTEGER_LITERAL, "0".toList), (TokenType.INTEGER_LITERAL, "0".toList),
        (TokenType.INTEGER_LITERAL, "7".toList)] := by
  decide

theorem mem_digitChars_of_isDigit {c : Char} (h : isDigit c = true) : c ∈ digitChars := by
  simp only [isDigit, isascii, isdigit, Bool.and_eq_true, decide_eq_true_eq] at h
  have hc : c = Char.ofNat c.toNat := (Char.ofNat_toNat c).symm
  have : c.toNat = 48 ∨ c.toNat = 49 ∨ c.toNat = 50 ∨ c.toNat = 51 ∨ c.toNat = 52 ∨
      c.toNat = 53 ∨ c.toNat = 54 ∨ c.toNat = 55 ∨ c.toNat = 56 ∨ c.toNat = 57 := by omega
  rcases this with e | e | e | e | e | e | e | e | e | e <;> rw [hc, e] <;> decide

theorem isDigit_eq_false_of_not_mem {c : Char} (h : c ∉ digitChars) : isDigit c = false := by
  cases hd : isDigit c with
  | false => rfl
  | true => exact absurd (mem_digitChars_of_isDigit hd) h

theorem scanToken_dot {M : Lexer} {cs : List Char} (hr : rest M = '.' :: cs) :
    scanToken M = some
      ({ lexeme := ['.'], type := TokenType.DELIMITER, line := (adv M).line,
         column := (adv M).column }, adv M) := by
  have e0 : advanceWhile spaceCond M = some M :=
    advanceWhile_of_not_cond (spaceCond_of_rest hr (by decide))
  have h1 : isAlpha '.' = false := by decide
  have h2 : isDigit '.' = false := by decide
  have h3 : isDelimiterKey '.' = true := by decide
  simp [scanToken, e0, isAtEnd_eq, peek_eq, hr, h1, h2, operatorOrDelimiter, h3]

theorem scan_int_dot (a r : List Char) (ha : a ≠ []) (had : ∀ c ∈ a, c ∈ digitChars)
    (ha0 : a.head? ≠ some '0') (hr : ∀ c, r.head? = some c → c ∉ digitChars) :
    ∃ t M cs, scanToken (Lexer.init (a ++ '.' :: r)) = some (t, M) ∧
      t.type = TokenType.INTEGER_LITERAL ∧ t.lexeme = a ∧ rest M = '.' :: cs ∧
      M.source = a ++ '.' :: r ∧ M.position = a.length := by
  obtain ⟨a0, a', rfl⟩ := List.exists_cons_of_ne_nil ha
  have ha0d : isDigit a0 = true := digitChars_ok a0 (had a0 (List.mem_cons_self _ _))
  have hne0 : a0 ≠ '0' := fun h => ha0 (by simp [h])
  generalize hL : Lexer.init ((a0 :: a') ++ '.' :: r) = L
  have hrL : rest L = (a0 :: a') ++ '.' :: r := by rw [← hL]; rfl
  have t1 : (rest L).takeWhile (fun c => isDigit c || c == '_') = a0 :: a' := by
    rw [hrL]
    exact takeWhile_append_stop (fun c hc => by simp [digitChars_ok c (had c hc)])
      (fun c hc => by simp only [List.head?_cons, Option.some.injEq] at hc; subst hc; decide)
  have e1 := advanceWhile_eq digitCond_char L
  rw [t1] at e1
  have hr1 : rest (advN (a0 :: a').length L) = '.' :: r := by rw [rest_advN, hrL]; simp
  have hsrc1 : (advN (a0 :: a').length L).source = (a0 :: a') ++ '.' :: r := by
    rw [← hL]; simp
  have hpos1 : (advN (a0 :: a').length L).position = (a0 :: a').length := by
    rw [← hL]; simp
  generalize advN (a0 :: a').length L = M1 at e1 hr1 hsrc1 hpos1
  have hp0 : (peek L 0 == '0') = false := by rw [peek_eq, hrL]; simpa using hne0
  have hp1 : isDigit (peek M1 1) = false := by
    rw [peek_eq, hr1]
    cases r with
    | nil => decide
    | cons c cs => exact isDigit_eq_false_of_not_mem (hr c rfl)
  have hpd : peek M1 0 = '.' := by rw [peek_eq, hr1]; rfl
  have hm : numberMantissa L = some (false, M1) := by
    simp [numberMantissa, hp0, e1, hp1]
  have he : numberExponent (false, M1) = some (false, M1) := by
    simp [numberExponent, hpd]
  have hs : numberSuffix (false, M1) = some (false, M1) := by
    have : isAlpha '.' = false := by decide
    simp [numberSuffix, hpd, this]
  have hn : number L = some
      ({ lexeme := substr M1.source L.position (M1.position - L.position),
         type := TokenType.INTEGER_LITERAL, line := M1.line, column := M1.column }, M1) := by
    simp only [number, hm, he, hs, Option.some_bind, Option.map_some', Bool.false_eq_true,
      if_false]
  rw [← scanToken_number hrL ha0d] at hn
  refine ⟨_, M1, r, hn, rfl, ?_, hr1, hsrc1, hpos1⟩
  rw [← hL]; simp [substr, hsrc1, hpos1, Lexer.init]

/-- C19. Dot disambiguation: digits not starting with 0, followed by a dot that is
not followed by a digit, give the `INTEGER_LITERAL` with the digits as lexeme and
then the `DELIMITER` token `.`; the dot is not absorbed into the number. -/
theorem integer_then_dot (a r : List Char) (ha : a ≠ []) (had : ∀ c ∈ a, c ∈ digitChars)
    (ha0 : a.head? ≠ some '0') (hr : ∀ c, r.head? = some c → c ∉ digitChars) :
    ∃ t₁ t₂ ts, tokenize (a ++ '.' :: r) = some (t₁ :: t₂ :: ts) ∧
      t₁.type = TokenType.INTEGER_LITERAL ∧ t₁.lexeme = a ∧
      t₂.type = TokenType.DELIMITER ∧ t₂.lexeme = ['.'] := by
  obtain ⟨t, M, cs, hsc, hty, hlx, hrM, hsrc, hpos⟩ := scan_int_dot a r ha had ha0 hr
  obtain ⟨ts0, hts0, hloop⟩ := tokenize_cons (by simp) hsc
  have heM : isAtEnd M = false := by rw [isAtEnd_eq, hrM]; rfl
  have hlen : (a ++ '.' :: r).length - 1 = (a.length + r.length - 1) + 1 := by
    have := List.length_pos.mpr ha
    simp; omega
  obtain ⟨ts, h1, -⟩ := tokenizeLoop_cons (a.length + r.length - 1) heM (scanToken_dot hrM) (by
    have := List.length_pos.mpr ha
    simp only [remaining, hsrc, hpos]; simp; omega)
  rw [hlen, h1] at hloop
  cases hloop
  exact ⟨_, _, ts, hts0, hty, hlx, rfl, rfl⟩

theorem integer_then_dot_witness :
    ∃ t₁ t₂ ts, tokenize "1..5".toList = some (t₁ :: t₂ :: ts) ∧
      t₁.type = TokenType.INTEGER_LITERAL ∧ t₁.lexeme = "1".toList ∧
      t₂.type = TokenType.DELIMITER ∧ t₂.lexeme = ['.'] :=
  integer_then_dot "1".toList ".5".toList (by decide) (by decide) (by decide) (by decide)

/-- The inputs `1..5` and `1.foo` start with the integer `1` and the delimiter `.`. -/
theorem tokenize_int_dot_examples :
    (tokenize "1..5".toList).map kinds =
      some [(TokenType.INTEGER_LITERAL, "1".toList), (TokenType.DELIMITER, ".".toList),
        (TokenType.DELIMITER, ".".toList), (TokenType.INTEGER_LITERAL, "5".toList)] ∧
    (tokenize "1.foo".toList).map kinds =
      some [(TokenType.INTEGER_LITERAL, "1".toList), (TokenType.DELIMITER, ".".toList),
        (TokenType.IDENTIFIER, "foo".toList)] := by
  decide

theorem scan_zero_dot (r : List Char) :
    ∃ t M tail, scanToken (Lexer.init ('0' :: '.' :: r)) = some (t, M) ∧
      t.type = TokenType.FLOAT_LITERAL ∧ t.lexeme = '0' :: '.' :: tail := by
  generalize hL : Lexer.init ('0' :: '.' :: r) = L
  have hrL : rest L = '0' :: '.' :: r := by rw [← hL]; rfl
  have hr1 : rest (adv L) = '.' :: r := by rw [rest_adv, hrL]; rfl
  obtain ⟨M, M', hM, -, sM, -⟩ := (Sim.refl (adv (adv L))).advanceWhile digitCond_char
  have hm : numberMantissa L = some (true, M) := by
    simp [numberMantissa, matchEither, match_, peek_eq, isAtEnd_eq, hrL, hr1, hM]
  have hsM := (Sim.refl (adv (adv L))).step sM
  obtain ⟨b2, N2, N2', e2, -, s2, hb2, -⟩ := numberExponent_spec hsM true
  obtain ⟨b3, N3, N3', e3, -, s3, hb3, -⟩ := numberSuffix_spec (hsM.step s2) b2
  have hb3' : b3 = true := hb3 (hb2 rfl)
  have hn : number L = some
      ({ lexeme := substr N3.source L.position (N3.position - L.position),
         type := TokenType.FLOAT_LITERAL, line := N3.line, column := N3.column }, N3) := by
    simp only [number, hm, e2, e3, Option.some_bind, Option.map_some', hb3', if_true]
  rw [← scanToken_number hrL (by decide)] at hn
  have hst := (sM.trans s2).trans s3
  have hsrc : N3.source = '0' :: '.' :: r := by rw [hst.src, ← hL]; simp
  have hpos : 2 ≤ N3.position := by
    have := hst.le; simp only [adv_position] at this; omega
  obtain ⟨k, hk⟩ : ∃ k, N3.position = k + 2 := ⟨N3.position - 2, by omega⟩
  refine ⟨_, N3, r.take k, hn, rfl, ?_⟩
  rw [← hL]; simp [substr, hsrc, hk, Lexer.init]

/-- C18. Leading zero followed by a dot: for every text `r` the first token of
`0.` followed by `r` is a `FLOAT_LITERAL` whose lexeme starts with `0.`; the
dot is consumed whatever follows it. -/
theorem leading_zero_dot (r : List Char) :
    ∃ t ts tail, tokenize ('0' :: '.' :: r) = some (t :: ts) ∧
      t.type = TokenType.FLOAT_LITERAL ∧ t.lexeme = '0' :: '.' :: tail := by
  obtain ⟨t, M, tail, hsc, hty, hlx⟩ := scan_zero_dot r
  obtain ⟨ts, hts, -⟩ := tokenize_cons (by simp) hsc
  exact ⟨_, ts, tail, hts, hty, hlx⟩

/-- The input `0..5` starts with the float `0.`, and `0.max` is one float. -/
theorem tokenize_zero_dot_examples :
    (tokenize "0..5".toList).map kinds =
      some [(TokenType.FLOAT_LITERAL, "0.".toList), (TokenType.DELIMITER, ".".toList),
        (TokenType.INTEGER_LITERAL, "5".toList)] ∧
    (tokenize "0.max".toList).map kinds =
      some [(TokenType.FLOAT_LITERAL, "0.max".toList)] := by
  decide

/-- A scanner run that consumed at least one unit from a cursor before the end
has a non-empty lexeme, unless it is a macro call at a `!`. -/
theorem lexeme_ne_nil_of_scanRel {M M' : Lexer} {r r' : Token × Lexer}
    (hr : ScanRel M M' r r') (he : isAtEnd M = false)
    (hm : r.1.type = TokenType.MACRO_CALL → peek M 0 ≠ '!') : r.1.lexeme ≠ [] := by
  intro hl
  have ht := hr.text_eq
  have hlt := hr.lt
  obtain ⟨k, hk⟩ : ∃ k, r.2.position - M.position = k + 1 :=
    ⟨r.2.position - M.position - 1, by omega⟩
  rw [isAtEnd_eq] at he
  rw [hk] at ht
  cases hrest : rest M with
  | nil => simp [hrest] at he
  | cons c cs =>
    rw [hrest] at ht
    by_cases hty : r.1.type = TokenType.MACRO_CALL
    · have hp := hm hty
      rw [peek_eq, hrest] at hp
      simp only [consumed, hty, if_true, hl, List.nil_append, List.take_succ_cons] at ht
      have : c = '!' := by
        have := congrArg List.head? ht
        simpa using this.symm
      exact hp (by simpa using this)
    · rw [consumed_of_ne hty, hl] at ht
      simp at ht

/-- A token with an empty lexeme is the `UNKNOWN` token that `scanToken` returns at
the end of the input. -/
theorem scanToken_lexeme_nil {L : Lexer} {r : Token × Lexer} (h : scanToken L = some r)
    (hl : r.1.lexeme = []) : r.1.type = TokenType.UNKNOWN ∧ isAtEnd r.2 = true := by
  obtain ⟨M, M', eM, -, sM, -⟩ := (Sim.refl L).advanceWhile spaceCond_char
  simp only [scanToken, eM, Option.some_bind] at h
  cases he : isAtEnd M with
  | true =>
    simp only [he, if_true, Option.some.injEq] at h
    subst h
    exact ⟨rfl, he⟩
  | false =>
    exfalso
    simp only [he, Bool.false_eq_true, if_false] at h
    split at h
    · rename_i ha
      obtain ⟨r0, r0', e0, -, hr, -⟩ := identifier_spec (Sim.refl M)
      rw [h] at e0; cases e0
      refine lexeme_ne_nil_of_scanRel hr he (fun _ hp => ?_) hl
      rw [hp] at ha
      exact absurd ha (by decide)
    · split at h
      · rename_i hd
        obtain ⟨r0, r0', e0, -, hr, hm⟩ := number_spec (Sim.refl M) hd
        rw [h] at e0; cases e0
        exact lexeme_ne_nil_of_scanRel hr he (fun hx => absurd hx hm) hl
      · split at h
        · obtain ⟨r0, r0', e0, -, hr, hm⟩ := string_spec (Sim.refl M)
          rw [h] at e0; cases e0
          exact lexeme_ne_nil_of_scanRel hr he (fun hx => absurd hx hm) hl
        · split at h
          · obtain ⟨r0, r0', e0, -, hr, hm⟩ := character_spec (Sim.refl M)
            rw [h] at e0; cases e0
            exact lexeme_ne_nil_of_scanRel hr he (fun hx => absurd hx hm) hl
          · split at h
            · obtain ⟨r0, r0', e0, -, hr, hm⟩ := comment_spec (Sim.refl M)
              rw [h] at e0; cases e0
              exact lexeme_ne_nil_of_scanRel hr he (fun hx => absurd hx hm) hl
            · obtain ⟨r0, r0', e0, -, hr, hm⟩ := operatorOrDelimiter_spec (Sim.refl M) he
              rw [h] at e0; cases e0
              exact lexeme_ne_nil_of_scanRel hr he (fun hx => absurd hx hm) hl

theorem tokenizeLoop_lexeme_nil (n : Nat) : ∀ (L : Lexer) (ts : List Token),
    tokenizeLoop n L = some ts → ∀ (i : Nat) (t : Token), ts[i]? = some t → t.lexeme = [] →
      i + 1 = ts.length ∧ t.type = TokenType.UNKNOWN := by
  induction n with
  | zero =>
    intro L ts h i t hi _
    cases he : isAtEnd L with
    | true => simp [tokenizeLoop, he] at h; subst h; simp at hi
    | false => simp [tokenizeLoop, he] at h
  | succ n ih =>
    intro L ts h i t hi hl
    cases he : isAtEnd L with
    | true => simp [tokenizeLoop, he] at h; subst h; simp at hi
    | false =>
      simp only [tokenizeLoop, he, Bool.false_eq_true, if_false] at h
      cases hs : scanToken L with
      | none => simp [hs] at h
      | some r =>
        simp only [hs, Option.some_bind] at h
        cases hts : tokenizeLoop n r.2 with
        | none => simp [hts] at h
        | some ts' =>
          simp only [hts, Option.map_some', Option.some.injEq] at h
          subst h
          cases i with
          | zero =>
            simp only [List.getElem?_cons_zero, Option.some.injEq] at hi
            subst hi
            obtain ⟨hty, hend⟩ := scanToken_lexeme_nil hs hl
            rw [tokenizeLoop_atEnd n hend] at hts
            cases hts
            exact ⟨rfl, hty⟩
          | succ i =>
            simp only [List.getElem?_cons_succ] at hi
            obtain ⟨h1, h2⟩ := ih r.2 ts' hts i t hi hl
            exact ⟨by simp [h1], h2⟩

/-- C11. Every token except possibly the last one has a non-empty lexeme: a token
with an empty lexeme is the last token of the sequence and has kind `UNKNOWN`. -/
theorem empty_lexeme_last (s : List Char) :
    ∃ ts, tokenize s = some ts ∧
      ∀ (i : Nat) (t : Token), ts[i]? = some t → t.lexeme = [] →
        i + 1 = ts.length ∧ t.type = TokenType.UNKNOWN := by
  obtain ⟨ts, ts', ws, hts, -, -⟩ := tokenizeLoop_spec s.length s.length (Lexer.init s)
    (Lexer.init s) (Sim.refl _) (by simp [remaining]) (by simp [remaining])
  exact ⟨ts, hts, tokenizeLoop_lexeme_nil _ _ _ hts⟩

/-- The input `a`, newline, space ends with the empty `UNKNOWN` token. -/
theorem tokenize_trailing_space :
    (tokenize "a \n ".toList).map kinds =
      some [(TokenType.IDENTIFIER, "a".toList), (TokenType.UNKNOWN, [])] := by
  decide

/-! ### Recorded positions -/

theorem tokenizeLoop_position (n : Nat) : ∀ (L : Lexer) (ts : List Token),
    tokenizeLoop n L = some ts → ∀ (i : Nat) (t : Token), ts[i]? = some t →
      ∃ L0 r, cursorBefore i L = some L0 ∧ scanToken L0 = some r ∧
        t.type = r.1.type ∧ t.lexeme = r.1.lexeme ∧ t.line = r.2.line ∧
        t.column = L0.column := by
  induction n with
  | zero =>
    intro L ts h i t hi
    cases he : isAtEnd L with
    | true => simp [tokenizeLoop, he] at h; subst h; simp at hi
    | false => simp [tokenizeLoop, he] at h
  | succ n ih =>
    intro L ts h i t hi
    cases he : isAtEnd L with
    | true => simp [tokenizeLoop, he] at h; subst h; simp at hi
    | false =>
      simp only [tokenizeLoop, he, Bool.false_eq_true, if_false] at h
      cases hs : scanToken L with
      | none => simp [hs] at h
      | some r =>
        simp only [hs, Option.some_bind] at h
        cases hts : tokenizeLoop n r.2 with
        | none => simp [hts] at h
        | some ts' =>
          simp only [hts, Option.map_some', Option.some.injEq] at h
          subst h
          cases i with
          | zero =>
            simp only [List.getElem?_cons_zero, Option.some.injEq] at hi
            subst hi
            exact ⟨L, r, by simp [cursorBefore, he], hs, rfl, rfl, rfl, rfl⟩
          | succ i =>
            simp only [List.getElem?_cons_succ] at hi
            obtain ⟨L0, r0, h1, h2, h3⟩ := ih r.2 ts' hts i t hi
            exact ⟨L0, r0, by simp [cursorBefore, he, hs, h1], h2, h3⟩

/-- The two capture points of `tokenize` (lines 50-57). The line recorded on a token
is the line of the cursor immediately after the `scanToken` call that produced the
token; the column recorded on it is read before that call, so before the
whitespace in front of the token is skipped. -/
theorem token_capture_points (s : List Char) :
    ∃ ts, tokenize s = some ts ∧
      ∀ (i : Nat) (t : Token), ts[i]? = some t →
        ∃ L r, cursorBefore i (Lexer.init s) = some L ∧ scanToken L = some r ∧
          t.type = r.1.type ∧ t.lexeme = r.1.lexeme ∧ t.line = r.2.line ∧
          t.column = L.column := by
  obtain ⟨ts, ts', ws, hts, -, -⟩ := tokenizeLoop_spec s.length s.length (Lexer.init s)
    (Lexer.init s) (Sim.refl _) (by simp [remaining]) (by simp [remaining])
  exact ⟨ts, hts, tokenizeLoop_position _ _ _ hts⟩

/-- On `ab` the only token records column 0, the column of its start, while the
cursor immediately after the token has been scanned is at column 2 (the line, 1,
is the same). -/
theorem token_column_of_ab :
    ∃ t r, tokenize "ab".toList = some [t] ∧ scanToken (Lexer.init "ab".toList) = some r ∧
      t.lexeme = r.1.lexeme ∧ t.line = r.2.line ∧ t.column = 0 ∧ r.2.column = 2 ∧
      t.column ≠ r.2.column :=
  ⟨{ lexeme := "ab".toList, type := TokenType.IDENTIFIER, line := 1, column := 0 },
    ({ lexeme := "ab".toList, type := TokenType.IDENTIFIER, line := 1, column := 2 },
      { source := "ab".toList, position := 2, line := 1, column := 2 }),
    by decide, by decide, rfl, rfl, rfl, rfl, by decide⟩

/-- C13 (the code departs from it). On the input `aaaa`, newline, `b c` the token `b`
records (line 2, column 4) and the next token `c` records (line 2, column 1),
which is before it. -/
theorem position_not_monotone :
    (tokenize "aaaa\nb c".toList).map (List.map fun t => (t.lexeme, t.line, t.column)) =
      some [("aaaa".toList, 1, 0), ("b".toList, 2, 4), ("c".toList, 2, 1)] := by
  decide

theorem scanToken_character {L : Lexer} {cs : List Char} (hr : rest L = '\x27' :: cs) :
    scanToken L = character L := by
  have e0 : advanceWhile spaceCond L = some L :=
    advanceWhile_of_not_cond (spaceCond_of_rest hr (by decide))
  simp only [scanToken, e0, Option.some_bind]
  simp only [isAtEnd_eq, peek_eq, hr, List.isEmpty_cons, Bool.false_eq_true, if_false,
    List.getD_cons_zero]
  rfl

theorem takeWhile_ne_length_of_least (q : Char) : ∀ (l : List Char) (m : Nat),
    l[m]? = some q → (∀ i, i < m → l[i]? ≠ some q) →
      (l.takeWhile (fun c => c != q)).length = m := by
  intro l
  induction l with
  | nil => intro m h _; simp at h
  | cons c l ih =>
    intro m h hleast
    cases m with
    | zero =>
      simp only [List.getElem?_cons_zero, Option.some.injEq] at h
      simp [List.takeWhile, h]
    | succ m =>
      have hc : c ≠ q := fun e => hleast 0 (by omega) (by simp [e])
      simp only [List.getElem?_cons_succ] at h
      have := ih m h (fun i hi => by
        have := hleast (i + 1) (by omega)
        simpa using this)
      rw [List.takeWhile_cons]
      simp [hc, this]

theorem takeWhile_ne_of_none (q : Char) : ∀ (l : List Char),
    (∀ i : Nat, l[i]? ≠ some q) → l.takeWhile (fun c => c != q) = l := by
  intro l
  induction l with
  | nil => intro _; rfl
  | cons c l ih =>
    intro h
    have hc : c ≠ q := fun e => h 0 (by simp [e])
    have := ih (fun i => by have := h (i + 1); simpa using this)
    rw [List.takeWhile_cons]
    simp [hc, this]

/-- The cursor of the character scanner after the recovery skip, for an input that
starts with a single quote. -/
theorem character_run (s : List Char) :
    ∃ M3, M3.source = '\x27' :: s ∧
      M3.position = contentEnd ('\x27' :: s) +
        ((List.drop (contentEnd ('\x27' :: s)) ('\x27' :: s)).takeWhile
          (fun c => c != '\x27')).length ∧
      character (Lexer.init ('\x27' :: s)) = some
        ({ lexeme := ('\x27' :: s).take (if !isAtEnd M3 then M3.position + 1 else M3.position),
           type := TokenType.CHAR_LITERAL,
           line := (if !isAtEnd M3 then adv M3 else M3).line,
           column := (if !isAtEnd M3 then adv M3 else M3).column },
          if !isAtEnd M3 then adv M3 else M3) := by
  generalize hL : Lexer.init ('\x27' :: s) = L
  have hsL : L.source = '\x27' :: s := by rw [← hL]; rfl
  have hpL : L.position = 0 := by rw [← hL]; rfl
  -- the content
  obtain ⟨M2, e2, hs2, hp2⟩ : ∃ M2,
      (if peek (adv L) 0 == '\x5c' then adv (adv (adv L)) else adv (adv L)) = M2 ∧
      M2.source = '\x27' :: s ∧ M2.position = contentEnd ('\x27' :: s) := by
    have hpk : peek (adv L) 0 = (('\x27' :: s)[1]?).getD '\x00' := by
      rw [peek_eq, rest_adv]; unfold rest; rw [hsL, hpL]
      cases s <;> simp
    refine ⟨_, rfl, ?_, ?_⟩
    · split <;> simp [hsL]
    · rw [hpk]
      unfold contentEnd
      cases s with
      | nil => simp [hpL]
      | cons c s =>
        by_cases hc : c = '\x5c'
        · simp [hc, hpL]
        · simp [hc, hpL]
  have hr2 : rest M2 = List.drop (contentEnd ('\x27' :: s)) ('\x27' :: s) := by
    unfold rest; rw [hs2, hp2]
  -- the recovery skip
  have e3 : (if peek M2 0 != '\x27' then advanceWhile charCond M2 else some M2) =
      some (advN ((rest M2).takeWhile (fun c => c != '\x27')).length M2) := by
    split
    · exact advanceWhile_eq charCond_char M2
    · rename_i hq
      have hq' : peek M2 0 = '\x27' := by simpa using hq
      rw [peek_eq] at hq'
      cases hx : rest M2 with
      | nil => rw [hx] at hq'; exact absurd hq' (by decide)
      | cons c cs =>
        rw [hx] at hq'
        simp only [List.getD_cons_zero] at hq'
        simp [List.takeWhile, hq', advN]
  refine ⟨advN ((rest M2).takeWhile (fun c => c != '\x27')).length M2, by simp [hs2], by
    simp [hp2, hr2], ?_⟩
  simp only [character, e2, e3, Option.some_bind]
  congr 2
  split <;> simp [substr, hs2, hsL, hpL]

/-- C17. Character literal: for an input that starts with a single quote the first
token has kind `CHAR_LITERAL`. With `j = contentEnd input`, if `k` is the least
index from `j` on that holds a single quote, the lexeme is the input up to and
including index `k`; when there is no such index, the lexeme is the whole
input. -/
theorem char_literal (s : List Char) :
    (∀ k : Nat, contentEnd ('\x27' :: s) ≤ k → ('\x27' :: s)[k]? = some '\x27' →
      (∀ m : Nat, contentEnd ('\x27' :: s) ≤ m → m < k → ('\x27' :: s)[m]? ≠ some '\x27') →
      ∃ t ts, tokenize ('\x27' :: s) = some (t :: ts) ∧ t.type = TokenType.CHAR_LITERAL ∧
        t.lexeme = ('\x27' :: s).take (k + 1)) ∧
    ((∀ k : Nat, contentEnd ('\x27' :: s) ≤ k → ('\x27' :: s)[k]? ≠ some '\x27') →
      ∃ t ts, tokenize ('\x27' :: s) = some (t :: ts) ∧ t.type = TokenType.CHAR_LITERAL ∧
        t.lexeme = '\x27' :: s) := by
  obtain ⟨M3, hs3, hp3, hch⟩ := character_run s
  rw [← scanToken_character (rest_init _)] at hch
  obtain ⟨ts, hts, -⟩ := tokenize_cons (by simp) hch
  generalize hj : contentEnd ('\x27' :: s) = j at hp3 ⊢
  constructor
  · intro k hjk hk hleast
    have hlen : (List.takeWhile (fun c => c != '\x27') (List.drop j ('\x27' :: s))).length =
        k - j :=
      takeWhile_ne_length_of_least '\x27' _ (k - j)
        (by rw [List.getElem?_drop]; rw [show j + (k - j) = k by omega]; exact hk)
        (fun i hi => by
          rw [List.getElem?_drop]; exact hleast (j + i) (by omega) (by omega))
    have hpos : M3.position = k := by rw [hp3, hlen]; omega
    have hklt : k < ('\x27' :: s).length := by
      by_contra hge
      rw [List.getElem?_eq_none (by omega)] at hk
      cases hk
    have hne : isAtEnd M3 = false := by
      simp only [isAtEnd, hs3, hpos, ge_iff_le, decide_eq_false_iff_not, not_le]
      exact hklt
    refine ⟨_, ts, hts, rfl, ?_⟩
    simp [hne, hpos]
  · intro hnone
    have htw : List.takeWhile (fun c => c != '\x27') (List.drop j ('\x27' :: s)) =
        List.drop j ('\x27' :: s) :=
      takeWhile_ne_of_none '\x27' _ (fun i => by
        rw [List.getElem?_drop]; exact hnone (j + i) (by omega))
    have hpos : ('\x27' :: s).length ≤ M3.position := by
      rw [hp3, htw, List.length_drop]; omega
    have he : isAtEnd M3 = true := by
      simp only [isAtEnd, hs3, ge_iff_le, decide_eq_true_eq]
      exact hpos
    refine ⟨_, ts, hts, rfl, ?_⟩
    simp only [he, Bool.not_true, Bool.false_eq_true, if_false]
    exact List.take_of_length_le hpos

theorem char_literal_witness :
    ∃ t ts, tokenize "\x27a b\x27 c".toList = some (t :: ts) ∧
      t.type = TokenType.CHAR_LITERAL ∧ t.lexeme = "\x27a b\x27".toList :=
  (char_literal "a b\x27 c".toList).1 4 (by decide) (by decide) (by decide)

/-- A lifetime such as `'a` swallows everything up to the next single quote. -/
theorem tokenize_lifetime_examples :
    (tokenize "\x27a".toList).map kinds = some [(TokenType.CHAR_LITERAL, "\x27a".toList)] ∧
    (tokenize "\x27a b\x27 c".toList).map kinds =
      some [(TokenType.CHAR_LITERAL, "\x27a b\x27".toList),
        (TokenType.IDENTIFIER, "c".toList)] := by
  decide

theorem peek_getElem (M : Lexer) (k : Nat) :
    peek M k = (M.source[M.position + k]?).getD '\x00' := by
  unfold peek
  split
  · rename_i h
    rw [List.getElem?_eq_none (by omega)]; rfl
  · rw [List.getD_eq_getElem?_getD]

/-- The loop of the string scanner stops at the first unescaped closing quote, or
at the end of the input when there is none. -/
theorem stringLoop_run (input : List Char) (n : Nat) : ∀ (M : Lexer), M.source = input →
    1 ≤ M.position →
    (input[M.position]? = some '\x22' → input[M.position - 1]? ≠ some '\x5c') →
    (∀ m, m < M.position → ¬ IsClosingQuote input m) → remaining M ≤ n →
    ∃ M', whileLoop stringCond stringBody n M = some M' ∧ M'.source = input ∧
      (∀ m, m < M'.position → ¬ IsClosingQuote input m) ∧
      (isAtEnd M' = true ∨ IsClosingQuote input M'.position) := by
  induction n with
  | zero =>
    intro M hs _ _ hpre hn
    have he : isAtEnd M = true := by
      simp only [remaining] at hn
      simp only [isAtEnd, ge_iff_le, decide_eq_true_eq]; omega
    exact ⟨M, whileLoop_of_not_cond _ (by simp [stringCond, he]), hs, hpre, Or.inl he⟩
  | succ n ih =>
    intro M hs hp hJ hpre hn
    cases he : isAtEnd M with
    | true =>
      exact ⟨M, whileLoop_of_not_cond _ (by simp [stringCond, he]), hs, hpre, Or.inl he⟩
    | false =>
      have hlt : M.position < input.length := by
        rw [← hs]; simpa [isAtEnd] using he
      have hpk : peek M 0 = (input[M.position]?).getD '\x00' := by
        rw [peek_getElem, hs]; rfl
      obtain ⟨c, hc⟩ : ∃ c, input[M.position]? = some c :=
        ⟨input[M.position], List.getElem?_eq_getElem hlt⟩
      by_cases hq : c = '\x22'
      · -- the closing quote
        subst hq
        refine ⟨M, whileLoop_of_not_cond _ (by simp [stringCond, hpk, hc]), hs, hpre,
          Or.inr ⟨hp, hc, hJ hc⟩⟩
      · have hcond : stringCond M = true := by
          simp [stringCond, he, hpk, hc, hq]
        rw [whileLoop_step _ hcond]
        have hpk1 : peek M 1 = (input[M.position + 1]?).getD '\x00' := by
          rw [peek_getElem, hs]
        by_cases hesc : c = '\x5c' ∧ input[M.position + 1]? = some '\x22'
        · -- an escaped quote: two units
          have hbody : stringBody M = adv (adv M) := by
            simp [stringBody, hpk, hc, hpk1, hesc.1, hesc.2]
          rw [hbody]
          refine ih (adv (adv M)) (by simp [hs]) (by simp) ?_ ?_ ?_
          · intro _
            simp only [adv_position, Nat.add_sub_cancel]
            rw [hesc.2]; decide
          · intro m hm
            simp only [adv_position] at hm
            rcases Nat.lt_or_ge m M.position with h1 | h1
            · exact hpre m h1
            · rintro ⟨h1', h2, h3⟩
              rcases Nat.eq_or_lt_of_le h1 with e | h4
              · subst e
                rw [hc] at h2
                exact hq (Option.some.inj h2)
              · have e : m = M.position + 1 := by omega
                subst e
                simp only [Nat.add_sub_cancel] at h3
                exact h3 (by rw [hc, hesc.1])
          · simp only [remaining, adv_source, adv_position] at hn ⊢; omega
        · have hbody : stringBody M = adv M := by
            have : ¬ (c = '\x5c' ∧ (input[M.position + 1]?).getD '\x00' = '\x22') := by
              rintro ⟨h1, h2⟩
              apply hesc
              refine ⟨h1, ?_⟩
              cases hx : input[M.position + 1]? with
              | none => rw [hx] at h2; exact absurd h2 (by decide)
              | some d => rw [hx] at h2; simp at h2; rw [h2]
            simp only [stringBody, hpk, hc, hpk1, Option.getD_some, Bool.and_eq_true,
              beq_iff_eq, this, if_false]
          rw [hbody]
          refine ih (adv M) (by simp [hs]) (by simp) ?_ ?_ ?_
          · intro h2
            simp only [adv_position, Nat.add_sub_cancel] at h2 ⊢
            rw [hc]
            intro h3
            exact hesc ⟨Option.some.inj h3, h2⟩
          · intro m hm
            simp only [adv_position] at hm
            rcases Nat.lt_or_ge m M.position with h1 | h1
            · exact hpre m h1
            · have e : m = M.position := by omega
              subst e
              rintro ⟨-, h2, -⟩
              rw [hc] at h2
              exact hq (Option.some.inj h2)
          · simp only [remaining, adv_source, adv_position] at hn ⊢; omega

/-- The token of the string scanner for an input that starts with a double quote,
in terms of the cursor where its loop stops. -/
theorem string_run (s : List Char) :
    ∃ M', M'.source = '\x22' :: s ∧
      (∀ m, m < M'.position → ¬ IsClosingQuote ('\x22' :: s) m) ∧
      (isAtEnd M' = true ∨ IsClosingQuote ('\x22' :: s) M'.position) ∧
      string (Lexer.init ('\x22' :: s)) = some
        (if isAtEnd M' then
          ({ lexeme := ('\x22' :: s).take M'.position, type := TokenType.UNKNOWN,
             line := M'.line, column := M'.column }, M')
        else
          ({ lexeme := ('\x22' :: s).take (M'.position + 1), type := TokenType.STRING_LITERAL,
             line := (adv M').line, column := (adv M').column }, adv M')) := by
  obtain ⟨M', hM', hs', hpre, hstop⟩ := stringLoop_run ('\x22' :: s)
    (remaining (adv (Lexer.init ('\x22' :: s)))) (adv (Lexer.init ('\x22' :: s))) (by simp)
    (by simp) (by intro _; simp) (by
      intro m hm
      simp only [adv_position, init_position] at hm
      rintro ⟨h1, -⟩; omega) (le_refl _)
  refine ⟨M', hs', hpre, hstop, ?_⟩
  simp only [string, hM', Option.some_bind]
  split <;> simp [substr, hs']

/-- C15. String termination: for an input that starts with a double quote, if `i` is
the least index that holds an unescaped closing quote (a double quote at index 1
or later whose preceding unit is not a backslash), the first token is the
`STRING_LITERAL` with the input up to and including index `i` as lexeme; when
there is no such index, the first token is `UNKNOWN` with the whole input as
lexeme. -/
theorem string_termination (s : List Char) :
    (∀ i : Nat, IsClosingQuote ('\x22' :: s) i →
      (∀ m : Nat, m < i → ¬ IsClosingQuote ('\x22' :: s) m) →
      ∃ t ts, tokenize ('\x22' :: s) = some (t :: ts) ∧ t.type = TokenType.STRING_LITERAL ∧
        t.lexeme = ('\x22' :: s).take (i + 1)) ∧
    ((∀ i : Nat, ¬ IsClosingQuote ('\x22' :: s) i) →
      ∃ t ts, tokenize ('\x22' :: s) = some (t :: ts) ∧ t.type = TokenType.UNKNOWN ∧
        t.lexeme = '\x22' :: s) := by
  obtain ⟨M', hs', hpre, hstop, hst⟩ := string_run s
  rw [← scanToken_string (rest_init _)] at hst
  constructor
  · intro i hi hleast
    have hilt : i < ('\x22' :: s).length := by
      by_contra hge
      have := hi.2.1
      rw [List.getElem?_eq_none (by omega)] at this
      cases this
    have hne : isAtEnd M' = false := by
      cases he : isAtEnd M' with
      | false => rfl
      | true =>
        exfalso
        simp only [isAtEnd, hs', ge_iff_le, decide_eq_true_eq] at he
        exact hpre i (by omega) hi
    have hcl : IsClosingQuote ('\x22' :: s) M'.position := by
      rcases hstop with h | h
      · rw [hne] at h; cases h
      · exact h
    have hpos : M'.position = i := by
      rcases Nat.lt_trichotomy M'.position i with h | h | h
      · exact absurd hcl (hleast _ h)
      · exact h
      · exact absurd hi (hpre _ h)
    simp only [hne, Bool.false_eq_true, if_false] at hst
    obtain ⟨ts, hts, -⟩ := tokenize_cons (by simp) hst
    exact ⟨_, ts, hts, rfl, by simp [hpos]⟩
  · intro hnone
    have he : isAtEnd M' = true := by
      rcases hstop with h | h
      · exact h
      · exact absurd h (hnone _)
    simp only [he, if_true] at hst
    obtain ⟨ts, hts, -⟩ := tokenize_cons (by simp) hst
    refine ⟨_, ts, hts, rfl, ?_⟩
    simp only [isAtEnd, hs', ge_iff_le, decide_eq_true_eq] at he
    exact List.take_of_length_le he

theorem string_termination_witness :
    ∃ t ts, tokenize "\x22a\x5c\x22b\x22 c".toList = some (t :: ts) ∧
      t.type = TokenType.STRING_LITERAL ∧ t.lexeme = "\x22a\x5c\x22b\x22".toList :=
  (string_termination "a\x5c\x22b\x22 c".toList).1 5 (by decide) (by decide)

/-- The input `"a\\"`, whose body is an escaped backslash, is one `UNKNOWN` token. -/
theorem tokenize_escaped_backslash :
    (tokenize "\x22a\x5c\x5c\x22".toList).map kinds =
      some [(TokenType.UNKNOWN, "\x22a\x5c\x5c\x22".toList)] := by
  decide

theorem adv_line_column {L : Lexer} (h : peek L 0 ≠ '\n') :
    (adv L).column = L.column + 1 ∧ (adv L).line = L.line := by
  unfold adv advance
  simp [h]

theorem opStop_of_newline {M : Lexer} (h : peek M 0 = '\n') : opStop M = true := by
  unfold opStop
  rw [h]
  have : (isascii '\n' && isspace '\n') = true := by decide
  simp [this]

/-- The greedy read: it adds at most `n` units to `op`, stops early only at the
early-exit test, and moves the column by the number of units it read. -/
theorem opGreedy_run (n : Nat) : ∀ s : Lexer × List Char,
    (isAtEnd s.1 = false → peek s.1 0 ≠ '\n') →
    (opGreedy n s).2.length ≤ s.2.length + n ∧
    ((opGreedy n s).2.length < s.2.length + n → opStop (opGreedy n s).1 = true) ∧
    (opGreedy n s).1.column + (s.2.length : Int) = s.1.column + ((opGreedy n s).2.length : Int) ∧
    (opGreedy n s).1.line = s.1.line := by
  induction n with
  | zero => intro s _; simp [opGreedy]
  | succ n ih =>
    intro s hnl
    cases he : isAtEnd s.1 with
    | true =>
      have e : opGreedy (n + 1) s = s := by simp [opGreedy, he]
      rw [e]
      exact ⟨by omega, fun _ => by simp [opStop, he], rfl, rfl⟩
    | false =>
      have hcol := adv_line_column (hnl he)
      simp only [opGreedy, he, Bool.false_eq_true, if_false, advance_fst, advance_snd]
      split
      · rename_i hstop
        refine ⟨by simp, fun _ => hstop, ?_, hcol.2⟩
        simp [hcol.1]; omega
      · rename_i hstop
        obtain ⟨h1, h2, h3, h4⟩ := ih (adv s.1, s.2 ++ [peek s.1 0]) (fun _ hx =>
          hstop (opStop_of_newline hx))
        simp only [List.length_append, List.length_singleton] at h1 h2 h3
        refine ⟨by omega, fun hlt => h2 (by omega), ?_, ?_⟩
        · rw [hcol.1] at h3; push_cast at h3; omega
        · rw [h4, hcol.2]

theorem operators_shape : ∀ e ∈ OPERATORS, 1 ≤ e.1.length ∧ e.1.length ≤ 3 ∧
    (∀ ch ∈ e.1, (isascii ch && isspace ch) = false ∧ isAlphaNumeric ch = false) ∧
    (e.1.head? = some '.' ∨ ∃ c ∈ opStartChars, e.1.head? = some c) := by
  decide

theorem exists_of_isOperatorKey {op : List Char} (h : isOperatorKey op = true) :
    ∃ e ∈ OPERATORS, e.1 = op := by
  unfold isOperatorKey at h
  rw [List.any_eq_true] at h
  obtain ⟨e, he, heq⟩ := h
  exact ⟨e, he, by simpa using heq⟩

theorem opStartChars_single : ∀ c ∈ opStartChars, isOperatorKey [c] = true := by decide

/-- The scan of `operatorOrDelimiter` past the delimiter test: the shrink loop
returns with `op` the longest entry of the operator table that the unread text
starts with (empty when there is none), the cursor right after it, and the
column moved by its length. -/
theorem opScan {L : Lexer} (hnl : peek L 0 ≠ '\n') :
    ∃ t, whileLoop opShrinkCond opShrinkBody (opGreedy 3 (L, [])).2.length
        (opGreedy 3 (L, [])) = some t ∧
      t.1.source = L.source ∧ t.1.position = L.position + t.2.length ∧
      t.2 = (rest L).take t.2.length ∧ t.1.column = L.column + (t.2.length : Int) ∧
      t.1.line = L.line ∧ (t.2 = [] ∨ isOperatorKey t.2 = true) ∧
      (∀ op' : List Char, isOperatorKey op' = true → op' = (rest L).take op'.length →
        op'.length ≤ t.2.length) := by
  have hi0 : OpInv L L (L, []) (L, []) := ⟨rfl, rfl, rfl, rfl, rfl, rfl⟩
  obtain ⟨hg, -, -⟩ := opGreedy_spec (Sim.refl L) 3 _ _ hi0
  obtain ⟨hk3, hstop, hcol, hline⟩ := opGreedy_run 3 (L, []) (fun _ => hnl)
  generalize opGreedy 3 (L, []) = g at hg hk3 hstop hcol hline
  simp only [List.length_nil, Nat.zero_add, Nat.cast_zero, add_zero] at hk3 hstop hcol hline
  -- no entry of the table is longer than what the greedy read took
  have hmax : ∀ op' : List Char, isOperatorKey op' = true → op' = (rest L).take op'.length →
      op'.length ≤ g.2.length := by
    intro op' hop hpre
    obtain ⟨e, hmem, rfl⟩ := exists_of_isOperatorKey hop
    obtain ⟨-, hle3, hch, -⟩ := operators_shape e hmem
    by_contra hlt
    have hklt : g.2.length < e.1.length := by omega
    have hst := hstop (by omega)
    have hlen : e.1.length ≤ (rest L).length := by
      have := congrArg List.length hpre
      rw [List.length_take] at this
      omega
    have hrg : rest g.1 = (rest L).drop g.2.length := by
      rw [rest_of_step hg.src (by have := hg.pos; omega)]
      congr 1
      have := hg.pos; omega
    obtain ⟨ch, hch1⟩ : ∃ ch, (rest L)[g.2.length]? = some ch :=
      ⟨(rest L)[g.2.length], List.getElem?_eq_getElem (by omega)⟩
    have hmem' : ch ∈ e.1 := by
      refine List.getElem?_mem (?_ : e.1[g.2.length]? = some ch)
      rw [hpre, List.getElem?_take_of_lt hklt]
      exact hch1
    have hpk : peek g.1 0 = ch := by
      rw [peek_eq, hrg, List.getD_eq_getElem?_getD, List.getElem?_drop, Nat.add_zero, hch1]
      rfl
    have hne : isAtEnd g.1 = false := by
      rw [isAtEnd_eq, hrg]
      cases hx : List.drop g.2.length (rest L) with
      | nil =>
        have := List.drop_eq_nil_iff.mp hx
        omega
      | cons _ _ => rfl
    obtain ⟨h1, h2⟩ := hch ch hmem'
    simp [opStop, hne, hpk, h1, h2] at hst
  -- the shrink loop
  obtain ⟨t, ht, hP, hct⟩ := whileLoop_total opShrinkCond opShrinkBody (fun s => s.2.length)
    (fun s => s.1.source = L.source ∧ s.1.position = L.position + s.2.length ∧
      s.2 = (rest L).take s.2.length ∧ s.1.column = L.column + (s.2.length : Int) ∧
      s.1.line = L.line ∧ s.2.length ≤ g.2.length ∧
      ∀ m, s.2.length < m → m ≤ g.2.length → isOperatorKey ((rest L).take m) = false)
    (fun s _ hc => by
      simp only [opShrinkCond, Bool.and_eq_true, Bool.not_eq_true'] at hc
      have : 0 < s.2.length := List.length_pos.mpr (by simpa using hc.1)
      simp only [opShrinkBody, List.length_dropLast]; omega)
    (fun s hP hc => by
      obtain ⟨h1, h2, h3, h4, h5, h6, h7⟩ := hP
      simp only [opShrinkCond, Bool.and_eq_true, Bool.not_eq_true'] at hc
      have hpos : 0 < s.2.length := List.length_pos.mpr (by simpa using hc.1)
      refine ⟨h1, ?_, ?_, ?_, h5, ?_, ?_⟩
      · simp only [opShrinkBody, List.length_dropLast, h2]; omega
      · simp only [opShrinkBody, List.length_dropLast]
        calc s.2.dropLast = s.2.take (s.2.length - 1) := List.dropLast_eq_take _
          _ = ((rest L).take s.2.length).take (s.2.length - 1) := by rw [← h3]
          _ = (rest L).take (s.2.length - 1) := by
            rw [List.take_take]; congr 1; omega
      · simp only [opShrinkBody, List.length_dropLast, h4]
        have : ((s.2.length - 1 : Nat) : Int) = (s.2.length : Int) - 1 := by omega
        rw [this]; ring
      · simp only [opShrinkBody, List.length_dropLast]; omega
      · intro m hm1 hm2
        simp only [opShrinkBody, List.length_dropLast] at hm1
        rcases Nat.lt_or_ge s.2.length m with h | h
        · exact h7 m h hm2
        · have e : m = s.2.length := by omega
          rw [e, ← h3]; exact hc.2)
    g.2.length g
    ⟨hg.src, hg.pos, hg.text, by omega, hline, le_refl _, fun m h1 h2 => by omega⟩ (le_refl _)
  obtain ⟨h1, h2, h3, h4, h5, h6, h7⟩ := hP
  refine ⟨t, ht, h1, h2, h3, h4, h5, ?_, ?_⟩
  · simp only [opShrinkCond, Bool.and_eq_false_iff, Bool.not_eq_false',
      List.isEmpty_iff] at hct
    exact hct
  · intro op' hop hpre
    have hle := hmax op' hop hpre
    by_contra hlt
    have := h7 op'.length (by omega) hle
    rw [← hpre, hop] at this
    cases this

theorem opStartChars_class : ∀ c ∈ opStartChars,
    (c != '\x00' && isascii c && isspace c) = false ∧ isAlpha c = false ∧ c ≠ '_' ∧
    isDigit c = false ∧ c ≠ '\x22' ∧ c ≠ '\x27' ∧ isDelimiterKey c = false ∧ c ≠ '\n' := by
  decide

theorem alpha_table : ∀ n : Fin 128,
    isAlpha (Char.ofNat n.val) = true → Char.ofNat n.val ∈ letterChars := by
  decide

theorem mem_letterChars_of_isAlpha {c : Char} (h : isAlpha c = true) : c ∈ letterChars := by
  have hlt : c.toNat < 128 := by
    simp only [isAlpha, isascii, Bool.and_eq_true, decide_eq_true_eq] at h
    exact h.1
  have := alpha_table ⟨c.toNat, hlt⟩
  simp only [Char.ofNat_toNat] at this
  exact this h

theorem mem_delimiterChars_of_key {c : Char} (h : isDelimiterKey c = true) :
    c ∈ delimiterChars := by
  unfold isDelimiterKey at h
  rw [List.any_eq_true] at h
  obtain ⟨e, he, heq⟩ := h
  have hall : ∀ e ∈ DELIMITERS, e.1 ∈ delimiterChars := by decide
  have := hall e he
  rwa [show e.1 = c by simpa using heq] at this

/-- The dispatch of `scanToken` on a unit that starts no identifier, number, string,
character literal or comment. -/
theorem scanToken_operator {L : Lexer} {c : Char} {r : List Char} (hr : rest L = c :: r)
    (hsp : (c != '\x00' && isascii c && isspace c) = false) (ha : isAlpha c = false)
    (hu : c ≠ '_') (hd : isDigit c = false) (hq : c ≠ '\x22') (hq' : c ≠ '\x27')
    (hcm : c = '/' → r.head? ≠ some '/' ∧ r.head? ≠ some '*') :
    scanToken L = operatorOrDelimiter L := by
  have e0 : advanceWhile spaceCond L = some L :=
    advanceWhile_of_not_cond (spaceCond_of_rest hr hsp)
  have hcm' : (c == '/' && (peek L 1 == '/' || peek L 1 == '*')) = false := by
    by_cases hc : c = '/'
    · obtain ⟨h1, h2⟩ := hcm hc
      rw [peek_eq, hr]
      cases r with
      | nil => simp
      | cons d r =>
        simp only [List.head?_cons, ne_eq, Option.some.injEq] at h1 h2
        simp [h1, h2]
    · simp [hc]
  simp only [scanToken, e0, Option.some_bind]
  simp only [isAtEnd_eq, hr, List.isEmpty_cons, Bool.false_eq_true, if_false]
  have hp0 : peek L 0 = c := by rw [peek_eq, hr]; rfl
  simp [hp0, ha, hu, hd, hq, hq', hcm']

/-- C14. Operator longest match: when the input starts with one of
`+ - * / % = ! > < & | ^ ~` and not with `//` or `/*`, the first token is an
`OPERATOR` whose lexeme is the longest prefix of the input that is an entry of
the operator table, and the scan leaves the cursor offset and column at the
length of that lexeme. -/
theorem operator_longest_match (c : Char) (r : List Char) (hc : c ∈ opStartChars)
    (hcm : c = '/' → r.head? ≠ some '/' ∧ r.head? ≠ some '*') :
    ∃ t M ts, scanToken (Lexer.init (c :: r)) = some (t, M) ∧
      tokenize (c :: r) = some ({ t with column := 0, line := M.line } :: ts) ∧
      t.type = TokenType.OPERATOR ∧ isOperatorKey t.lexeme = true ∧
      t.lexeme = (c :: r).take t.lexeme.length ∧
      (∀ op' : List Char, isOperatorKey op' = true → op' = (c :: r).take op'.length →
        op'.length ≤ t.lexeme.length) ∧
      M.position = t.lexeme.length ∧ M.column = (t.lexeme.length : Int) := by
  obtain ⟨hsp, ha, hu, hd, hq, hq', hdel, hnl⟩ := opStartChars_class c hc
  generalize hL : Lexer.init (c :: r) = L
  have hrL : rest L = c :: r := by rw [← hL]; rfl
  have hp0 : peek L 0 = c := by rw [peek_eq, hrL]; rfl
  have hpL : L.position = 0 := by rw [← hL]; rfl
  have hcL : L.column = 0 := by rw [← hL]; rfl
  obtain ⟨t, ht, h1, h2, h3, h4, h5, h6, h7⟩ := opScan (L := L) (by rw [hp0]; exact hnl)
  rw [hrL] at h3 h7
  have hpos : 1 ≤ t.2.length := h7 [c] (opStartChars_single c hc) (by simp)
  have hne : t.2.isEmpty = false := by
    cases hx : t.2 with
    | nil => rw [hx] at hpos; simp at hpos
    | cons _ _ => rfl
  have hop : isOperatorKey t.2 = true := by
    rcases h6 with h | h
    · rw [h] at hpos; simp at hpos
    · exact h
  have hsc : scanToken L = some
      ({ lexeme := t.2, type := TokenType.OPERATOR, line := t.1.line, column := t.1.column },
        t.1) := by
    rw [scanToken_operator hrL hsp ha hu hd hq hq' hcm]
    simp only [operatorOrDelimiter, hp0, hdel, Bool.false_eq_true, if_false, ht,
      Option.some_bind, hne, Bool.not_false, if_true]
  obtain ⟨ts, hts, -⟩ := tokenize_cons (by simp) (hL ▸ hsc)
  refine ⟨_, t.1, ts, hsc, hts, rfl, hop, h3, h7, ?_, ?_⟩
  · simp [h2, hpL]
  · simp [h4, hcL]

theorem operator_longest_match_witness :
    ∃ t M ts, scanToken (Lexer.init "<<=a".toList) = some (t, M) ∧
      tokenize "<<=a".toList = some ({ t with column := 0, line := M.line } :: ts) ∧
      t.type = TokenType.OPERATOR ∧ isOperatorKey t.lexeme = true ∧
      t.lexeme = ("<<=a".toList).take t.lexeme.length ∧
      (∀ op' : List Char, isOperatorKey op' = true → op' = ("<<=a".toList).take op'.length →
        op'.length ≤ t.lexeme.length) ∧
      M.position = t.lexeme.length ∧ M.column = (t.lexeme.length : Int) :=
  operator_longest_match '<' "<=a".toList (by decide) (by decide)

/-- The operators `<<=`, `->`, `!=` and `=` are matched whole before a letter, a
space or the end of the input. -/
theorem tokenize_operator_examples :
    (tokenize "<<=a".toList).map kinds =
      some [(TokenType.OPERATOR, "<<=".toList), (TokenType.IDENTIFIER, "a".toList)] ∧
    (tokenize "-> !=".toList).map kinds =
      some [(TokenType.OPERATOR, "->".toList), (TokenType.OPERATOR, "!=".toList)] ∧
    (tokenize "=".toList).map kinds = some [(TokenType.OPERATOR, "=".toList)] := by
  decide

/-- C16. Unknown fallback: when the first character `c` is not ASCII whitespace, not
a letter, digit or `_`, not a quote, not a delimiter and not an operator start,
the first token is `UNKNOWN` with the lexeme `c` alone, followed by the tokens
of the rest of the input. -/
theorem unknown_fallback (c : Char) (r : List Char) (h1 : c ∉ asciiWhitespace)
    (h2 : c ∉ letterChars) (h3 : c ∉ digitChars) (h4 : c ≠ '_') (h5 : c ≠ '\x22')
    (h6 : c ≠ '\x27') (h7 : c ∉ delimiterChars) (h8 : c ∉ opStartChars) :
    ∃ ts tr, tokenize (c :: r) = some ts ∧ tokenize r = some tr ∧
      kinds ts = (TokenType.UNKNOWN, [c]) :: kinds tr := by
  have hsp : (c != '\x00' && isascii c && isspace c) = false := by
    cases hx : isspace c with
    | false => simp
    | true => exact absurd (mem_asciiWhitespace_of_isspace hx) h1
  have ha : isAlpha c = false := by
    cases hx : isAlpha c with
    | false => rfl
    | true => exact absurd (mem_letterChars_of_isAlpha hx) h2
  have hd : isDigit c = false := isDigit_eq_false_of_not_mem h3
  have hdel : isDelimiterKey c = false := by
    cases hx : isDelimiterKey c with
    | false => rfl
    | true => exact absurd (mem_delimiterChars_of_key hx) h7
  have hnl : c ≠ '\n' := fun e => h1 (by rw [e]; decide)
  have hsl : c ≠ '/' := fun e => h8 (by rw [e]; decide)
  generalize hL : Lexer.init (c :: r) = L
  have hrL : rest L = c :: r := by rw [← hL]; rfl
  have hp0 : peek L 0 = c := by rw [peek_eq, hrL]; rfl
  have hpL : L.position = 0 := by rw [← hL]; rfl
  have hsL : L.source = c :: r := by rw [← hL]; rfl
  obtain ⟨t, ht, t1, t2, t3, -, -, t6, -⟩ := opScan (L := L) (by rw [hp0]; exact hnl)
  rw [hrL] at t3
  -- no entry of the operator table starts with `c`
  have hnil : t.2 = [] := by
    rcases t6 with h | h
    · exact h
    · exfalso
      obtain ⟨e, hmem, he⟩ := exists_of_isOperatorKey h
      obtain ⟨hlen, -, -, hhead⟩ := operators_shape e hmem
      rw [he] at hlen hhead
      have hh : t.2.head? = some c := by
        rw [t3]
        obtain ⟨k, hk⟩ : ∃ k, t.2.length = k + 1 := ⟨t.2.length - 1, by omega⟩
        rw [hk]; rfl
      rw [hh] at hhead
      rcases hhead with h | ⟨d, hd', h⟩
      · exact h7 (by rw [Option.some.inj h]; decide)
      · exact h8 (by rw [Option.some.inj h]; exact hd')
  have hsc : scanToken L = some
      ({ lexeme := [c], type := TokenType.UNKNOWN, line := t.1.line,
         column := t.1.column - ((t.2.length : Nat) : Int) + 1 },
       { t.1 with position := L.position + 1,
                  column := t.1.column - ((t.2.length : Nat) : Int) + 1 }) := by
    rw [scanToken_operator hrL hsp ha h4 hd h5 h6 (fun e => absurd e hsl)]
    simp only [operatorOrDelimiter, hp0, hdel, Bool.false_eq_true, if_false, ht,
      Option.some_bind, hnil, List.isEmpty_nil, Bool.not_true, t1, hsL, hpL]
    rfl
  obtain ⟨tok, M, hsc, htyp, hlex, hMs, hMp⟩ : ∃ tok M, scanToken L = some (tok, M) ∧
      tok.type = TokenType.UNKNOWN ∧ tok.lexeme = [c] ∧ M.source = c :: r ∧ M.position = 1 :=
    ⟨_, _, hsc, rfl, rfl, by simp [t1, hsL], by simp [hpL]⟩
  have hsim : Sim M (Lexer.init r) := by
    constructor
    · unfold rest; rw [hMs, hMp]; rfl
    · rw [hMs, hMp]; simp; omega
  have hrem : remaining M = r.length := by simp [remaining, hMs, hMp]
  obtain ⟨ts, tr, ws, hts, htr, hrel⟩ := tokenizeLoop_spec r.length r.length M
    (Lexer.init r) hsim (by omega) (by omega)
  obtain ⟨ts0, hts0, hloop⟩ := tokenize_cons (by simp) (hL ▸ hsc)
  simp only [List.length_cons, Nat.add_sub_cancel] at hloop
  rw [hts] at hloop
  cases hloop
  refine ⟨_, tr, hts0, htr, ?_⟩
  simp only [kinds, List.map_cons, htyp, hlex]
  have := hrel.kinds_eq
  simp only [kinds] at this
  rw [this]

theorem unknown_fallback_witness :
    ∃ ts tr, tokenize "@<<=".toList = some ts ∧ tokenize "<<=".toList = some tr ∧
      kinds ts = (TokenType.UNKNOWN, ['@']) :: kinds tr :=
  unknown_fallback '@' "<<=".toList (by decide) (by decide) (by decide) (by decide)
    (by decide) (by decide) (by decide) (by decide)

/-- The unknown characters `@`, `#`, `$`, `?` and the backslash are one token each. -/
theorem tokenize_unknown_examples :
    (tokenize "@#$?\x5c".toList).map kinds =
      some [(TokenType.UNKNOWN, "@".toList), (TokenType.UNKNOWN, "#".toList),
        (TokenType.UNKNOWN, "$".toList), (TokenType.UNKNOWN, "?".toList),
        (TokenType.UNKNOWN, "\x5c".toList)] := by
  decide


/-! ### Cursor consistency -/

theorem lastLineLength_le (l : List Char) : lastLineLength l ≤ l.length := by
  unfold lastLineLength
  have := (List.takeWhile_sublist (fun c => c != '\n') (l := l.reverse)).length_le
  simpa using this

theorem lineStart_le (l : List Char) : lineStart l ≤ l.length := by
  unfold lineStart; omega

theorem lastLineLength_append_newline (l : List Char) : lastLineLength (l ++ ['\n']) = 0 := by
  simp [lastLineLength, List.takeWhile]

theorem lastLineLength_append_other (l : List Char) {c : Char} (h : c ≠ '\n') :
    lastLineLength (l ++ [c]) = lastLineLength l + 1 := by
  simp [lastLineLength, List.takeWhile_cons, h]

theorem take_succ_eq_append {L : Lexer} (h : L.position < L.source.length) :
    L.source.take (L.position + 1) = L.source.take L.position ++ [peek L 0] := by
  rw [List.take_succ, peek_getElem, Nat.add_zero, List.getElem?_eq_getElem h]
  rfl

theorem cursorOK_init (s : List Char) : CursorOK (Lexer.init s) := by
  constructor <;> simp [Lexer.init, newlines, lineStart, lastLineLength]

/-- A call of `advance()` keeps the cursor consistent, also past the end of the
input. -/
theorem cursorOK_adv {L : Lexer} (h : CursorOK L) : CursorOK (adv L) := by
  obtain ⟨h1, h2⟩ := h
  rcases Nat.lt_or_ge L.position L.source.length with hlt | hge
  · -- a unit of the source is consumed
    have htk := take_succ_eq_append hlt
    have hlen : (L.source.take L.position).length = L.position := by
      rw [List.length_take]; omega
    have hls := lastLineLength_le (L.source.take L.position)
    by_cases hc : peek L 0 = '\n'
    · have e : adv L = { L with position := L.position + 1, line := L.line + 1, column := 0 } := by
        unfold adv advance; simp [hc]
      constructor
      · rw [e]; simp only
        rw [htk, hc, h1]
        simp [newlines, List.count_append]
        ring
      · rw [e]; simp only
        rw [htk, hc]
        simp [lineStart, lastLineLength_append_newline]
        omega
    · obtain ⟨e1, e2⟩ := adv_line_column hc
      constructor
      · rw [e2, adv_source, adv_position, htk, h1]
        simp [newlines, List.count_append, List.count_cons, hc, Ne.symm hc]
      · rw [e1, adv_source, adv_position, htk, h2]
        simp only [lineStart, List.length_append, List.length_singleton,
          lastLineLength_append_other _ hc, hlen]
        omega
  · -- past the end: nothing is consumed, offset and column step together
    have hpk : peek L 0 = '\x00' := by
      unfold peek; simp; omega
    have hc : peek L 0 ≠ '\n' := by rw [hpk]; decide
    obtain ⟨e1, e2⟩ := adv_line_column hc
    have htk : L.source.take (L.position + 1) = L.source.take L.position := by
      rw [List.take_of_length_le (by omega), List.take_of_length_le hge]
    have hls := lineStart_le (L.source.take L.position)
    have hlen : (L.source.take L.position).length = L.source.length := by
      rw [List.length_take]; omega
    constructor
    · rw [e2, adv_source, adv_position, htk, h1]
    · rw [e1, adv_source, adv_position, htk, h2]
      omega

theorem cursorOK_advN {L : Lexer} (h : CursorOK L) (n : Nat) : CursorOK (advN n L) := by
  induction n generalizing L with
  | zero => exact h
  | succ n ih => exact ih (cursorOK_adv h)

theorem cursorOK_reach {L M : Lexer} (h : CursorOK L) (hr : Reach L M) : CursorOK M := by
  obtain ⟨n, rfl⟩ := hr
  exact cursorOK_advN h n

/-! ### Every scanner moves the cursor by calls of `advance()` -/

theorem advN_succ_right (n : Nat) (L : Lexer) : advN (n + 1) L = adv (advN n L) := by
  induction n generalizing L with
  | zero => rfl
  | succ n ih => exact ih (adv L)

theorem advN_advN (m n : Nat) (L : Lexer) : advN m (advN n L) = advN (n + m) L := by
  induction m with
  | zero => rfl
  | succ m ih => rw [advN_succ_right, ih, ← advN_succ_right]; rfl

theorem reach_refl (L : Lexer) : Reach L L := ⟨0, rfl⟩

theorem reach_adv {L M : Lexer} (h : Reach L M) : Reach L (adv M) := by
  obtain ⟨n, rfl⟩ := h
  exact ⟨n + 1, (advN_succ_right n L).symm⟩

theorem reach_advN {L M : Lexer} (h : Reach L M) (k : Nat) : Reach L (advN k M) := by
  obtain ⟨n, rfl⟩ := h
  exact ⟨n + k, advN_advN k n L⟩

theorem reach_trans {L M N : Lexer} (h₁ : Reach L M) (h₂ : Reach M N) : Reach L N := by
  obtain ⟨k, rfl⟩ := h₂
  exact reach_advN h₁ k

theorem reach_match {L M : Lexer} (h : Reach L M) (c : Char) : Reach L (match_ M c).2 := by
  unfold match_
  split
  · exact h
  · exact reach_adv h

theorem reach_matchEither {L M : Lexer} (h : Reach L M) (a b : Char) :
    Reach L (matchEither M a b).2 := by
  unfold matchEither
  dsimp only
  split
  · exact reach_match h a
  · exact reach_match (reach_match h a) b

theorem reach_advanceWhile {cond : Lexer → Bool} {p : Char → Bool} (hc : CharCond cond p)
    {L M N : Lexer} (h : Reach L M) (e : advanceWhile cond M = some N) : Reach L N := by
  rw [advanceWhile_eq hc M] at e
  cases e
  exact reach_advN h _

/-- A loop keeps every invariant of its body. -/
theorem whileLoop_invariant {σ : Type} (cond : σ → Bool) (body : σ → σ) (P : σ → Prop)
    (hinv : ∀ s, P s → cond s = true → P (body s)) :
    ∀ (n : Nat) (s t : σ), P s → whileLoop cond body n s = some t → P t := by
  intro n
  induction n with
  | zero =>
    intro s t hP h
    cases hc : cond s with
    | false => rw [whileLoop_of_not_cond _ hc] at h; cases h; exact hP
    | true => simp [whileLoop, hc] at h
  | succ n ih =>
    intro s t hP h
    cases hc : cond s with
    | false => rw [whileLoop_of_not_cond _ hc] at h; cases h; exact hP
    | true =>
      rw [whileLoop_step _ hc] at h
      exact ih _ _ (hinv s hP hc) h

theorem snd_of_some_eq {α : Type} {a : α} {M : Lexer} {r : α × Lexer}
    (h : some (a, M) = some r) : r.2 = M := by
  cases h; rfl

theorem identifier_reach {L : Lexer} {r : Token × Lexer} (h : identifier L = some r) :
    Reach L r.2 := by
  simp only [identifier, advanceWhile_eq identCond_char, Option.some_bind] at h
  have h0 := reach_advN (reach_adv (reach_refl L))
    ((rest (adv L)).takeWhile (fun c => isAlphaNumeric c || c == '_')).length
  split at h
  · rw [snd_of_some_eq h]; exact h0
  · split at h
    · rw [snd_of_some_eq h]; exact reach_adv h0
    · rw [snd_of_some_eq h]; exact h0

theorem numberMantissa_reach {L : Lexer} {st : Bool × Lexer}
    (h : numberMantissa L = some st) : Reach L st.2 := by
  unfold numberMantissa at h
  have h1 := reach_adv (reach_refl L)
  have hx := reach_matchEither h1 'x' 'X'
  have ho := reach_matchEither hx 'o' 'O'
  have hb := reach_matchEither ho 'b' 'B'
  split at h
  · dsimp only at h
    split at h
    · obtain ⟨N, hN, rfl⟩ := Option.map_eq_some'.mp h
      exact reach_advanceWhile hexCond_char hx hN
    · split at h
      · obtain ⟨N, hN, rfl⟩ := Option.map_eq_some'.mp h
        exact reach_advanceWhile octCond_char ho hN
      · split at h
        · obtain ⟨N, hN, rfl⟩ := Option.map_eq_some'.mp h
          exact reach_advanceWhile binCond_char hb hN
        · split at h
          · obtain ⟨N, hN, rfl⟩ := Option.map_eq_some'.mp h
            exact reach_advanceWhile digitCond_char (reach_adv hb) hN
          · cases h; exact hb
  · obtain ⟨M, hM, h⟩ := Option.bind_eq_some.mp h
    have hM' := reach_advanceWhile digitCond_char (reach_refl L) hM
    split at h
    · obtain ⟨N, hN, rfl⟩ := Option.map_eq_some'.mp h
      exact reach_advanceWhile digitCond_char (reach_adv hM') hN
    · cases h; exact hM'

theorem numberExponent_reach {st st' : Bool × Lexer} (h : numberExponent st = some st') :
    Reach st.2 st'.2 := by
  unfold numberExponent at h
  dsimp only at h
  split at h
  · obtain ⟨N, hN, rfl⟩ := Option.map_eq_some'.mp h
    exact reach_advanceWhile digitCond_char
      (reach_matchEither (reach_adv (reach_refl st.2)) '+' '-') hN
  · cases h; exact reach_refl _

theorem numberSuffix_reach {st st' : Bool × Lexer} (h : numberSuffix st = some st') :
    Reach st.2 st'.2 := by
  unfold numberSuffix at h
  dsimp only at h
  split at h
  · obtain ⟨N, hN, rfl⟩ := Option.map_eq_some'.mp h
    have := reach_advanceWhile suffixCond_char (reach_refl st.2) hN
    split <;> exact this
  · cases h; exact reach_refl _

theorem number_reach {L : Lexer} {r : Token × Lexer} (h : number L = some r) :
    Reach L r.2 := by
  unfold number at h
  obtain ⟨st1, h1, h⟩ := Option.bind_eq_some.mp h
  obtain ⟨st0, h0, h1⟩ := Option.bind_eq_some.mp h1
  obtain ⟨st2, h2, rfl⟩ := Option.map_eq_some'.mp h
  exact reach_trans (reach_trans (numberMantissa_reach h0) (numberExponent_reach h1))
    (numberSuffix_reach h2)

theorem string_reach {L : Lexer} {r : Token × Lexer} (h : string L = some r) :
    Reach L r.2 := by
  simp only [string] at h
  obtain ⟨M, hM, h⟩ := Option.bind_eq_some.mp h
  have hM' : Reach L M := whileLoop_invariant stringCond stringBody (Reach L)
    (fun s hs _ => by
      unfold stringBody
      split
      · exact reach_adv (reach_adv hs)
      · exact reach_adv hs)
    _ _ _ (reach_adv (reach_refl L)) hM
  split at h
  · rw [snd_of_some_eq h]; exact hM'
  · rw [snd_of_some_eq h]; exact reach_adv hM'

theorem character_reach {L : Lexer} {r : Token × Lexer} (h : character L = some r) :
    Reach L r.2 := by
  obtain ⟨M2, e2, h2⟩ : ∃ M2,
      (if peek (adv L) 0 == '\x5c' then adv (adv (adv L)) else adv (adv L)) = M2 ∧
        Reach L M2 := by
    split
    · exact ⟨_, rfl, reach_adv (reach_adv (reach_adv (reach_refl L)))⟩
    · exact ⟨_, rfl, reach_adv (reach_adv (reach_refl L))⟩
  simp only [character, e2] at h
  obtain ⟨M, hM, h⟩ := Option.bind_eq_some.mp h
  have hM' : Reach L M := by
    split at hM
    · exact reach_advanceWhile charCond_char h2 hM
    · rw [← Option.some.inj hM]; exact h2
  obtain ⟨M4, e4, h4⟩ : ∃ M4, (if !isAtEnd M then adv M else M) = M4 ∧ Reach L M4 := by
    split
    · exact ⟨_, rfl, reach_adv hM'⟩
    · exact ⟨_, rfl, hM'⟩
  simp only [e4] at h
  rw [snd_of_some_eq h]
  exact h4

theorem comment_reach {L : Lexer} {r : Token × Lexer} (h : comment L = some r) :
    Reach L r.2 := by
  simp only [comment] at h
  obtain ⟨M, hM, rfl⟩ := Option.map_eq_some'.mp h
  have h1 := reach_match (reach_adv (reach_refl L)) '/'
  have h2 := reach_match h1 '*'
  split at hM
  · exact reach_advanceWhile lineCommentCond_char h1 hM
  · split at hM
    · obtain ⟨s, hs, rfl⟩ := Option.map_eq_some'.mp hM
      exact whileLoop_invariant blockCommentCond blockCommentBody (fun s => Reach L s.1)
        (fun s hs _ => by
          unfold blockCommentBody
          split
          · exact reach_adv (reach_adv hs)
          · split
            · exact reach_adv (reach_adv hs)
            · exact reach_adv hs)
        _ _ _ h2 hs
    · cases hM; exact h2

theorem lexer_ext {L M : Lexer} (h1 : M.source = L.source) (h2 : M.position = L.position)
    (h3 : M.line = L.line) (h4 : M.column = L.column) : M = L := by
  cases L; cases M; simp only at h1 h2 h3 h4; subst h1 h2 h3 h4; rfl

/-- Calls of `advance()` over units that are no newline leave the line and move the
column with the offset. -/
theorem advN_no_newline (n : Nat) : ∀ L : Lexer, (∀ c ∈ (rest L).take n, c ≠ '\n') →
    (advN n L).line = L.line ∧ (advN n L).column = L.column + (n : Int) := by
  induction n with
  | zero => intro L _; simp [advN]
  | succ n ih =>
    intro L h
    have hp : peek L 0 ≠ '\n' := by
      rw [peek_eq]
      cases hr : rest L with
      | nil => decide
      | cons c cs =>
        rw [hr] at h
        exact h c (by simp)
    obtain ⟨e1, e2⟩ := adv_line_column hp
    obtain ⟨i1, i2⟩ := ih (adv L) (fun c hc => h c (by
      rw [rest_adv] at hc
      cases hr : rest L with
      | nil => rw [hr] at hc; simp at hc
      | cons d ds => rw [hr] at hc; simp at hc ⊢; exact Or.inr hc))
    simp only [advN]
    rw [i1, i2, e1, e2]
    exact ⟨rfl, by push_cast; ring⟩

theorem operatorOrDelimiter_reach {L : Lexer} {r : Token × Lexer}
    (hnl : peek L 0 ≠ '\n') (h : operatorOrDelimiter L = some r) : Reach L r.2 := by
  simp only [operatorOrDelimiter] at h
  split at h
  · rw [snd_of_some_eq h]; exact reach_adv (reach_refl L)
  · obtain ⟨t, ht, t1, t2, t3, t4, t5, t6, -⟩ := opScan hnl
    rw [ht] at h
    simp only [Option.some_bind] at h
    split at h
    · -- an operator: the cursor is `advN t.2.length L`
      rename_i hne
      have hop : isOperatorKey t.2 = true := by
        rcases t6 with h6 | h6
        · rw [h6] at hne; simp at hne
        · exact h6
      obtain ⟨e, hmem, heq⟩ := exists_of_isOperatorKey hop
      obtain ⟨-, -, hch, -⟩ := operators_shape e hmem
      have hno : ∀ c ∈ (rest L).take t.2.length, c ≠ '\n' := by
        rw [← t3, ← heq]
        intro c hc hx
        have := (hch c hc).1
        rw [hx] at this
        exact absurd this (by decide)
      obtain ⟨a1, a2⟩ := advN_no_newline t.2.length L hno
      rw [snd_of_some_eq h]
      exact ⟨t.2.length, lexer_ext (by simp [t1]) (by simp [t2]) (by rw [a1, t5])
        (by rw [a2, t4])⟩
    · -- no operator: one unit from the start
      rename_i hne
      have hnil : t.2 = [] := by simpa using hne
      obtain ⟨e1, e2⟩ := adv_line_column hnl
      rw [snd_of_some_eq h]
      refine ⟨1, lexer_ext ?_ ?_ ?_ ?_⟩
      · simp [advN, t1]
      · simp [advN]
      · simp only [advN]; rw [e2, t5]
      · simp only [advN]; rw [e1, t4, hnil]; simp

theorem scanToken_reach {L : Lexer} {r : Token × Lexer} (h : scanToken L = some r) :
    Reach L r.2 := by
  obtain ⟨M, M', eM, -, -, hcM⟩ := (Sim.refl L).advanceWhile spaceCond_char
  have hM := reach_advanceWhile spaceCond_char (reach_refl L) eM
  simp only [scanToken, eM, Option.some_bind] at h
  split at h
  · rw [snd_of_some_eq h]; exact hM
  · rename_i he
    have he' : isAtEnd M = false := by simpa using he
    split at h
    · exact reach_trans hM (identifier_reach h)
    · split at h
      · exact reach_trans hM (number_reach h)
      · split at h
        · exact reach_trans hM (string_reach h)
        · split at h
          · exact reach_trans hM (character_reach h)
          · split at h
            · exact reach_trans hM (comment_reach h)
            · refine reach_trans hM (operatorOrDelimiter_reach (fun hx => ?_) h)
              simp only [spaceCond] at hcM
              rw [hx] at hcM
              exact absurd hcM (by decide)

theorem lineStart_of_no_newline {l : List Char} (h : newlines l = 0) : lineStart l = 0 := by
  have hmem : ∀ c ∈ l.reverse, (c != '\n') = true := fun c hc => by
    have hc' : c ∈ l := List.mem_reverse.mp hc
    have hn : '\n' ∉ l := List.count_eq_zero.mp h
    simp only [bne_iff_ne, ne_eq]
    rintro rfl
    exact hn hc'
  simp only [lineStart, lastLineLength]
  rw [List.takeWhile_eq_self_iff.mpr hmem]
  simp

theorem reach_source {L M : Lexer} (h : Reach L M) : M.source = L.source := by
  obtain ⟨n, rfl⟩ := h
  exact advN_source n L

theorem cursorBefore_reach : ∀ (i : Nat) (L L0 : Lexer),
    cursorBefore i L = some L0 → Reach L L0 := by
  intro i
  induction i with
  | zero =>
    intro L L0 h
    simp only [cursorBefore] at h
    split at h
    · cases h
    · rw [← Option.some.inj h]; exact reach_refl L
  | succ i ih =>
    intro L L0 h
    simp only [cursorBefore] at h
    split at h
    · cases h
    · obtain ⟨r, hr, h⟩ := Option.bind_eq_some.mp h
      exact reach_trans (scanToken_reach hr) (ih r.2 L0 h)

/-- While the offset is inside the text, the column of a consistent cursor is the
number of units after the last newline of the consumed text. -/
theorem CursorOK.column_count {L : Lexer} (h : CursorOK L)
    (hp : L.position ≤ L.source.length) :
    L.column = (lastLineLength (L.source.take L.position) : Int) := by
  rw [h.column_eq]
  have h1 := lastLineLength_le (L.source.take L.position)
  have h2 : (L.source.take L.position).length = L.position := by
    simp [List.length_take, hp]
  simp only [lineStart]
  rw [h2] at h1 ⊢
  congr 1
  omega

/-- What holds of the cursor on every input, with `line` and `column` as the
unbounded integers of this embedding. In the initial state the cursor is
consistent with the consumed text. Every call of `scanToken` made by `tokenize`
(call number `i`, started from the cursor `L`) returns with a cursor over the same
input whose line is 1 plus the number of newlines of the consumed text
`source[0..position)` and whose column is the offset minus the offset where the
last line of the consumed text starts; only while the offset is inside the input
is that column the number of units after the last consumed newline. The line
recorded on each token is 1 plus the number of newlines before the end of the
token. -/
theorem cursor_tracks_offset (s : List Char) :
    CursorOK (Lexer.init s) ∧
    (∀ (i : Nat) (L : Lexer), cursorBefore i (Lexer.init s) = some L →
      ∃ r, scanToken L = some r ∧ r.2.source = s ∧
        r.2.line = 1 + (newlines (s.take r.2.position) : Int) ∧
        r.2.column = ((r.2.position - lineStart (s.take r.2.position) : Nat) : Int) ∧
        (newlines (s.take r.2.position) = 0 → r.2.column = (r.2.position : Int)) ∧
        (r.2.position ≤ s.length →
          r.2.column = (lastLineLength (s.take r.2.position) : Int))) ∧
    ∃ ts, tokenize s = some ts ∧
      ∀ (i : Nat) (t : Token), ts[i]? = some t →
        ∃ L r, cursorBefore i (Lexer.init s) = some L ∧ scanToken L = some r ∧
          t.lexeme = r.1.lexeme ∧
          t.line = 1 + (newlines (s.take r.2.position) : Int) := by
  have key : ∀ (i : Nat) (L : Lexer) (r : Token × Lexer),
      cursorBefore i (Lexer.init s) = some L → scanToken L = some r →
        r.2.source = s ∧ CursorOK r.2 := fun i L r hL hr => by
    have hreach := reach_trans (cursorBefore_reach i _ L hL) (scanToken_reach hr)
    exact ⟨by rw [reach_source hreach]; rfl, cursorOK_reach (cursorOK_init s) hreach⟩
  refine ⟨cursorOK_init s, fun i L hL => ?_, ?_⟩
  · obtain ⟨r, -, -, hr, -, -⟩ := scanToken_spec (Sim.refl L)
    obtain ⟨hs, hok⟩ := key i L r hL hr
    have hl := hok.line_eq
    have hc := hok.column_eq
    rw [hs] at hl hc
    refine ⟨r, hr, hs, hl, hc, fun h0 => ?_, fun hp => ?_⟩
    · rw [hc, lineStart_of_no_newline h0, Nat.sub_zero]
    · have := hok.column_count (by rw [hs]; exact hp)
      rwa [hs] at this
  · obtain ⟨ts, ts', ws, hts, -, -⟩ := tokenizeLoop_spec s.length s.length (Lexer.init s)
      (Lexer.init s) (Sim.refl _) (by simp [remaining]) (by simp [remaining])
    refine ⟨ts, hts, fun i t hi => ?_⟩
    obtain ⟨L, r, hL, hr, -, hlex, hline, -⟩ := tokenizeLoop_position _ _ _ hts i t hi
    obtain ⟨hs, hok⟩ := key i L r hL hr
    refine ⟨L, r, hL, hr, hlex, ?_⟩
    rw [hline, hok.line_eq, hs]

/-- C21 (the code departs from it). On the input of a newline followed by a single
quote, the first (and only) call of `scanToken` made by `tokenize` leaves the
cursor at offset 3, line 2, column 2. The consumed text `source[0..position)` is
the whole input, with one newline and one unit after it: the line, 2, is 1 plus
the number of newlines consumed, but the column, 2, is not the number of units
consumed since the newline, 1. `character()` has stepped the offset and the column
past the end of the input. -/
theorem cursor_column_past_end :
    ∃ t M, cursorBefore 0 (Lexer.init ['\n', '\x27']) = some (Lexer.init ['\n', '\x27']) ∧
      scanToken (Lexer.init ['\n', '\x27']) = some (t, M) ∧
      tokenize ['\n', '\x27'] =
        some [{ lexeme := ['\x27'], type := TokenType.CHAR_LITERAL, line := 2, column := 0 }] ∧
      M.source = ['\n', '\x27'] ∧ M.position = 3 ∧ M.line = 2 ∧ M.column = 2 ∧
      M.source.take M.position = ['\n', '\x27'] ∧
      newlines (M.source.take M.position) = 1 ∧
      lastLineLength (M.source.take M.position) = 1 ∧
      M.line = 1 + (newlines (M.source.take M.position) : Int) ∧
      M.column ≠ (lastLineLength (M.source.take M.position) : Int) :=
  ⟨{ lexeme := ['\x27'], type := TokenType.CHAR_LITERAL, line := 2, column := 2 },
    { source := ['\n', '\x27'], position := 3, line := 2, column := 2 },
    by decide, by decide, by decide, rfl, rfl, rfl, rfl, by decide, by decide, by decide,
    by decide, by decide⟩

/-- C22 fails on the input that is one single quote: the first (and only) call of
`scanToken` made by `tokenize` leaves the offset at 2 while the input has length 1;
the extracted lexeme is the one unit that exists, and `tokenize` finishes after this
call with the offset past the length of the input. -/
theorem cursor_bound_single_quote :
    ∃ t M, cursorBefore 0 (Lexer.init ['\x27']) = some (Lexer.init ['\x27']) ∧
      scanToken (Lexer.init ['\x27']) = some (t, M) ∧
      M.source = ['\x27'] ∧ M.position = 2 ∧ M.source.length = 1 ∧
      ¬ M.position ≤ M.source.length ∧ isAtEnd M = true ∧
      t.type = TokenType.CHAR_LITERAL ∧ t.lexeme = ['\x27'] ∧
      (tokenize ['\x27']).map kinds = some [(TokenType.CHAR_LITERAL, ['\x27'])] :=
  ⟨{ lexeme := ['\x27'], type := TokenType.CHAR_LITERAL, line := 1, column := 2 },
    { source := ['\x27'], position := 2, line := 1, column := 2 },
    by decide, by decide, rfl, rfl, rfl, by decide, by decide, rfl, rfl, by decide⟩

end RustLexer
